import Mathlib

/-!
Verification development for the dnsrouter core: a shallow embedding of the
indexable-name canonicalisation, the canonical-order index, the per-node type
table, the radix tree (registration and lookup), and the Class facade.

Domain names are modelled as byte strings (`List Nat`), exactly as Go strings
are byte sequences.  Machine integers (`uint16`, `uint32`, `uint8`) are
modelled as `Nat`: none of the modelled operations can overflow them on the
inputs the source handles (lengths and counters stay far below the bounds, and
qtype values are only compared for order and equality).
-/

namespace DnsRouter

/-- A Go string as a list of bytes. -/
abbrev Bytes := List Nat

/-- The byte `'.'`. -/
def dotB : Nat := 46

/-- The byte `':'`. -/
def colonB : Nat := 58

/-- The byte `'*'`. -/
def starB : Nat := 42

/-- Go lexicographic string comparison `x < y` on byte strings. -/
def bytesLt : Bytes → Bytes → Bool
  | [], [] => false
  | [], _ :: _ => true
  | _ :: _, [] => false
  | x :: xs, y :: ys =>
    if x < y then true
    else if y < x then false
    else bytesLt xs ys

/-- Go `strings.HasPrefix s pre` on byte strings. -/
def hasPre (s pre : Bytes) : Bool :=
  s.take pre.length == pre

/-- Go `strings.Count s "."`: number of `'.'` bytes. -/
def countDots (s : Bytes) : Nat :=
  s.countP (· == dotB)

/-- Go `strings.Index s "."`: position of the first `'.'` byte, if any. -/
def indexDot (s : Bytes) : Option Nat :=
  s.findIdx? (· == dotB)

def isFqdn (s : Bytes) : Bool :=
  match s.getLast? with
  | some c => c == dotB
  | none => false

/-- `dns.Fqdn`: append a trailing `'.'` unless already fully qualified. -/
def fqdn (s : Bytes) : Bytes :=
  if isFqdn s then s else s ++ [dotB]

/-- `isIndexable` from router.go: non-empty and the first byte is `'.'`. -/
def isIndexable (s : Bytes) : Bool :=
  match s with
  | [] => false
  | c :: _ => c == dotB

/-- `reveseChars` from router.go: reverse a byte slice in place. -/
def reveseChars (b : Bytes) : Bytes :=
  b.reverse

/-- One byte of Go's A–Z to a–z folding in `indexable`. -/
def lowerByte (c : Nat) : Nat :=
  if 65 ≤ c ∧ c ≤ 90 then c + 32 else c

/-- Worker of the label-reversal pass of `reverseLabels` from router.go: `seg`
holds the bytes of the current run of non-`'.'` bytes already seen, in
reversed order (the in-place reversal of the Go scan). -/
def revSegsAux : Bytes → Bytes → Bytes
  | seg, [] => seg
  | seg, c :: rest =>
    if c = dotB then seg ++ dotB :: revSegsAux [] rest
    else revSegsAux (c :: seg) rest

/-- The label-reversal pass of `reverseLabels` from router.go: the scan with
`begin` reverses each maximal run of non-`'.'` bytes in place and leaves the
`'.'` bytes where they are. -/
def revSegs (b : Bytes) : Bytes :=
  revSegsAux [] b

/-- `reverseLabels` from router.go: reverse the bytes of every label in place,
then reverse the whole buffer. -/
def reverseLabels (b : Bytes) : Bytes :=
  reveseChars (revSegs b)

/-- `indexable` from router.go: fold A–Z to a–z and reverse the labels. -/
def indexable (s : Bytes) : Bytes :=
  if s.length ≤ 1 then s
  else reverseLabels (s.map lowerByte)

/-- `newIndexableName` from router.go. -/
def newIndexableName (name : Bytes) : Bytes :=
  if isIndexable name then name else indexable (fqdn name)

def splitLabel (x : Bytes) : Bytes × Bytes :=
  match indexDot x with
  | none => (x, x)
  | some i => (x.take i, x.drop (i + 1))

/-- The cascade of wildcard checks shared by `canonicalOrderLess`'s label loop
and its tail block: `'*'`-labels sort last, `':'`-labels next-to-last, a pair
of `':'`-labels defers the decision to `k` (the loop `continue`s there, the
tail block returns `nX < nY`), and otherwise the byte strings are compared. -/
def colDecide (xI yI : Bytes) (k : Bool) : Bool :=
  if 1 < xI.length ∧ xI.head? = some starB then false
  else if 1 < yI.length ∧ yI.head? = some starB then true
  else if (1 < xI.length ∧ xI.head? = some colonB) ∧
          (1 < yI.length ∧ yI.head? = some colonB) then k
  else if 1 < xI.length ∧ xI.head? = some colonB then false
  else if 1 < yI.length ∧ yI.head? = some colonB then true
  else bytesLt xI yI

/-- The decision block of `canonicalOrderLess` run after the label loop
(`if x != y { ... }; return x < y`). -/
def colTail (x y : Bytes) (nX nY : Nat) : Bool :=
  if x ≠ y then colDecide x y (decide (nX < nY))
  else bytesLt x y

/-- The label loop of `canonicalOrderLess`: runs `n` times, comparing one
label of `x` and `y` per iteration; a differing pair of labels decides the
comparison unless both start with `':'` (then the loop continues); after the
loop the remainders are compared by `colTail`. -/
def colLoop : Nat → Bytes → Bytes → Nat → Nat → Bool
  | 0, x, y, nX, nY => colTail x y nX nY
  | n + 1, x, y, nX, nY =>
    let s := splitLabel x
    let t := splitLabel y
    if s.1 ≠ t.1 then colDecide s.1 t.1 (colLoop n s.2 t.2 nX nY)
    else colLoop n s.2 t.2 nX nY

/-- `canonicalOrderLess` from router.go. -/
def canonicalOrderLess (x y : Bytes) : Bool :=
  colLoop (min (countDots x) (countDots y)) x y (countDots x) (countDots y)

/-- Go's `sort.Search(n, f)` binary search: the invariant-based loop
`i, j := 0, n; for i < j { h := (i+j)/2; if !f(h) { i = h+1 } else { j = h } }`.
`(i+j)/2` is exact on `Nat` (the `uint` cast in the source only avoids
overflow). -/
def goSearchAux (f : Nat → Bool) (i j : Nat) : Nat :=
  if h : i < j then
    let m := (i + j) / 2
    if f m then goSearchAux f i m else goSearchAux f (m + 1) j
  else i
  termination_by j - i
  decreasing_by
    · omega
    · omega

/-- Go's `sort.Search(n, f)`. -/
def goSearch (n : Nat) (f : Nat → Bool) : Nat :=
  goSearchAux f 0 n

/-- `canonicalOrder.Previous` from router.go.  Returns the previous name and
the found flag; an empty index yields `("", false)`. -/
def canonicalOrderPrevious (l : List Bytes) (name : Bytes) : Bytes × Bool :=
  if l.length = 0 then ([], false)
  else
    let i := goSearch l.length fun i => ! canonicalOrderLess (l.getD i []) name
    let found := decide (i < l.length) && (l.getD i []) == name
    let i' := if i = 0 then l.length else i
    (l.getD (i' - 1) [], found)

/-- A canonical-order index supports lower-bound search: for every probe
name, the elements less than it form a prefix of the index.  (A strict total
order would make this follow from pairwise sortedness; since
`canonicalOrderLess` is not transitive, the property is stated directly — it
is what "sorted" must mean for `sort.Search`'s contract to apply.) -/
def LowerBoundSorted (l : List Bytes) : Prop :=
  ∀ nm : Bytes, ∀ i j, i ≤ j → j < l.length →
    canonicalOrderLess (l.getD i []) nm = false →
    canonicalOrderLess (l.getD j []) nm = false

def typeNS : Nat := 2

def typeCNAME : Nat := 5

def typeSOA : Nat := 6

def typeDNAME : Nat := 39

def typeRRSIG : Nat := 46

def typeNSEC : Nat := 47

def typeNSEC3 : Nat := 50

def typeANY : Nat := 255

/-- `typeHandler` from the tree source. -/
structure TypeHandler where
  Origin : Bytes
  Qtype : Nat
  TypeCovered : Nat
  HandlerId : Nat
  AnswerName : Option Bytes
  deriving DecidableEq

/-- The zero `typeHandler`, used only as the out-of-range default of list
indexing (Go indexing never reaches it on the guarded paths). -/
def thDflt : TypeHandler := ⟨[], 0, 0, 0, none⟩

/-- `classHandler.Less` from the tree source: lexicographic on
`(Qtype, TypeCovered)`. -/
def thLess (a b : TypeHandler) : Bool :=
  decide (a.Qtype < b.Qtype) ||
    (decide (a.Qtype = b.Qtype) && decide (a.TypeCovered < b.TypeCovered))

/-- Insert into a list already sorted in `sort.Sort`'s sense for `thLess`. -/
def sortInsert (x : TypeHandler) : List TypeHandler → List TypeHandler
  | [] => [x]
  | y :: ys => if thLess y x then y :: sortInsert x ys else x :: y :: ys

/-- `sort.Sort` on a `classHandler`: produces a permutation that is sorted
with respect to `thLess` (Go's quicksort is unstable; any sorted permutation
realises its contract, and entries with equal `(Qtype, TypeCovered)` keys are
interchangeable for every observation the core makes). -/
def sortCH (l : List TypeHandler) : List TypeHandler :=
  l.foldr sortInsert []

/-- Go `strings.HasSuffix`. -/
def hasSuf (s suf : Bytes) : Bool :=
  decide (suf.length ≤ s.length) && (s.drop (s.length - suf.length) == suf)

/-- `classHandler.Search` from the tree source: binary search to the lower
bound of `qtype`, then a linear scan collecting the run of entries with that
qtype; `nil` when the run is empty. -/
def classHandlerSearch (l : List TypeHandler) (qtype : Nat) :
    Option (List TypeHandler) :=
  let i := goSearch l.length fun i => decide (qtype ≤ (l.getD i thDflt).Qtype)
  let seg := (l.drop i).takeWhile fun h => h.Qtype == qtype
  if seg.isEmpty then none else some seg

/-- `classHandler.SearchCovered` from the tree source. -/
def searchCovered (l : List TypeHandler) (tc : Nat) : Option (List TypeHandler) :=
  let i := goSearch l.length fun i => decide (tc ≤ (l.getD i thDflt).TypeCovered)
  let seg := (l.drop i).takeWhile fun h => h.TypeCovered == tc
  if seg.isEmpty then none else some seg

/-- `rrType` bit flags from the tree source (`rrNs`, `rrSoa`, `rrDname`). -/
structure RrFlags where
  ns : Bool
  soa : Bool
  dname : Bool
  deriving DecidableEq

/-- `rrType & rrZone > 0`. -/
def RrFlags.zone (r : RrFlags) : Bool := r.ns || r.soa

/-- `nodeData` from the tree source. -/
structure NodeData where
  handler : List TypeHandler
  rrType : RrFlags
  deriving DecidableEq

/-- `new(nodeData)`: the zero value. -/
def emptyNodeData : NodeData := ⟨[], ⟨false, false, false⟩⟩

/-- `nodeData.addHandler` from the tree source: append, re-sort when the
table holds more than one entry, and update the rr flags (NS and SOA only
when the handler's answer-record name is suffixed by its origin; DNAME
always). -/
def addHandler (p : NodeData) (h : TypeHandler) : NodeData :=
  let hs := p.handler ++ [h]
  let hs := if 1 < hs.length then sortCH hs else hs
  let originated :=
    match h.AnswerName with
    | some nm => hasSuf nm h.Origin
    | none => true
  let rr := p.rrType
  let rr :=
    if h.Qtype = typeNS then (if originated then { rr with ns := true } else rr)
    else if h.Qtype = typeSOA then (if originated then { rr with soa := true } else rr)
    else if h.Qtype = typeDNAME then { rr with dname := true }
    else rr
  { handler := hs, rrType := rr }

/-- Sorted in `sort.Sort`'s sense for `thLess`: no later entry is strictly
less than an earlier one. -/
def SortedCH (l : List TypeHandler) : Prop :=
  l.Pairwise fun a b => thLess b a = false

inductive NType where
  | static
  | root
  | param
  | catchAll
  | anonymousCatchAll
  deriving DecidableEq

/-- `wildChildType` from the tree source. -/
inductive WildChild where
  | none
  | named
  | anonymous
  deriving DecidableEq

/-- `node` from the tree source. -/
inductive Node where
  | mk (name : Bytes) (wildChild : WildChild) (nType : NType) (maxParams : Nat)
      (indices : Bytes) (children : List Node) (data : Option NodeData)
      (priority : Nat)

def Node.name : Node → Bytes | .mk x _ _ _ _ _ _ _ => x

def Node.wildChild : Node → WildChild | .mk _ x _ _ _ _ _ _ => x

def Node.nType : Node → NType | .mk _ _ x _ _ _ _ _ => x

def Node.maxParams : Node → Nat | .mk _ _ _ x _ _ _ _ => x

def Node.indices : Node → Bytes | .mk _ _ _ _ x _ _ _ => x

def Node.children : Node → List Node | .mk _ _ _ _ _ x _ _ => x

def Node.data : Node → Option NodeData | .mk _ _ _ _ _ _ x _ => x

def Node.priority : Node → Nat | .mk _ _ _ _ _ _ _ x => x

def Node.withName (n : Node) (v : Bytes) : Node :=
  match n with | .mk _ b c d e f g h => .mk v b c d e f g h

def Node.withWildChild (n : Node) (v : WildChild) : Node :=
  match n with | .mk a _ c d e f g h => .mk a v c d e f g h

def Node.withNType (n : Node) (v : NType) : Node :=
  match n with | .mk a b _ d e f g h => .mk a b v d e f g h

def Node.withMaxParams (n : Node) (v : Nat) : Node :=
  match n with | .mk a b c _ e f g h => .mk a b c v e f g h

def Node.withIndices (n : Node) (v : Bytes) : Node :=
  match n with | .mk a b c d _ f g h => .mk a b c d v f g h

def Node.withChildren (n : Node) (v : List Node) : Node :=
  match n with | .mk a b c d e _ g h => .mk a b c d e v g h

def Node.withData (n : Node) (v : Option NodeData) : Node :=
  match n with | .mk a b c d e f _ h => .mk a b c d e f v h

def Node.withPriority (n : Node) (v : Nat) : Node :=
  match n with | .mk a b c d e f g _ => .mk a b c d e f g v

/-- The zero `node` value (`new(node)` / `&node{}`). -/
def Node.empty : Node := .mk [] .none .static 0 [] [] none 0

/-- `countParams` from the tree source: the number of `':'` and `'*'` bytes,
capped at 255. -/
def countParams (name : Bytes) : Nat :=
  let n := name.countP fun c => c == colonB || c == starB
  if 255 ≤ n then 255 else n

/-- Registration failures.  The first six are the registration-error panics
of the tree source; `outOfRange` stands for the Go runtime panics (index out
of range, nil dereference) reachable on malformed inputs; `fuelOut` is the
shallow embedding's recursion bound, never hit with adequate fuel. -/
inductive AddErr where
  | wildcardConflict
  | dupHandle
  | multiWildcard
  | emptyWildcard
  | wildcardChildConflict
  | catchAllNotAtEnd
  | catchAllRootConflict
  | noDotBeforeCatchAll
  | outOfRange
  | fuelOut
  deriving DecidableEq

/-- Longest common prefix length (the `for i < max && name[i] == n.name[i]`
scan of `addRoute`). -/
def commonPrefixLen : Bytes → Bytes → Nat
  | x :: xs, y :: ys => if x = y then commonPrefixLen xs ys + 1 else 0
  | _, _ => 0

/-- Linear scan of an index string for a byte (`for i := 0; i < len(n.indices)`). -/
def findIdxByte (indices : Bytes) (c : Nat) : Option Nat :=
  indices.findIdx? (· == c)

/-- The move-to-front loop of `incrementChildPrio`.  `cs` is the full child
list, `off` is 1 when slot 0 is reserved for a wildcard child (the slice
offset of `children = children[1:]`), `prio` the bumped priority.  The Go
loop's stop condition reads `n.children[newPos-1]` — the full list, not the
offset slice — which is translated verbatim. -/
def icpLoop (off prio : Nat) : List Node → Nat → Option (List Node × Nat)
  | cs, 0 => some (cs, 0)
  | cs, m + 1 =>
    match cs.get? m with
    | Option.none => Option.none
    | some prev =>
      if prev.priority < prio then
        match cs.get? (m + off), cs.get? (m + 1 + off) with
        | some a, some b =>
          icpLoop off prio ((cs.set (m + off) b).set (m + 1 + off) a) m
        | _, _ => Option.none
      else some (cs, m + 1)

/-- The slice offset of `children = children[1:]` in `incrementChildPrio`
(slot 0 is reserved when a wildcard child is present). -/
def wcOff (n : Node) : Nat := if n.wildChild ≠ WildChild.none then 1 else 0

/-- `incrementChildPrio` from the tree source: bump the priority of the child
at offset-slice position `pos`, bubble it toward the front, permute `indices`
identically, and return the updated node with the child's new full-list
position. -/
def incrementChildPrio (n : Node) (pos : Nat) : Option (Node × Nat) :=
  match n.children.get? (pos + wcOff n) with
  | Option.none => Option.none
  | some child =>
    match icpLoop (wcOff n) (child.priority + 1)
        (n.children.set (pos + wcOff n) (child.withPriority (child.priority + 1)))
        pos with
    | Option.none => Option.none
    | some (cs', newPos) =>
      if newPos ≠ pos then
        if pos < n.indices.length then
          some ((n.withChildren cs').withIndices
            (n.indices.take newPos ++ [n.indices.getD pos 0] ++
              ((n.indices.drop newPos).take (pos - newPos)) ++
              n.indices.drop (pos + 1)), newPos + wcOff n)
        else Option.none
      else some (n.withChildren cs', newPos + wcOff n)

/-- The wildcard-end scan of `insertChild`: from position `s`, advance to the
next `'.'` or the end of the name; a second `':'`/`'*'` inside the label is
the MultipleWildcardPerLabel panic (`Option.none`). -/
def wildEnd (name : Bytes) : Nat → Nat → Option Nat
  | s, 0 => some s
  | s, fuel + 1 =>
    if s < name.length then
      let c := name.getD s 0
      if c = dotB then some s
      else if c = colonB ∨ c = starB then Option.none
      else wildEnd name (s + 1) fuel
    else some s

/-- The wildcard scan of `insertChild`'s outer loop: the position of the next
`':'` or `'*'` byte at or after `i`, if any. -/
def findWildFrom (name : Bytes) (i : Nat) : Option Nat :=
  match (name.drop i).findIdx? (fun c => c == colonB || c == starB) with
  | Option.none => Option.none
  | some k => some (i + k)

/-- One iteration of the wildcard loop of `insertChild` from the tree
source: handle the next `':'`/`'*'` wildcard at or after scan position `i`
(`offset` counts the already-handled name bytes, `np + 1` is the current
`numParams`); `rec` continues the loop with `numParams` decremented. -/
def icStep (name fullName : Bytes) (h : TypeHandler)
    (rec : Node → Nat → Nat → Node × Option AddErr)
    (n : Node) (np : Nat) (i : Nat) (offset : Nat) : Node × Option AddErr :=
  match findWildFrom name i with
  | Option.none => (n, some AddErr.outOfRange)
  | some iw =>
    match wildEnd name (iw + 1) name.length with
    | Option.none => (n, some AddErr.multiWildcard)
    | some e0 =>
      if name.getD iw 0 = starB ∧ e0 = name.length ∧ hasSuf fullName [dotB, starB] then
        -- anonymous RFC 4592 wildcard: prepend the catch-all child
        ((((if 0 < iw then n.withName ((name.drop offset).take (iw - offset)) else n).withChildren
            (Node.mk (name.drop (if 0 < iw then iw else offset)) WildChild.none
                NType.anonymousCatchAll (np + 1) [] []
                (some (addHandler emptyNodeData h)) 1 ::
              (if 0 < iw then n.withName ((name.drop offset).take (iw - offset))
                else n).children)).withWildChild WildChild.anonymous),
          Option.none)
      else if 0 < n.children.length then (n, some AddErr.wildcardChildConflict)
      else if e0 - iw < 2 then (n, some AddErr.emptyWildcard)
      else if name.getD iw 0 = colonB then
        -- named parameter
        if e0 < name.length then
          -- a static sub-name follows the parameter label
          ((((if 0 < iw then n.withName ((name.drop offset).take (iw - offset))
                else n).withChildren
              [Node.mk ((name.drop (if 0 < iw then iw else offset)).take
                    (e0 - (if 0 < iw then iw else offset))) WildChild.none NType.param
                  (np + 1) []
                  [(rec ((Node.empty.withMaxParams np).withPriority 1) (iw + 1) e0).1]
                  Option.none 1]).withWildChild WildChild.named),
            (rec ((Node.empty.withMaxParams np).withPriority 1) (iw + 1) e0).2)
        else
          -- the name ends with the parameter label
          ((((if 0 < iw then n.withName ((name.drop offset).take (iw - offset))
                else n).withChildren
              [(rec (Node.mk [] WildChild.none NType.param (np + 1) [] [] Option.none 1)
                  (iw + 1) (if 0 < iw then iw else offset)).1]).withWildChild
            WildChild.named),
            (rec (Node.mk [] WildChild.none NType.param (np + 1) [] [] Option.none 1)
                (iw + 1) (if 0 < iw then iw else offset)).2)
      else
        -- named catch-all
        if e0 ≠ name.length ∨ 1 < np + 1 then (n, some AddErr.catchAllNotAtEnd)
        else if 0 < n.name.length ∧ n.name.getLast? = some dotB then
          (n, some AddErr.catchAllRootConflict)
        else if iw = 0 then (n, some AddErr.outOfRange)
        else if name.getD (iw - 1) 0 ≠ dotB then (n, some AddErr.noDotBeforeCatchAll)
        else
          (((n.withName ((name.drop offset).take (iw - 1 - offset))).withChildren
              [Node.mk [] WildChild.named NType.catchAll 1 []
                  [Node.mk (name.drop (iw - 1)) WildChild.none NType.catchAll 1 [] []
                    (some (addHandler emptyNodeData h)) 1]
                  Option.none 1]).withIndices [dotB],
            Option.none)

/-- The wildcard loop of `insertChild`, recursing on `numParams` (the Go
loop's condition `numParams > 0`; it decreases by exactly one per handled
parameter).  When `numParams` is 0 the loop is over and the remaining name
part and the handler are installed on the leaf. -/
def icGo (name fullName : Bytes) (h : TypeHandler) :
    Node → Nat → Nat → Nat → Node × Option AddErr
  | n, 0, _, offset =>
    let d := n.data.getD emptyNodeData
    ((n.withName (name.drop offset)).withData (some (addHandler d h)), Option.none)
  | n, np + 1, i, offset =>
    icStep name fullName h (fun n' => icGo name fullName h n' np) n np i offset

/-- `insertChild` from the tree source. -/
def insertChild (n : Node) (numParams : Nat) (name fullName : Bytes)
    (h : TypeHandler) : Node × Option AddErr :=
  icGo name fullName h n numParams 0 0

/-- One Go `walk` iteration of `addRoute`.  Each `continue walk` is a call
of `rec`; the updated subtree is threaded back so that mutations made before
a registration panic are preserved in the result, exactly as the in-place Go
mutations are. -/
def arStepL (fullName : Bytes) (allowDup : Bool) (h : TypeHandler)
    (rec : Node → Bytes → Nat → Node × Option AddErr)
    (n0 : Node) (name : Bytes) (numParams : Nat) : Node × Option AddErr :=
    -- update maxParams of the current node
    let n := if n0.maxParams < numParams then n0.withMaxParams numParams else n0
    let i := commonPrefixLen name n.name
    -- split edge
    let n :=
      if i < n.name.length then
        let child := Node.mk (n.name.drop i) n.wildChild NType.static
          (n.children.foldl (fun m c => max m c.maxParams) 0)
          n.indices n.children n.data (n.priority - 1)
        ((((n.withChildren [child]).withIndices [n.name.getD i 0]).withName
          (name.take i)).withData Option.none).withWildChild WildChild.none
      else n
    if i < name.length then
      let name' := name.drop i
      if n.wildChild = WildChild.named then
        match n.children.get? 0 with
        | Option.none => (n, some AddErr.outOfRange)
        | some c0 =>
          let c0 := c0.withPriority (c0.priority + 1)
          let c0 := if c0.maxParams < numParams then c0.withMaxParams numParams else c0
          if c0.name.length ≤ name'.length ∧ name'.take c0.name.length = c0.name ∧
              (name'.length ≤ c0.name.length ∨ name'.getD c0.name.length 0 = dotB) then
            let r := rec c0 name' (numParams - 1)
            (n.withChildren (n.children.set 0 r.1), r.2)
          else
            (n.withChildren (n.children.set 0 c0), some AddErr.wildcardConflict)
      else
        let c := name'.getD 0 0
        if n.nType = NType.param ∧ c = dotB ∧ n.children.length = 1 then
          match n.children.get? 0 with
          | Option.none => (n, some AddErr.outOfRange)
          | some c0 =>
            let c0 := c0.withPriority (c0.priority + 1)
            let r := rec c0 name' numParams
            (n.withChildren (n.children.set 0 r.1), r.2)
        else
          match findIdxByte n.indices c with
          | some ipos =>
            match incrementChildPrio n ipos with
            | Option.none => (n, some AddErr.outOfRange)
            | some (n2, j) =>
              match n2.children.get? j with
              | Option.none => (n2, some AddErr.outOfRange)
              | some cj =>
                let r := rec cj name' numParams
                (n2.withChildren (n2.children.set j r.1), r.2)
          | Option.none =>
            if c ≠ colonB ∧ c ≠ starB then
              let fresh := Node.empty.withMaxParams numParams
              let n2 := (n.withIndices (n.indices ++ [c])).withChildren
                (n.children ++ [fresh])
              match incrementChildPrio n2 (n2.indices.length - 1) with
              | Option.none => (n2, some AddErr.outOfRange)
              | some (n3, j) =>
                match n3.children.get? j with
                | Option.none => (n3, some AddErr.outOfRange)
                | some cj =>
                  let r := insertChild cj numParams name' fullName h
                  (n3.withChildren (n3.children.set j r.1), r.2)
            else if n.wildChild = WildChild.anonymous then
              if !allowDup then (n, some AddErr.dupHandle)
              else
                match n.children.get? 0 with
                | Option.none => (n, some AddErr.outOfRange)
                | some c0 =>
                  match c0.data with
                  | Option.none => (n, some AddErr.outOfRange)
                  | some d =>
                    let c0' := (c0.withData (some (addHandler d h))).withPriority
                      (c0.priority + 1)
                    (n.withChildren (n.children.set 0 c0'), Option.none)
            else
              insertChild n numParams name' fullName h
    else
      -- i == name.length: this node is the (in-name) leaf
      if n.data.isSome ∧ !allowDup then (n, some AddErr.dupHandle)
      else
        let d := n.data.getD emptyNodeData
        (n.withData (some (addHandler d h)), Option.none)

/-- The edge split of a `walk` iteration of `addRoute`: when only a proper
prefix `i` of the current node's name is shared, push the node down into a
fresh static child and keep the common prefix. -/
def arSplit (n : Node) (name : Bytes) (i : Nat) : Node :=
  if i < n.name.length then
    let child := Node.mk (n.name.drop i) n.wildChild NType.static
      (n.children.foldl (fun m c => max m c.maxParams) 0)
      n.indices n.children n.data (n.priority - 1)
    ((((n.withChildren [child]).withIndices [n.name.getD i 0]).withName
      (name.take i)).withData Option.none).withWildChild WildChild.none
  else n

/-- The tail of a `walk` iteration of `addRoute`, after the `maxParams`
update and the edge split; `i` is the common-prefix length. -/
def arStepMain (fullName : Bytes) (allowDup : Bool) (h : TypeHandler)
    (rec : Node → Bytes → Nat → Node × Option AddErr)
    (n : Node) (name : Bytes) (numParams i : Nat) : Node × Option AddErr :=
    if i < name.length then
      let name' := name.drop i
      if n.wildChild = WildChild.named then
        match n.children.get? 0 with
        | Option.none => (n, some AddErr.outOfRange)
        | some c0 =>
          let c0 := c0.withPriority (c0.priority + 1)
          let c0 := if c0.maxParams < numParams then c0.withMaxParams numParams else c0
          if c0.name.length ≤ name'.length ∧ name'.take c0.name.length = c0.name ∧
              (name'.length ≤ c0.name.length ∨ name'.getD c0.name.length 0 = dotB) then
            let r := rec c0 name' (numParams - 1)
            (n.withChildren (n.children.set 0 r.1), r.2)
          else
            (n.withChildren (n.children.set 0 c0), some AddErr.wildcardConflict)
      else
        let c := name'.getD 0 0
        if n.nType = NType.param ∧ c = dotB ∧ n.children.length = 1 then
          match n.children.get? 0 with
          | Option.none => (n, some AddErr.outOfRange)
          | some c0 =>
            let c0 := c0.withPriority (c0.priority + 1)
            let r := rec c0 name' numParams
            (n.withChildren (n.children.set 0 r.1), r.2)
        else
          match findIdxByte n.indices c with
          | some ipos =>
            match incrementChildPrio n ipos with
            | Option.none => (n, some AddErr.outOfRange)
            | some (n2, j) =>
              match n2.children.get? j with
              | Option.none => (n2, some AddErr.outOfRange)
              | some cj =>
                let r := rec cj name' numParams
                (n2.withChildren (n2.children.set j r.1), r.2)
          | Option.none =>
            if c ≠ colonB ∧ c ≠ starB then
              let fresh := Node.empty.withMaxParams numParams
              let n2 := (n.withIndices (n.indices ++ [c])).withChildren
                (n.children ++ [fresh])
              match incrementChildPrio n2 (n2.indices.length - 1) with
              | Option.none => (n2, some AddErr.outOfRange)
              | some (n3, j) =>
                match n3.children.get? j with
                | Option.none => (n3, some AddErr.outOfRange)
                | some cj =>
                  let r := insertChild cj numParams name' fullName h
                  (n3.withChildren (n3.children.set j r.1), r.2)
            else if n.wildChild = WildChild.anonymous then
              if !allowDup then (n, some AddErr.dupHandle)
              else
                match n.children.get? 0 with
                | Option.none => (n, some AddErr.outOfRange)
                | some c0 =>
                  match c0.data with
                  | Option.none => (n, some AddErr.outOfRange)
                  | some d =>
                    let c0' := (c0.withData (some (addHandler d h))).withPriority
                      (c0.priority + 1)
                    (n.withChildren (n.children.set 0 c0'), Option.none)
            else
              insertChild n numParams name' fullName h
    else
      -- i == name.length: this node is the (in-name) leaf
      if n.data.isSome ∧ !allowDup then (n, some AddErr.dupHandle)
      else
        let d := n.data.getD emptyNodeData
        (n.withData (some (addHandler d h)), Option.none)

/-- One Go `walk` iteration of `addRoute`, factored through `arSplit` and
`arStepMain` (definitionally equal to `arStepL`, the verbatim transcription).
Each `continue walk` is a call of `rec`; the updated subtree is threaded back
so that mutations made before a registration panic are preserved in the
result, exactly as the in-place Go mutations are. -/
def arStep (fullName : Bytes) (allowDup : Bool) (h : TypeHandler)
    (rec : Node → Bytes → Nat → Node × Option AddErr)
    (n0 : Node) (name : Bytes) (numParams : Nat) : Node × Option AddErr :=
  let n := if n0.maxParams < numParams then n0.withMaxParams numParams else n0
  arStepMain fullName allowDup h rec (arSplit n name (commonPrefixLen name n.name))
    name numParams (commonPrefixLen name n.name)

/-- The `walk` loop of `addRoute`, as a fuelled recursion over `arStep`. -/
def arWalk (fullName : Bytes) (allowDup : Bool) (h : TypeHandler) :
    Nat → Node → Bytes → Nat → Node × Option AddErr
  | 0, n, _, _ => (n, some AddErr.fuelOut)
  | fuel + 1, n, name, numParams =>
    arStep fullName allowDup h (arWalk fullName allowDup h fuel) n name numParams

/-- `addRoute` from the tree source. -/
def addRoute (fuel : Nat) (n : Node) (name : Bytes) (allowDup : Bool)
    (h : TypeHandler) : Node × Option AddErr :=
  let n1 := n.withPriority (n.priority + 1)
  let numParams := countParams name
  if 0 < n1.name.length ∨ 0 < n1.children.length then
    arWalk name allowDup h fuel n1 name numParams
  else
    let r := insertChild n1 numParams name name h
    if r.2.isNone then (r.1.withNType NType.root, Option.none) else r

/-- `Param` from the tree source (a captured key/value pair). -/
structure ParamKV where
  Key : Bytes
  Value : Bytes
  deriving DecidableEq

/-- `milestone` from the tree source. -/
structure Milestone where
  name : Bytes
  node : Option Node
  params : List ParamKV

/-- Lookup panics: the `invalid node type` and `failed fallback` panics of
`getValue`, Go runtime index panics, and the embedding's fuel bound. -/
inductive GvErr where
  | invalidNodeType
  | failedFallback
  | outOfRange
  | fuelOut
  deriving DecidableEq

/-- The state of `getValue` at a `return` statement: the fields of `v`
assigned before the deferred function runs, together with the final values of
the locals `n`, `name`, `p` and `end` that the deferred function reads. -/
structure GvOut where
  vnode : Option Node
  vcut : Bool
  zones : List Milestone
  nearest : Milestone
  n : Node
  name : Bytes
  p : List ParamKV
  endv : Nat

/-- `d != nil && d.rrType&rrZone > 0` / `d != nil && d.rrType&rrDname > 0`. -/
def dataZone (d : Option NodeData) : Bool :=
  match d with
  | some dd => dd.rrType.zone
  | Option.none => false

def dataDname (d : Option NodeData) : Bool :=
  match d with
  | some dd => dd.rrType.dname
  | Option.none => false

/-- One `walk` iteration of `getValue` from the tree source.  `fb` is the
fallback triple `(fallbackNode, fallbackName, fallbackParams)`, `fallback`
the flag; each `continue walk` is a call of `rec`. -/
def gvStep
    (rec : Node → Bytes → List ParamKV → Option (Node × Bytes × List ParamKV) →
      Bool → Milestone → List Milestone → Nat → Except GvErr GvOut)
    (n : Node) (name : Bytes) (p : List ParamKV)
    (fb : Option (Node × Bytes × List ParamKV)) (fallback : Bool)
    (nearest : Milestone) (zones : List Milestone) (endv : Nat) :
    Except GvErr GvOut :=
    if n.name.length < name.length ∧ name.take n.name.length = n.name then
      let fb := if n.wildChild = WildChild.anonymous then some (n, name, p) else fb
      let name1 := name.drop n.name.length
      let nearest := if !fallback then ⟨name1, some n, p⟩ else nearest
      let zones :=
        if name1.head? = some dotB ∧ dataZone n.data then
          zones ++ [⟨name1, some n, p⟩]
        else zones
      if name1.head? = some dotB ∧ dataDname n.data then
        Except.ok ⟨some n, true, zones, nearest, n, name1, p, endv⟩
      else
        if n.wildChild ≠ WildChild.named ∧ !fallback then
          let c := name1.getD 0 0
          match findIdxByte n.indices c with
          | some i =>
            let j := if n.wildChild ≠ WildChild.none then i + 1 else i
            match n.children.get? j with
            | Option.none => Except.error GvErr.outOfRange
            | some child =>
              rec child name1 p fb fallback nearest zones endv
          | Option.none =>
            match fb, fallback with
            | some (fn, fname, fp), false =>
              rec fn fname fp fb true nearest zones endv
            | _, _ =>
              Except.ok ⟨Option.none, false, zones, nearest, n, name1, p, endv⟩
        else
          match n.children.get? 0 with
          | Option.none => Except.error GvErr.outOfRange
          | some child =>
            match child.nType with
            | NType.param =>
              if child.name.length < 1 then Except.error GvErr.outOfRange else
              let endv := (name1.takeWhile (· ≠ dotB)).length
              let p := p ++ [⟨child.name.drop 1, name1.take endv⟩]
              if endv < name1.length then
                let zones :=
                  if dataZone child.data then zones ++ [⟨name1, some child, p⟩]
                  else zones
                if dataDname child.data then
                  Except.ok ⟨some child, false, zones, nearest, child, name1, p, endv⟩
                else if 0 < child.children.length then
                  let name2 := name1.drop endv
                  let nearest : Milestone := ⟨name2, some child, p⟩
                  match child.children.get? 0 with
                  | Option.none => Except.error GvErr.outOfRange
                  | some gchild =>
                    rec gchild name2 p fb fallback nearest zones endv
                else
                  match fb with
                  | some (fn, fname, fp) =>
                    rec fn fname fp fb true nearest zones endv
                  | Option.none =>
                    Except.ok ⟨Option.none, false, zones, nearest, child, name1, p, endv⟩
              else
                Except.ok ⟨if child.data.isSome then some child else Option.none,
                  false, zones, nearest, child, name1, p, endv⟩
            | NType.catchAll =>
              if child.name.length < 2 then Except.error GvErr.outOfRange else
              let p := p ++ [⟨child.name.drop 2, name1⟩]
              Except.ok ⟨if child.data.isSome then some child else Option.none,
                false, zones, nearest, child, name1, p, endv⟩
            | NType.anonymousCatchAll =>
              let p := p ++ [⟨[], name1⟩]
              Except.ok ⟨if child.data.isSome then some child else Option.none,
                false, zones, nearest, child, name1, p, endv⟩
            | _ => Except.error GvErr.invalidNodeType
    else if name = n.name then
      Except.ok ⟨if n.data.isSome then some n else Option.none,
        false, zones, nearest, n, name, p, endv⟩
    else
      if fallback then
        if n.name = [starB] then
          let p := p ++ [⟨[], name⟩]
          Except.ok ⟨if n.data.isSome then some n else Option.none,
            false, zones, nearest, n, name, p, endv⟩
        else Except.error GvErr.failedFallback
      else
        match fb with
        | some (fn, fname, fp) =>
          rec fn fname fp fb true nearest zones endv
        | Option.none =>
          Except.ok ⟨Option.none, false, zones, nearest, n, name, p, endv⟩

/-- The `walk` loop of `getValue`, as a fuelled recursion over `gvStep`. -/
def gvWalk : Nat → Node → Bytes → List ParamKV →
    Option (Node × Bytes × List ParamKV) → Bool → Milestone → List Milestone →
    Nat → Except GvErr GvOut
  | 0, _, _, _, _, _, _, _, _ => Except.error GvErr.fuelOut
  | fuel + 1, n, name, p, fb, fallback, nearest, zones, endv =>
    gvStep (gvWalk fuel) n name p fb fallback nearest zones endv

/-- `value` from the tree source, as returned by `getValue` (after the
deferred function has run). -/
structure GValue where
  node : Option Node
  params : List ParamKV
  nearest : Milestone
  cut : Bool
  zones : List Milestone

/-- The deferred function of `getValue`: installs the params, appends a zone
milestone when the matched node is zone-flagged, and computes `cut` when no
node matched. -/
def gvFinish (o : GvOut) : Except GvErr GValue :=
  let zones :=
    match o.vnode with
    | some vn =>
      if dataZone vn.data then o.zones ++ [⟨[], some o.n, o.p⟩] else o.zones
    | Option.none => o.zones
  let cut :=
    if o.vnode.isNone then
      match o.n.nType with
      | NType.static | NType.root =>
        decide (o.name.length < o.n.name.length ∧
          o.n.name.getD o.name.length 0 = dotB ∧
          o.n.name.take o.name.length = o.name)
      | NType.param => decide (o.endv = o.name.length)
      | _ => o.vcut
    else o.vcut
  Except.ok ⟨o.vnode, o.p, o.nearest, cut, zones⟩

/-- `getValue` from the tree source. -/
def getValue (fuel : Nat) (n : Node) (name : Bytes) : Except GvErr GValue :=
  match gvWalk fuel n name [] Option.none false ⟨name, some n, []⟩ [] 0 with
  | Except.error e => Except.error e
  | Except.ok o => gvFinish o

def strB (s : String) : Bytes := s.data.map Char.toNat

/-- The number of handlers stored at a node (`len(data.handler)`, 0 for nil
data). -/
def handlersCount (d : Option NodeData) : Nat :=
  match d with
  | some dd => dd.handler.length
  | Option.none => 0

/-- Sum of the children's priorities. -/
def sumPrio : List Node → Nat
  | [] => 0
  | c :: cs => c.priority + sumPrio cs

mutual
/-- The priority invariant: at every node,
`priority = (number of handlers at the node) + Σ children.priority`. -/
def prioOK : Node → Bool
  | .mk _ _ _ _ _ cs d pr => (pr == handlersCount d + sumPrio cs) && prioAll cs

def prioAll : List Node → Bool
  | [] => true
  | c :: cs => prioOK c && prioAll cs
end

mutual
/-- The multiset of all handlers stored in a subtree. -/
def handlersMS : Node → Multiset TypeHandler
  | .mk _ _ _ _ _ cs d _ =>
    (match d with
      | some dd => (dd.handler : Multiset TypeHandler)
      | Option.none => 0) + handlersMSL cs

def handlersMSL : List Node → Multiset TypeHandler
  | [] => 0
  | c :: cs => handlersMS c + handlersMSL cs
end

/-- Priority sum over a multiset of nodes. -/
def msPrioSum (m : Multiset Node) : Nat := (m.map Node.priority).sum

/-- The walk-time variant of the priority invariant: the node's own priority
is one ahead (it was incremented for the route being added, whose handler has
not landed yet), and all children satisfy `prioOK`. -/
def prioOK1 (n : Node) : Bool :=
  (n.priority == handlersCount n.data + sumPrio n.children + 1) && prioAll n.children

/-- Handler multiset of an option payload. -/
def dataMS (d : Option NodeData) : Multiset TypeHandler :=
  match d with
  | some dd => (↑dd.handler : Multiset TypeHandler)
  | Option.none => 0

/-- Handler-multiset sum over a multiset of nodes. -/
def msHSum (m : Multiset Node) : Multiset TypeHandler := (m.map handlersMS).sum

mutual
/-- The priority formula exactly as the spec words it: one unit when `data`
is non-nil, zero otherwise (instead of the number of stored handlers). -/
def prioOKSpecB : Node → Bool
  | .mk _ _ _ _ _ cs d pr =>
    (pr == (if d.isSome then 1 else 0) + sumPrio cs) && prioAllSpecB cs

def prioAllSpecB : List Node → Bool
  | [] => true
  | c :: cs => prioOKSpecB c && prioAllSpecB cs
end

/-- A node pointer as the path of child positions from the tree root.  In a
tree every node has a unique path, so path equality models Go pointer
equality and `dropLast` models the `parent` pointer maintained by
`addRoute`. -/
def nodeAt : Node → List Nat → Option Node
  | n, [] => some n
  | n, i :: p =>
    match n.children.get? i with
    | some c => nodeAt c p
    | Option.none => Option.none

/-- `node.isZone` from the tree source (for a non-nil receiver). -/
def isZoneB (n : Node) : Bool := dataZone n.data

/-- `node.isZone` on a possibly-nil receiver. -/
def isZoneN : Option Node → Bool
  | some m => dataZone m.data
  | Option.none => false

/-- The `chars` table of `getMax`: `chars[n.indices[i]] = j` with the
wildcard slot offset; an index byte of 255 overruns the 255-entry Go array
(`Option.none`). -/
def charsFill (wcAdd : Bool) : List Nat → Nat → Bytes → Option (List Nat)
  | acc, _, [] => some acc
  | acc, i, ch :: rest =>
    if ch < 255 then
      charsFill wcAdd (acc.set ch (if wcAdd then i + 2 else i + 1)) (i + 1) rest
    else Option.none

/-- The `chars`/`nop` table of `getMaxChild`: as `charsFill` but `'.'`
entries are skipped and `nop` records whether anything was written. -/
def charsFillSkipDot (wcAdd : Bool) : List Nat × Bool → Nat → Bytes →
    Option (List Nat × Bool)
  | acc, _, [] => some acc
  | (acc, nop), i, ch :: rest =>
    if ch = dotB then charsFillSkipDot wcAdd (acc, nop) (i + 1) rest
    else if ch < 255 then
      charsFillSkipDot wcAdd (acc.set ch (if wcAdd then i + 2 else i + 1), false)
        (i + 1) rest
    else Option.none

/-- The descending scan of `getMax` over the `chars` table (`continue` on a
zone child with no max grandchild); `Option.none` is a Go runtime panic. -/
def gmScan (n : Node) (recMax : Node → Option Node)
    (recMaxChild : Node → Option (Option Node)) (chars : List Nat) :
    Nat → Option Node
  | 0 => some n
  | i + 1 =>
    if 0 < chars.getD i 0 then
      match n.children.get? (chars.getD i 0 - 1) with
      | Option.none => Option.none
      | some child =>
        if isZoneB child then
          match recMaxChild child with
          | Option.none => Option.none
          | some (some g) => some g
          | some Option.none => gmScan n recMax recMaxChild chars i
        else
          match recMax child with
          | Option.none => Option.none
          | some v => if v.data.isSome then some v else some n
    else gmScan n recMax recMaxChild chars i

/-- The descending scan of `getMaxChild`; inner `Option.none` is the Go
`nil` return, outer is a runtime panic. -/
def gmcScan (n : Node) (recMax : Node → Option Node)
    (recMaxChild : Node → Option (Option Node)) (chars : List Nat) :
    Nat → Option (Option Node)
  | 0 => some Option.none
  | i + 1 =>
    if 0 < chars.getD i 0 then
      match n.children.get? (chars.getD i 0 - 1) with
      | Option.none => Option.none
      | some child =>
        if isZoneB child then
          match recMaxChild child with
          | Option.none => Option.none
          | some (some g) => some (some g)
          | some Option.none => gmcScan n recMax recMaxChild chars i
        else
          match recMax child with
          | Option.none => Option.none
          | some v => if v.data.isSome then some (some v) else some (some n)
    else gmcScan n recMax recMaxChild chars i

mutual
/-- `node.getMax` from the tree source (non-nil receiver), fuelled. -/
def getMaxN : Nat → Node → Option Node
  | 0, _ => Option.none
  | fuel + 1, n =>
    if 0 < n.children.length then
      if n.indices.length = 0 then
        match n.children.get? 0 with
        | Option.none => Option.none
        | some child =>
          if isZoneB child then
            match getMaxChildN fuel child with
            | Option.none => Option.none
            | some (some g) => some g
            | some Option.none => some n
          else
            match getMaxN fuel child with
            | Option.none => Option.none
            | some v => if v.data.isSome then some v else some n
      else
        match charsFill (n.wildChild ≠ WildChild.none)
            (List.replicate 255 0) 0 n.indices with
        | Option.none => Option.none
        | some chars => gmScan n (getMaxN fuel) (getMaxChildN fuel) chars 255
    else some n

/-- `node.getMaxChild` from the tree source, fuelled. -/
def getMaxChildN : Nat → Node → Option (Option Node)
  | 0, _ => Option.none
  | fuel + 1, n =>
    match charsFillSkipDot (n.wildChild ≠ WildChild.none)
        (List.replicate 255 0, true) 0 n.indices with
    | Option.none => Option.none
    | some (chars, nop) =>
      if nop then some Option.none
      else gmcScan n (getMaxN fuel) (getMaxChildN fuel) chars 255
end

/-- The `chars`/`dot` table of the `up:` block of `value.previous`: entries
below the probe byte `c` are recorded (no overrun is possible since
`ch < c ≤ 255`), and `dot` tracks the last `'.'` index. -/
def prevCharsFill (wcAdd : Bool) (c : Nat) :
    List Nat → Option Nat → Nat → Bytes → List Nat × Option Nat
  | acc, dot, _, [] => (acc, dot)
  | acc, dot, i, ch :: rest =>
    if ch = dotB then prevCharsFill wcAdd c acc (some i) (i + 1) rest
    else if ch < c then
      prevCharsFill wcAdd c (acc.set ch (if wcAdd then i + 2 else i + 1)) dot
        (i + 1) rest
    else prevCharsFill wcAdd c acc dot (i + 1) rest

/-- The descending `chars` scan of the `up:` block of `value.previous`:
outer `Option.none` is a runtime panic, `some Option.none` means the scan
fell through, `some (some r)` is a `return r`. -/
def prevScan (noMatchB : Bool) (n : Node) (recMax : Node → Option Node)
    (recMaxChild : Node → Option (Option Node)) (chars : List Nat) :
    Nat → Option (Option Node)
  | 0 => some Option.none
  | i + 1 =>
    if 0 < chars.getD i 0 then
      match n.children.get? (chars.getD i 0 - 1) with
      | Option.none => Option.none
      | some child =>
        if isZoneB child then
          match recMaxChild child with
          | Option.none => Option.none
          | some (some g) => some (some g)
          | some Option.none =>
            if noMatchB then some (some child)
            else prevScan noMatchB n recMax recMaxChild chars i
        else
          match recMax child with
          | Option.none => Option.none
          | some v => some (some v)
    else prevScan noMatchB n recMax recMaxChild chars i

/-- The fields of `value` that `value.previous` reads, with node pointers as
paths from the tree root (`root`); `zones` keeps only the milestone node
pointers. -/
structure PrevV where
  root : Node
  node : Option (List Nat)
  nearestNode : Option (List Nat)
  nearestName : Bytes
  zones : List (List Nat)

/-- Dereference a possibly-nil node pointer; a dangling path (which no real
lookup produces) is a panic (`Option.none`). -/
def resolvePtr (root : Node) : Option (List Nat) → Option (Option Node)
  | Option.none => some Option.none
  | some p =>
    match nodeAt root p with
    | some nd => some (some nd)
    | Option.none => Option.none

/-- The `for nearestNode.parent != nil` climb at the end of the `up:` block:
stop at the remembered zone pointer, restart the `up:` block (`up`, the
continuation) at the first parent with a non-empty child name, and fall
through (`fin`) at the root. -/
def prevClimb (root : Node) (zone : Option (List Nat))
    (fin : Option (Option Node))
    (up : List Nat → Bytes → Option (Option Node)) :
    Nat → List Nat → Option (Option Node)
  | 0, _ => Option.none
  | cf + 1, pn =>
    if pn.length ≠ 0 then
      if zone = some pn.dropLast then
        match zone with
        | some zp =>
          match nodeAt root zp with
          | some zn => some (some zn)
          | Option.none => Option.none
        | Option.none => Option.none
      else
        match nodeAt root pn with
        | Option.none => Option.none
        | some nn =>
          if 0 < nn.name.length then up pn.dropLast nn.name
          else prevClimb root zone fin up cf pn.dropLast
    else fin

/-- The `up:` block of `value.previous`, fuelled over the `goto up`
restarts; `fin` is the final `v.nearest.node.getMax()` fallthrough. -/
def prevUp (root : Node) (noMatchB : Bool) (zone : Option (List Nat))
    (fin : Option (Option Node)) (gmFuel : Nat) :
    Nat → List Nat → Bytes → Option (Option Node)
  | 0, _, _ => Option.none
  | fuel + 1, pn, pname =>
    match nodeAt root pn with
    | Option.none => Option.none
    | some nn =>
      if 0 < pname.length then
        let c := pname.getD 0 0
        let chars0 : List Nat :=
          if nn.wildChild = WildChild.anonymous ∧ starB < c then
            (List.replicate 255 0).set starB 1
          else List.replicate 255 0
        let fd := prevCharsFill (nn.wildChild ≠ WildChild.none) c chars0
          Option.none 0 nn.indices
        match prevScan noMatchB nn (getMaxN gmFuel) (getMaxChildN gmFuel)
            fd.1 255 with
        | Option.none => Option.none
        | some (some r) => some (some r)
        | some Option.none =>
          let present : Option (Option Node) :=
            if nn.data.isSome = true ∧ ¬ isZoneB nn = true then some (some nn)
            else prevClimb root zone fin
              (prevUp root noMatchB zone fin gmFuel fuel) (pn.length + 1) pn
          match fd.2 with
          | some d =>
            if c = dotB ∧ isZoneB nn = true then some (some nn)
            else if c ≠ dotB ∧ ¬ isZoneB nn = true then
              match nn.children.get?
                  (if nn.wildChild ≠ WildChild.none then d + 1 else d) with
              | Option.none => Option.none
              | some ch =>
                match getMaxN gmFuel ch with
                | Option.none => Option.none
                | some r => some (some r)
            else present
          | Option.none => present
      else fin

/-- `value.previous` from the tree source, over the path representation of
the node pointers; outer `Option.none` is a Go runtime panic (or the
embedding's fuel bound), `some r` is the returned possibly-nil node. -/
def vPrevious (fuel : Nat) (v : PrevV) : Option (Option Node) :=
  match resolvePtr v.root v.node, resolvePtr v.root v.nearestNode with
  | Option.none, _ => Option.none
  | _, Option.none => Option.none
  | some vnode, some vnearest =>
    let noMatchB : Bool := vnode.isNone ||
      (match vnode with
       | some m => decide (m.name = [starB])
       | Option.none => false)
    let fin : Option (Option Node) :=
      match vnearest with
      | some nn =>
        match getMaxN fuel nn with
        | some r => some (some r)
        | Option.none => Option.none
      | Option.none => some Option.none
    let zone : Option (List Nat) := v.zones.getLast?
    let upRes : Option (Option Node) :=
      match v.nearestNode with
      | some pn =>
        if 0 < v.nearestName.length then
          prevUp v.root noMatchB zone fin fuel fuel pn v.nearestName
        else fin
      | Option.none => fin
    if noMatchB = true ∧ v.nearestNode.isSome = true ∧ 0 < v.nearestName.length then
      match vnearest with
      | Option.none => Option.none
      | some nn =>
        let c := v.nearestName.getD 0 0
        let fall1 : Option (Option Node) :=
          if c = dotB ∧ nn.data.isSome = true then some (some nn) else upRes
        match findIdxByte nn.indices c with
        | some i0 =>
          match nn.children.get?
              (if nn.wildChild = WildChild.anonymous then i0 + 1 else i0) with
          | Option.none => Option.none
          | some child =>
            if ¬ isZoneB child = true ∧ bytesLt child.name v.nearestName = true then
              match getMaxN fuel child with
              | some r => some (some r)
              | Option.none => Option.none
            else fall1
        | Option.none => fall1
    else if isZoneN vnode = true then
      match vnode with
      | Option.none => Option.none
      | some vn =>
        match findIdxByte vn.indices dotB with
        | some i0 =>
          match vn.children.get?
              (if vn.wildChild ≠ WildChild.none then i0 + 1 else i0) with
          | Option.none => Option.none
          | some ch =>
            match getMaxN fuel ch with
            | Option.none => Option.none
            | some mx => if mx.data.isSome then some (some mx) else some (some vn)
        | Option.none => some (some vn)
    else upRes

/-- `searchAny`, the zero `classSearchMode`. -/
def searchAnyMode : Nat := 0

/-- `basicClass` from `class.go` (the `stub` interface field, never read by
`NextSecure`, is omitted); `handler` is the nil-able `classHandler` slice. -/
structure BasicClass where
  value : PrevV
  handler : Option (List TypeHandler)
  params : List ParamKV
  searchMode : Nat

/-- `basicClass.NextSecure` from `class.go`: only an NSEC query consults
`value.previous()`; outer `Option.none` is a panic propagated from
`previous`, `some Option.none` is the `nil` return. -/
def nextSecure (fuel : Nat) (c : BasicClass) (qtype : Nat) :
    Option (Option BasicClass) :=
  if qtype = typeNSEC then
    match vPrevious fuel c.value with
    | Option.none => Option.none
    | some (some nd) =>
      match nd.data with
      | some dd =>
        some (some ⟨c.value, some dd.handler, [], searchAnyMode⟩)
      | Option.none => some Option.none
    | some Option.none => some Option.none
  else some Option.none

mutual
/-- The structural facts about a tree that the static descent of `getValue`
relies on: the child list is the index list plus the reserved wildcard slot,
index bytes are distinct, a node with a named-wildcard child has no indexed
children (`addRoute` rejects that mix), and no payload carries the DNAME
flag. -/
def lookupWF : Node → Bool
  | .mk _ wc _ _ idx cs d _ =>
    (cs.length == idx.length + (if wc ≠ WildChild.none then 1 else 0)) &&
    decide idx.Nodup &&
    (decide (wc ≠ WildChild.named) || idx.isEmpty) &&
    !dataDname d &&
    lookupWFL cs

def lookupWFL : List Node → Bool
  | [] => true
  | c :: cs => lookupWF c && lookupWFL cs
end

/-- An exact static match: a chain of indexed static children whose names
concatenate to the query name, ending at a node that stores data. -/
inductive ExactStaticM : Node → Bytes → Node → Prop where
  | here (n : Node) (hd : n.data.isSome = true)
      (ht : n.nType = NType.static ∨ n.nType = NType.root) :
      ExactStaticM n n.name n
  | deeper (n : Node) (name : Bytes) (k : Nat) (c m : Node)
      (hlt : n.name.length < name.length)
      (hpre : name.take n.name.length = n.name)
      (hidx : n.indices.get? k = some ((name.drop n.name.length).getD 0 0))
      (hchild : n.children.get? (k + wcOff n) = some c)
      (hcn : c.name ≠ [])
      (hct : c.nType = NType.static)
      (hrest : ExactStaticM c (name.drop n.name.length) m) :
      ExactStaticM n name m

mutual
/-- Number of nodes in a subtree (the fuel measure of the `getValue` walk). -/
def size : Node → Nat
  | .mk _ _ _ _ _ cs _ _ => 1 + sizeL cs

def sizeL : List Node → Nat
  | [] => 0
  | c :: cs => size c + sizeL cs
end

/-- The wildcard-slot shape required by the `getValue` walk: a named wildcard
slot holds a param or catch-all child (with the name length its `name[1:]` /
`name[2:]` slicing needs), an anonymous slot holds the anonymous
catch-all. -/
def wfHead (wc : WildChild) (cs : List Node) : Bool :=
  match wc with
  | WildChild.none => true
  | WildChild.named =>
    match cs.get? 0 with
    | some c0 =>
      (c0.nType == NType.param && decide (1 ≤ c0.name.length)) ||
      (c0.nType == NType.catchAll && decide (2 ≤ c0.name.length))
    | Option.none => false
  | WildChild.anonymous =>
    match cs.get? 0 with
    | some c0 => c0.nType == NType.anonymousCatchAll
    | Option.none => false

mutual
/-- The structural invariant that keeps the `getValue` walk free of runtime
panics: indexed children fit into the child list after the reserved wildcard
slot, and wildcard slots are shaped as `wfHead` demands — at every node. -/
def wfP : Node → Bool
  | .mk _ wc _ _ idx cs _ _ =>
    decide (idx.length + (if wc ≠ WildChild.none then 1 else 0) ≤ cs.length) &&
    wfHead wc cs && wfPL cs

def wfPL : List Node → Bool
  | [] => true
  | c :: cs => wfP c && wfPL cs
end

end DnsRouter

namespace DnsRouter

theorem isIndexable_iff (l : Bytes) : isIndexable l = true ↔ l.head? = some dotB := by
  cases l with
  | nil => simp [isIndexable]
  | cons c rest => simp [isIndexable]

theorem revSegsAux_getLast (b : Bytes) : ∀ seg : Bytes, b.getLast? = some dotB →
    (revSegsAux seg b).getLast? = some dotB := by
  induction b with
  | nil => intro seg h; simp at h
  | cons c rest ih =>
    intro seg h
    cases rest with
    | nil =>
      simp at h
      show (revSegsAux seg [c]).getLast? = some dotB
      rw [h]
      show (seg ++ dotB :: revSegsAux [] []).getLast? = some dotB
      rw [List.getLast?_append_cons]
      rfl
    | cons d rest' =>
      have hlast : (d :: rest').getLast? = some dotB := by
        rw [List.getLast?_cons_cons] at h
        exact h
      by_cases hc : c = dotB
      · subst hc
        show (revSegsAux seg (dotB :: d :: rest')).getLast? = some dotB
        have hx := ih [] hlast
        rw [show revSegsAux seg (dotB :: d :: rest') =
              seg ++ dotB :: revSegsAux [] (d :: rest') by rw [revSegsAux, if_pos rfl]]
        rw [List.getLast?_append_cons]
        cases hl : revSegsAux [] (d :: rest') with
        | nil => rw [hl] at hx; simp at hx
        | cons e l' =>
          rw [hl] at hx
          rw [List.getLast?_cons_cons]
          exact hx
      · show (revSegsAux seg (c :: d :: rest')).getLast? = some dotB
        rw [show revSegsAux seg (c :: d :: rest') =
              revSegsAux (c :: seg) (d :: rest') by rw [revSegsAux, if_neg hc]]
        exact ih _ hlast

theorem fqdn_getLast (s : Bytes) : (fqdn s).getLast? = some dotB := by
  unfold fqdn
  by_cases h : isFqdn s = true
  · rw [if_pos h]
    unfold isFqdn at h
    cases hl : s.getLast? with
    | none => rw [hl] at h; simp at h
    | some c => rw [hl] at h; simp at h; rw [h]

  · rw [if_neg h]
    exact List.getLast?_concat s

theorem lowerByte_dot : lowerByte dotB = dotB := by decide

theorem map_lowerByte_getLast (s : Bytes) (h : s.getLast? = some dotB) :
    (s.map lowerByte).getLast? = some dotB := by
  rw [List.getLast?_map]
  rw [h]
  simp [lowerByte_dot]

theorem isIndexable_indexable (t : Bytes) (hne : t ≠ []) (h : t.getLast? = some dotB) :
    isIndexable (indexable t) = true := by
  unfold indexable
  by_cases hlen : t.length ≤ 1
  · rw [if_pos hlen]
    cases t with
    | nil => exact absurd rfl hne
    | cons c rest =>
      cases rest with
      | nil => simp at h; rw [isIndexable_iff]; simp [h]
      | cons d r => simp at hlen
  · rw [if_neg hlen]
    rw [isIndexable_iff]
    unfold reverseLabels reveseChars
    rw [List.head?_reverse]
    exact revSegsAux_getLast _ [] (map_lowerByte_getLast t h)

theorem isIndexable_newIndexableName (s : Bytes) :
    isIndexable (newIndexableName s) = true := by
  unfold newIndexableName
  by_cases h : isIndexable s = true
  · rw [if_pos h]; exact h
  · rw [if_neg h]
    apply isIndexable_indexable
    · intro he
      have := fqdn_getLast s
      rw [he] at this
      simp at this
    · exact fqdn_getLast s

/-- C3: canonicalisation is idempotent: `newIndexableName` applied twice
equals one application, and an input whose first byte is `'.'` (already
canonical) is returned unchanged. -/
theorem newIndexableName_idempotent (s : Bytes) :
    newIndexableName (newIndexableName s) = newIndexableName s ∧
    (isIndexable s = true → newIndexableName s = s) := by
  constructor
  · have h := isIndexable_newIndexableName s
    conv_lhs => rw [newIndexableName]
    rw [if_pos h]
  · intro h
    unfold newIndexableName
    rw [if_pos h]

/-- Witness for C3 at the concrete inputs `".a"` (already canonical) and
`"ab"` (folded and reversed). -/
theorem newIndexableName_idempotent_witness :
    (newIndexableName (newIndexableName [46, 97]) = newIndexableName [46, 97] ∧
      (isIndexable [46, 97] = true → newIndexableName [46, 97] = [46, 97])) ∧
    newIndexableName (newIndexableName [97, 98]) = newIndexableName [97, 98] :=
  ⟨newIndexableName_idempotent [46, 97], (newIndexableName_idempotent [97, 98]).1⟩

theorem bytesLt_irrefl (x : Bytes) : bytesLt x x = false := by
  induction x with
  | nil => rfl
  | cons c rest ih => simp [bytesLt, ih]

theorem bytesLt_asymm (x y : Bytes) (h : bytesLt x y = true) : bytesLt y x = false := by
  induction x generalizing y with
  | nil =>
    cases y with
    | nil => simp [bytesLt] at h
    | cons d ys => rfl
  | cons c xs ih =>
    cases y with
    | nil => simp [bytesLt] at h
    | cons d ys =>
      by_cases hcd : c < d
      · simp [bytesLt, hcd]
        omega
      · by_cases hdc : d < c
        · simp [bytesLt, hcd, hdc] at h
        · have he : c = d := by omega
          subst he
          simp [bytesLt, hcd] at h ⊢
          exact ih _ h

theorem colDecide_asymm (xI yI : Bytes) (k k' : Bool) (hk : k = true → k' = false)
    (h : colDecide xI yI k = true) : colDecide yI xI k' = false := by
  unfold colDecide at h ⊢
  split_ifs at h ⊢ <;> simp_all
  exact bytesLt_asymm _ _ h

theorem colLoop_irrefl (n : Nat) (x : Bytes) (nX : Nat) : colLoop n x x nX nX = false := by
  induction n generalizing x with
  | zero =>
    unfold colLoop colTail
    rw [if_neg (by simp), bytesLt_irrefl]
  | succ m ih =>
    unfold colLoop
    simp only []
    rw [if_neg (by simp)]
    exact ih _

theorem colLoop_asymm (n : Nat) (x y : Bytes) (nX nY : Nat)
    (h : colLoop n x y nX nY = true) : colLoop n y x nY nX = false := by
  induction n generalizing x y with
  | zero =>
    unfold colLoop colTail at h ⊢
    by_cases hxy : x = y
    · subst hxy
      rw [if_neg (by simp), bytesLt_irrefl] at h
      exact absurd h (by simp)
    · rw [if_pos hxy] at h
      rw [if_pos (fun he => hxy he.symm)]
      exact colDecide_asymm _ _ _ _ (by intro hh; simp_all; omega) h
  | succ m ih =>
    unfold colLoop at h ⊢
    by_cases hl : (splitLabel x).1 = (splitLabel y).1
    · rw [if_neg (by simp [hl])] at h
      rw [if_neg (by simp [hl])]
      exact ih _ _ h
    · rw [if_pos (by simpa using hl)] at h
      rw [if_pos (by simpa using fun he => hl he.symm)]
      exact colDecide_asymm _ _ _ _ (ih _ _) h

/-- C4 counterexample: `canonicalOrderLess` is not a strict total order.  The
static names `".a-z"`, `".a.q"`, `".a-.q"` form a 3-cycle (so transitivity
fails, and sorting a permuted vector of these three unique names cannot make
every adjacent pair satisfy `less`), and the two distinct names `".:x"`,
`".:y"` are mutually incomparable (so totality fails as well). -/
theorem canonicalOrderLess_cycle :
    canonicalOrderLess [46, 97, 45, 122] [46, 97, 46, 113] = true ∧
    canonicalOrderLess [46, 97, 46, 113] [46, 97, 45, 46, 113] = true ∧
    canonicalOrderLess [46, 97, 45, 46, 113] [46, 97, 45, 122] = true ∧
    ([46, 58, 120] : Bytes) ≠ [46, 58, 121] ∧
    canonicalOrderLess [46, 58, 120] [46, 58, 121] = false ∧
    canonicalOrderLess [46, 58, 121] [46, 58, 120] = false := by
  decide

/-- C4 (amended): `canonicalOrderLess` is irreflexive and asymmetric — for any
names `x`, `y`, at most one of `less(x,y)`, `less(y,x)` holds. -/
theorem canonicalOrderLess_irrefl_asymm (x y : Bytes) :
    canonicalOrderLess x x = false ∧
    (canonicalOrderLess x y = true → canonicalOrderLess y x = false) := by
  refine ⟨colLoop_irrefl _ _ _, fun h => ?_⟩
  unfold canonicalOrderLess at h ⊢
  rw [min_comm]
  exact colLoop_asymm _ _ _ _ _ h

/-- Witness for C4 (amended) at `".a" < ".b"`. -/
theorem canonicalOrderLess_irrefl_asymm_witness :
    canonicalOrderLess [46, 97] [46, 98] = true ∧
    canonicalOrderLess [46, 98] [46, 97] = false :=
  ⟨by decide, (canonicalOrderLess_irrefl_asymm [46, 97] [46, 98]).2 (by decide)⟩

/-- The lower-bound invariant of Go's binary search, proved by induction on
the width of the interval: on a predicate monotone below `n`, `goSearchAux`
computes the least index at which the predicate holds. -/
theorem goSearchAux_spec (n : Nat) (f : Nat → Bool)
    (mono : ∀ i j, i ≤ j → j < n → f i = true → f j = true) :
    ∀ d i j, j - i ≤ d → i ≤ j → j ≤ n →
    (∀ k, k < i → f k = false) → (∀ k, j ≤ k → k < n → f k = true) →
    (∀ k, k < goSearchAux f i j → f k = false) ∧
    (∀ k, goSearchAux f i j ≤ k → k < n → f k = true) ∧
    i ≤ goSearchAux f i j ∧ goSearchAux f i j ≤ j := by
  intro d
  induction d with
  | zero =>
    intro i j hd hij hjn hlow hhigh
    have : i = j := by omega
    subst this
    rw [goSearchAux, dif_neg (by omega)]
    exact ⟨hlow, hhigh, le_refl _, le_refl _⟩
  | succ d ih =>
    intro i j hd hij hjn hlow hhigh
    by_cases hlt : i < j
    · rw [goSearchAux, dif_pos hlt]
      have hm1 : i ≤ (i + j) / 2 := by omega
      have hm2 : (i + j) / 2 < j := by omega
      by_cases hf : f ((i + j) / 2) = true
      · rw [if_pos hf]
        have := ih i ((i + j) / 2) (by omega) hm1 (by omega) hlow
          (fun k hk hkn => mono _ _ hk hkn hf)
        exact ⟨this.1, this.2.1, this.2.2.1, le_trans this.2.2.2 (by omega)⟩
      · rw [if_neg hf]
        have hlow' : ∀ k, k < (i + j) / 2 + 1 → f k = false := by
          intro k hk
          by_cases hki : k < i
          · exact hlow k hki
          · cases hfk : f k with
            | false => rfl
            | true =>
              exact absurd (mono k ((i + j) / 2) (by omega) (by omega) hfk) hf
        have := ih ((i + j) / 2 + 1) j (by omega) (by omega) hjn hlow' hhigh
        exact ⟨this.1, this.2.1, by omega, this.2.2.2⟩
    · rw [goSearchAux, dif_neg hlt]
      have : i = j := by omega
      subst this
      exact ⟨hlow, hhigh, le_refl _, le_refl _⟩

/-- `goSearch n f` is the least index where the (monotone-below-`n`)
predicate `f` holds, or `n` when it holds nowhere below `n`. -/
theorem goSearch_spec (n : Nat) (f : Nat → Bool)
    (mono : ∀ i j, i ≤ j → j < n → f i = true → f j = true) :
    (∀ k, k < goSearch n f → f k = false) ∧
    (goSearch n f < n → f (goSearch n f) = true) ∧ goSearch n f ≤ n := by
  have := goSearchAux_spec n f mono n 0 n (by omega) (by omega) (le_refl _)
    (by omega) (fun k hk hkn => by omega)
  exact ⟨this.1, fun h => this.2.1 _ (le_refl _) h, this.2.2.2⟩

/-- C5: on a sorted non-empty index, `Previous` performs a lower-bound search
and returns the element immediately preceding the lower-bound position `r`
(wrapping to the last element when `r = 0`), with a found flag that is true
iff the element at the lower-bound position equals `name`. -/
theorem canonicalOrderPrevious_spec (l : List Bytes) (name : Bytes)
    (hne : l ≠ []) (hs : LowerBoundSorted l) :
    ∃ r : Nat, r ≤ l.length ∧
      (∀ k, k < r → canonicalOrderLess (l.getD k []) name = true) ∧
      (r < l.length → canonicalOrderLess (l.getD r []) name = false) ∧
      (canonicalOrderPrevious l name).1 =
        l.getD ((if r = 0 then l.length else r) - 1) [] ∧
      ((canonicalOrderPrevious l name).2 = true ↔
        r < l.length ∧ l.getD r [] = name) := by
  have hlen : l.length ≠ 0 := fun h => hne (List.eq_nil_of_length_eq_zero h)
  have hspec := goSearch_spec l.length (fun i => ! canonicalOrderLess (l.getD i []) name)
    (fun i j hij hj hfi => by
      simp only [Bool.not_eq_true'] at hfi ⊢
      exact hs name i j hij hj hfi)
  refine ⟨goSearch l.length fun i => ! canonicalOrderLess (l.getD i []) name,
    hspec.2.2, ?_, ?_, ?_, ?_⟩
  · intro k hk
    have := hspec.1 k hk
    simpa using this
  · intro h
    have := hspec.2.1 h
    simpa using this
  · unfold canonicalOrderPrevious
    rw [if_neg hlen]
  · unfold canonicalOrderPrevious
    rw [if_neg hlen]
    simp only [Bool.and_eq_true, decide_eq_true_eq, beq_iff_eq]

/-- Witness for C5 on the singleton index `[".a"]` probed with `".a"`: the
search hits position 0, so found is true and the answer wraps to the last
element. -/
theorem canonicalOrderPrevious_spec_witness :
    ([[46, 97]] : List Bytes) ≠ [] ∧
    (canonicalOrderPrevious [[46, 97]] [46, 97]).1 = [46, 97] ∧
    (canonicalOrderPrevious [[46, 97]] [46, 97]).2 = true := by
  have hs : LowerBoundSorted [[46, 97]] := by
    intro nm i j hij hj h
    have : j = 0 := by simp at hj; omega
    have hi : i = 0 := by omega
    subst this; subst hi
    exact h
  have := canonicalOrderPrevious_spec [[46, 97]] [46, 97] (by simp) hs
  obtain ⟨r, hr, hlt, hge, hprev, hfound⟩ := this
  refine ⟨by simp, ?_, ?_⟩
  · have hr0 : r = 0 := by
      by_cases h : r = 0
      · exact h
      · exfalso
        have h1 : r = 1 := by simp at hr; omega
        have := hlt 0 (by omega)
        rw [show ([[46, 97]] : List Bytes).getD 0 [] = [46, 97] from rfl] at this
        rw [show canonicalOrderLess [46, 97] [46, 97] = false from by decide] at this
        exact Bool.false_ne_true this
    rw [hprev, hr0]
    rfl
  · rw [hfound]
    have hr0 : r = 0 := by
      by_cases h : r = 0
      · exact h
      · exfalso
        have := hlt 0 (by omega)
        rw [show ([[46, 97]] : List Bytes).getD 0 [] = [46, 97] from rfl] at this
        rw [show canonicalOrderLess [46, 97] [46, 97] = false from by decide] at this
        exact Bool.false_ne_true this
    subst hr0
    exact ⟨by simp, rfl⟩

theorem thLess_asymm {a b : TypeHandler} (h : thLess a b = true) : thLess b a = false := by
  simp only [thLess, Bool.or_eq_true, Bool.and_eq_true, decide_eq_true_eq] at h
  simp only [thLess, Bool.or_eq_false_iff, Bool.and_eq_false_iff, decide_eq_false_iff_not]
  omega

theorem sortInsert_perm (x : TypeHandler) (l : List TypeHandler) :
    (sortInsert x l).Perm (x :: l) := by
  induction l with
  | nil => simp [sortInsert]
  | cons y ys ih =>
    unfold sortInsert
    by_cases h : thLess y x = true
    · rw [if_pos h]
      exact (ih.cons y).trans (List.Perm.swap x y ys)
    · rw [if_neg h]

theorem sortInsert_sorted (x : TypeHandler) (l : List TypeHandler) (h : SortedCH l) :
    SortedCH (sortInsert x l) := by
  induction l with
  | nil => simp [sortInsert, SortedCH]
  | cons y ys ih =>
    rw [SortedCH, List.pairwise_cons] at h
    unfold sortInsert
    by_cases hyx : thLess y x = true
    · rw [if_pos hyx]
      rw [SortedCH, List.pairwise_cons]
      constructor
      · intro a ha
        have hm := (sortInsert_perm x ys).mem_iff.mp ha
        rcases List.mem_cons.mp hm with rfl | hmem
        · exact thLess_asymm hyx
        · exact h.1 a hmem
      · exact ih h.2
    · rw [if_neg hyx]
      rw [SortedCH, List.pairwise_cons]
      constructor
      · intro a ha
        rcases List.mem_cons.mp ha with rfl | hmem
        · simpa using hyx
        · -- a ∈ ys: thLess a x = false from thLess y x = false and thLess a y = false
          have h1 := h.1 a hmem
          simp only [Bool.not_eq_true] at hyx
          simp only [thLess, Bool.or_eq_true, Bool.and_eq_true, decide_eq_true_eq,
            Bool.or_eq_false_iff, Bool.and_eq_false_iff, decide_eq_false_iff_not] at h1 hyx ⊢
          omega
      · rw [SortedCH] at *
        rw [List.pairwise_cons]
        exact h

theorem sortCH_sorted (l : List TypeHandler) : SortedCH (sortCH l) := by
  induction l with
  | nil => simp [sortCH, SortedCH]
  | cons x xs ih => exact sortInsert_sorted x _ ih

theorem addHandler_sorted (p : NodeData) (h : TypeHandler) :
    SortedCH (addHandler p h).handler := by
  unfold addHandler
  simp only []
  by_cases hl : 1 < (p.handler ++ [h]).length
  · rw [if_pos hl]
    exact sortCH_sorted _
  · rw [if_neg hl]
    have : p.handler = [] := by
      cases hp : p.handler with
      | nil => rfl
      | cons a as => exfalso; rw [hp] at hl; simp at hl
    rw [this]
    simp [SortedCH]

/-- Every prefix position of `takeWhile` satisfies the predicate. -/
theorem takeWhile_getD {α : Type} (p : α → Bool) (l : List α) (d : α) :
    ∀ k, k < (l.takeWhile p).length → p (l.getD k d) = true := by
  induction l with
  | nil => intro k hk; simp [List.takeWhile] at hk
  | cons x xs ih =>
    intro k hk
    by_cases hx : p x = true
    · rw [List.takeWhile_cons, if_pos hx] at hk
      cases k with
      | zero => simpa using hx
      | succ k' =>
        simp only [List.length_cons, Nat.add_lt_add_iff_right] at hk
        simpa using ih k' hk
    · rw [List.takeWhile_cons, if_neg hx] at hk
      simp at hk

/-- The stop position of `takeWhile` fails the predicate. -/
theorem takeWhile_stop {α : Type} (p : α → Bool) (l : List α) (d : α)
    (h : (l.takeWhile p).length < l.length) :
    p (l.getD (l.takeWhile p).length d) = false := by
  induction l with
  | nil => simp at h
  | cons x xs ih =>
    by_cases hx : p x = true
    · rw [List.takeWhile_cons, if_pos hx] at h ⊢
      simp only [List.length_cons, Nat.add_lt_add_iff_right] at h
      simpa using ih h
    · rw [List.takeWhile_cons, if_neg hx] at h ⊢
      simpa using hx

/-- Dropping the `takeWhile` prefix is `dropWhile`. -/
theorem drop_takeWhile_length {α : Type} (p : α → Bool) (l : List α) :
    l.drop (l.takeWhile p).length = l.dropWhile p := by
  induction l with
  | nil => rfl
  | cons x xs ih =>
    by_cases hx : p x = true
    · rw [List.takeWhile_cons, if_pos hx, List.dropWhile_cons, if_pos hx]
      simpa using ih
    · rw [List.takeWhile_cons, if_neg hx, List.dropWhile_cons, if_neg hx]
      simp

theorem sortedCH_qtype_mono (l : List TypeHandler) (hs : SortedCH l) :
    ∀ i j, i ≤ j → j < l.length →
      (l.getD i thDflt).Qtype ≤ (l.getD j thDflt).Qtype := by
  intro i j hij hj
  by_cases he : i = j
  · subst he; exact le_refl _
  · have hilt : i < j := by omega
    rw [SortedCH, List.pairwise_iff_getElem] at hs
    have := hs i j (by omega) hj hilt
    rw [List.getD_eq_getElem l thDflt (by omega), List.getD_eq_getElem l thDflt hj]
    simp only [thLess, Bool.or_eq_false_iff, Bool.and_eq_false_iff,
      decide_eq_false_iff_not] at this
    omega

theorem goSearch_eq_takeWhile (l : List TypeHandler) (q : Nat) (hs : SortedCH l) :
    goSearch l.length (fun i => decide (q ≤ (l.getD i thDflt).Qtype)) =
      (l.takeWhile fun h => decide (h.Qtype < q)).length := by
  have mono : ∀ i j, i ≤ j → j < l.length →
      (fun i => decide (q ≤ (l.getD i thDflt).Qtype)) i = true →
      (fun i => decide (q ≤ (l.getD i thDflt).Qtype)) j = true := by
    intro i j hij hj hi
    simp only [decide_eq_true_eq] at hi ⊢
    exact le_trans hi (sortedCH_qtype_mono l hs i j hij hj)
  have hspec := goSearch_spec l.length _ mono
  set r := goSearch l.length (fun i => decide (q ≤ (l.getD i thDflt).Qtype)) with hr
  set w := (l.takeWhile fun h => decide (h.Qtype < q)).length with hw
  have hwlen : w ≤ l.length := by
    rw [hw]; exact (List.takeWhile_prefix _).length_le
  by_cases hrw : r < w
  · exfalso
    have h1 : q ≤ (l.getD r thDflt).Qtype := by
      have := hspec.2.1 (by omega)
      simpa using this
    have h2 := takeWhile_getD (fun h => decide (h.Qtype < q)) l thDflt r (by omega)
    simp only [decide_eq_true_eq] at h2
    omega
  · by_cases hwr : w < r
    · exfalso
      have h1 := hspec.1 w (by omega)
      simp only [decide_eq_false_iff_not] at h1
      have h2 := takeWhile_stop (fun h => decide (h.Qtype < q)) l thDflt (by rw [← hw]; omega)
      rw [← hw] at h2
      simp only [decide_eq_false_iff_not] at h2
      omega
    · omega

theorem filter_eq_takeWhile_of_lb (q : Nat) (t : List TypeHandler) (hs : SortedCH t)
    (hlb : ∀ x ∈ t, q ≤ x.Qtype) :
    t.filter (fun h => h.Qtype == q) = t.takeWhile (fun h => h.Qtype == q) := by
  induction t with
  | nil => rfl
  | cons x xs ih =>
    rw [SortedCH, List.pairwise_cons] at hs
    by_cases hx : x.Qtype = q
    · rw [List.filter_cons, List.takeWhile_cons]
      rw [if_pos (by simpa using hx), if_pos (by simpa using hx)]
      rw [ih hs.2 (fun y hy => hlb y (List.mem_cons_of_mem x hy))]
    · have hxgt : q < x.Qtype := by
        have := hlb x (List.mem_cons_self x xs)
        omega
      rw [List.filter_cons, List.takeWhile_cons]
      rw [if_neg (by simpa using hx), if_neg (by simpa using hx)]
      rw [List.filter_eq_nil_iff]
      intro y hy
      have h1 := hs.1 y hy
      simp only [thLess, Bool.or_eq_false_iff, Bool.and_eq_false_iff,
        decide_eq_false_iff_not] at h1
      simp only [beq_iff_eq]
      omega

theorem filter_eq_dropWhile_takeWhile (q : Nat) (l : List TypeHandler) (hs : SortedCH l) :
    l.filter (fun h => h.Qtype == q) =
      (l.dropWhile fun h => decide (h.Qtype < q)).takeWhile (fun h => h.Qtype == q) := by
  induction l with
  | nil => rfl
  | cons x xs ih =>
    rw [SortedCH, List.pairwise_cons] at hs
    by_cases hx : x.Qtype < q
    · rw [List.filter_cons, List.dropWhile_cons]
      rw [if_neg (by simp; omega), if_pos (by simpa using hx)]
      exact ih hs.2
    · rw [List.dropWhile_cons, if_neg (by simpa using hx)]
      rw [← filter_eq_takeWhile_of_lb q (x :: xs) (by rw [SortedCH, List.pairwise_cons]; exact hs) ?lb]
      case lb =>
        intro y hy
        rcases List.mem_cons.mp hy with rfl | hmem
        · omega
        · have h1 := hs.1 y hmem
          simp only [thLess, Bool.or_eq_false_iff, Bool.and_eq_false_iff,
            decide_eq_false_iff_not] at h1
          omega

theorem classHandlerSearch_eq_filter (l : List TypeHandler) (q : Nat) (hs : SortedCH l) :
    classHandlerSearch l q =
      if (l.filter fun h => h.Qtype == q) = [] then none
      else some (l.filter fun h => h.Qtype == q) := by
  unfold classHandlerSearch
  simp only []
  rw [goSearch_eq_takeWhile l q hs, drop_takeWhile_length,
    ← filter_eq_dropWhile_takeWhile q l hs]
  by_cases h : (l.filter fun h => h.Qtype == q) = []
  · rw [if_pos h, if_pos (by rw [h]; rfl)]
  · rw [if_neg h, if_neg (by simpa [List.isEmpty_iff] using h)]

/-- C6: for every type table produced by a sequence of `addHandler` calls and
every qtype `q`, the table is sorted by `(Qtype, TypeCovered)`, and
`Search(q)` returns exactly the entries whose `Qtype` equals `q` — as one
contiguous slice of the table, or `nil` when there is no such entry. -/
theorem addHandler_search_spec (hs : List TypeHandler) (q : Nat) :
    SortedCH ((hs.foldl addHandler emptyNodeData).handler) ∧
    classHandlerSearch ((hs.foldl addHandler emptyNodeData).handler) q =
      (if ((hs.foldl addHandler emptyNodeData).handler.filter fun h => h.Qtype == q) = []
       then none
       else some ((hs.foldl addHandler emptyNodeData).handler.filter fun h => h.Qtype == q)) ∧
    ∃ a, ((hs.foldl addHandler emptyNodeData).handler.filter fun h => h.Qtype == q) =
      (((hs.foldl addHandler emptyNodeData).handler.drop a).take
        (((hs.foldl addHandler emptyNodeData).handler.filter fun h => h.Qtype == q)).length) := by
  have hsorted : SortedCH ((hs.foldl addHandler emptyNodeData).handler) := by
    rcases hs.eq_nil_or_concat with rfl | ⟨hs', h, rfl⟩
    · simp [emptyNodeData, SortedCH]
    · rw [List.concat_eq_append, List.foldl_append]
      exact addHandler_sorted _ _
  refine ⟨hsorted, classHandlerSearch_eq_filter _ q hsorted, ?_⟩
  set l := (hs.foldl addHandler emptyNodeData).handler with hl
  refine ⟨(l.takeWhile fun h => decide (h.Qtype < q)).length, ?_⟩
  rw [drop_takeWhile_length, filter_eq_dropWhile_takeWhile q l hsorted]
  exact List.prefix_iff_eq_take.mp (List.takeWhile_prefix _)

@[simp] theorem name_mk (a : Bytes) (b : WildChild) (c : NType) (d : Nat) (e : Bytes) (f : List Node) (g : Option NodeData) (h : Nat) : (Node.mk a b c d e f g h).name = a := rfl

@[simp] theorem wildChild_mk (a : Bytes) (b : WildChild) (c : NType) (d : Nat) (e : Bytes) (f : List Node) (g : Option NodeData) (h : Nat) : (Node.mk a b c d e f g h).wildChild = b := rfl

@[simp] theorem nType_mk (a : Bytes) (b : WildChild) (c : NType) (d : Nat) (e : Bytes) (f : List Node) (g : Option NodeData) (h : Nat) : (Node.mk a b c d e f g h).nType = c := rfl

@[simp] theorem maxParams_mk (a : Bytes) (b : WildChild) (c : NType) (d : Nat) (e : Bytes) (f : List Node) (g : Option NodeData) (h : Nat) : (Node.mk a b c d e f g h).maxParams = d := rfl

@[simp] theorem indices_mk (a : Bytes) (b : WildChild) (c : NType) (d : Nat) (e : Bytes) (f : List Node) (g : Option NodeData) (h : Nat) : (Node.mk a b c d e f g h).indices = e := rfl

@[simp] theorem children_mk (a : Bytes) (b : WildChild) (c : NType) (d : Nat) (e : Bytes) (f : List Node) (g : Option NodeData) (h : Nat) : (Node.mk a b c d e f g h).children = f := rfl

@[simp] theorem data_mk (a : Bytes) (b : WildChild) (c : NType) (d : Nat) (e : Bytes) (f : List Node) (g : Option NodeData) (h : Nat) : (Node.mk a b c d e f g h).data = g := rfl

@[simp] theorem priority_mk (a : Bytes) (b : WildChild) (c : NType) (d : Nat) (e : Bytes) (f : List Node) (g : Option NodeData) (h : Nat) : (Node.mk a b c d e f g h).priority = h := rfl

theorem gvWalk_succ (fuel : Nat) (n : Node) (name : Bytes) (p : List ParamKV)
    (fb : Option (Node × Bytes × List ParamKV)) (fallback : Bool)
    (nearest : Milestone) (zones : List Milestone) (endv : Nat) :
    gvWalk (fuel + 1) n name p fb fallback nearest zones endv =
      gvStep (gvWalk fuel) n name p fb fallback nearest zones endv := rfl

/-- C1 (amended), static half. -/
theorem gvWalk_dname_cut (fuel : Nat) (n : Node) (name : Bytes)
    (p : List ParamKV) (fb : Option (Node × Bytes × List ParamKV))
    (fallback : Bool) (nearest : Milestone) (zones : List Milestone) (endv : Nat)
    (hlen : n.name.length < name.length)
    (hpre : name.take n.name.length = n.name)
    (hdot : (name.drop n.name.length).head? = some dotB)
    (hdn : dataDname n.data = true) :
    ∃ o v, gvWalk (fuel + 1) n name p fb fallback nearest zones endv = Except.ok o ∧
      gvFinish o = Except.ok v ∧ v.node = some n ∧ v.cut = true := by
  rw [gvWalk_succ]
  unfold gvStep
  rw [if_pos ⟨hlen, hpre⟩]
  simp only []
  rw [if_pos ⟨hdot, by simpa using hdn⟩]
  exact ⟨_, _, rfl, rfl, rfl, rfl⟩

/-- C1 (amended), parameter half. -/
theorem gvWalk_param_dname_no_cut (fuel : Nat) (n : Node) (name : Bytes)
    (p : List ParamKV) (fb : Option (Node × Bytes × List ParamKV))
    (fallback : Bool) (nearest : Milestone) (zones : List Milestone) (endv : Nat)
    (child : Node)
    (hlen : n.name.length < name.length)
    (hpre : name.take n.name.length = n.name)
    (hndn : ¬((name.drop n.name.length).head? = some dotB ∧ dataDname n.data = true))
    (hwild : n.wildChild = WildChild.named)
    (hchild : n.children.get? 0 = some child)
    (hparam : child.nType = NType.param)
    (hend : ((name.drop n.name.length).takeWhile (· ≠ dotB)).length <
      (name.drop n.name.length).length)
    (hdn : dataDname child.data = true)
    (hc1 : 1 ≤ child.name.length) :
    ∃ o v, gvWalk (fuel + 1) n name p fb fallback nearest zones endv = Except.ok o ∧
      gvFinish o = Except.ok v ∧ v.node = some child ∧ v.cut = false := by
  rw [gvWalk_succ]
  unfold gvStep
  rw [if_pos ⟨hlen, hpre⟩]
  simp only []
  rw [if_neg (by simpa using hndn)]
  rw [if_neg (by simp [hwild])]
  rw [hchild]
  simp only []
  rw [hparam]
  simp only []
  rw [if_neg (by omega)]
  rw [if_pos hend, if_pos (by simpa using hdn)]
  exact ⟨_, _, rfl, rfl, rfl, rfl⟩

/-- C1 (amended): during a `getValue` descent, a node whose payload carries
the DNAME flag with the remaining name beginning `'.'` stops the lookup and
is returned as the match; `cut` is set to true when the DNAME node's full
edge name was consumed (the static branch), but remains false when the DNAME
payload sits on a named-parameter child and the remainder after the captured
label begins with `'.'`. -/
theorem getValue_dname_spec (fuel : Nat) (n : Node) (name : Bytes)
    (p : List ParamKV) (fb : Option (Node × Bytes × List ParamKV))
    (fallback : Bool) (nearest : Milestone) (zones : List Milestone) (endv : Nat) :
    ((n.name.length < name.length) → (name.take n.name.length = n.name) →
      ((name.drop n.name.length).head? = some dotB) → (dataDname n.data = true) →
      ∃ o v, gvWalk (fuel + 1) n name p fb fallback nearest zones endv = Except.ok o ∧
        gvFinish o = Except.ok v ∧ v.node = some n ∧ v.cut = true) ∧
    (∀ child : Node, (n.name.length < name.length) →
      (name.take n.name.length = n.name) →
      (¬((name.drop n.name.length).head? = some dotB ∧ dataDname n.data = true)) →
      (n.wildChild = WildChild.named) → (n.children.get? 0 = some child) →
      (child.nType = NType.param) →
      (((name.drop n.name.length).takeWhile (· ≠ dotB)).length <
        (name.drop n.name.length).length) →
      (dataDname child.data = true) → (1 ≤ child.name.length) →
      ∃ o v, gvWalk (fuel + 1) n name p fb fallback nearest zones endv = Except.ok o ∧
        gvFinish o = Except.ok v ∧ v.node = some child ∧ v.cut = false) :=
  ⟨fun h1 h2 h3 h4 =>
      gvWalk_dname_cut fuel n name p fb fallback nearest zones endv h1 h2 h3 h4,
    fun child h1 h2 h3 h4 h5 h6 h7 h8 h9 =>
      gvWalk_param_dname_no_cut fuel n name p fb fallback nearest zones endv child
        h1 h2 h3 h4 h5 h6 h7 h8 h9⟩

/-- Witness for C1 (amended): a static DNAME node under query `".d.e"`, and a
named-parameter DNAME child under query `".c.x.y"`. -/
theorem getValue_dname_spec_witness :
    (∃ o v, gvWalk 1
        (Node.mk (strB ".d") WildChild.none NType.static 0 [] []
          (some ⟨[], ⟨false, false, true⟩⟩) 1)
        (strB ".d.e") [] Option.none false ⟨[], Option.none, []⟩ [] 0 = Except.ok o ∧
      gvFinish o = Except.ok v ∧
      v.node = some (Node.mk (strB ".d") WildChild.none NType.static 0 [] []
        (some ⟨[], ⟨false, false, true⟩⟩) 1) ∧ v.cut = true) ∧
    (∃ o v, gvWalk 1
        (Node.mk (strB ".c.") WildChild.named NType.root 1 []
          [Node.mk (strB ":t") WildChild.none NType.param 1 [] []
            (some ⟨[], ⟨false, false, true⟩⟩) 1]
          Option.none 1)
        (strB ".c.x.y") [] Option.none false ⟨[], Option.none, []⟩ [] 0 = Except.ok o ∧
      gvFinish o = Except.ok v ∧
      v.node = some (Node.mk (strB ":t") WildChild.none NType.param 1 [] []
        (some ⟨[], ⟨false, false, true⟩⟩) 1) ∧ v.cut = false) :=
  ⟨(getValue_dname_spec 0 _ _ [] Option.none false ⟨[], Option.none, []⟩ [] 0).1
      (by decide) (by decide) (by decide) (by decide),
    (getValue_dname_spec 0 _ _ [] Option.none false ⟨[], Option.none, []⟩ [] 0).2
      _ (by decide) (by decide) (by decide) (by decide) rfl rfl (by decide)
      (by decide) (by decide)⟩

/-- C1 counterexample: register `".cmd.:tool"` with a DNAME handler; the
query `".cmd.test.3"` descends through the named-parameter node, whose
payload has the DNAME flag while the remaining unconsumed name `".3"` begins
with `'.'`; the returned value does carry that node as the match, but
`cut` is false — refuting the claim that such a descent always returns
`cut = true`. -/
theorem getValue_param_dname_cex :
    (addRoute 50 Node.empty (strB ".cmd.:tool") true
      ⟨[], typeDNAME, 0, 1, Option.none⟩).2 = Option.none ∧
    ((getValue 50
        (addRoute 50 Node.empty (strB ".cmd.:tool") true
          ⟨[], typeDNAME, 0, 1, Option.none⟩).1
        (strB ".cmd.test.3")).toOption.map
      fun v => (v.node.map Node.nType, v.node.map (fun m => dataDname m.data),
        v.node.map (fun m => m.name.drop 1), v.cut))
      = some (some NType.param, some true, some (strB "tool"), false) := by
  decide

@[simp] theorem handlersCount_noneD : handlersCount Option.none = 0 := rfl

@[simp] theorem handlersCount_someD (dd : NodeData) :
    handlersCount (some dd) = dd.handler.length := rfl

theorem get?_set_self {α : Type} (l : List α) (i : Nat) (a x : α)
    (h : l.get? i = some a) : (l.set i x).get? i = some x := by
  induction l generalizing i with
  | nil => simp at h
  | cons y ys ih =>
    cases i with
    | zero => rfl
    | succ k => simpa using ih k (by simpa using h)

theorem get?_set_ne {α : Type} (l : List α) (i j : Nat) (x : α) (hij : i ≠ j) :
    (l.set i x).get? j = l.get? j := by
  induction l generalizing i j with
  | nil => simp
  | cons y ys ih =>
    cases i with
    | zero =>
      cases j with
      | zero => exact absurd rfl hij
      | succ k => rfl
    | succ m =>
      cases j with
      | zero => rfl
      | succ k => simpa using ih m k (by omega)

theorem set_append_perm {α : Type} (l : List α) (i : Nat) (a x : α)
    (h : l.get? i = some a) : (l.set i x ++ [a]).Perm (l ++ [x]) := by
  induction l generalizing i with
  | nil => simp at h
  | cons y ys ih =>
    cases i with
    | zero =>
      simp only [List.get?] at h
      injection h with h
      subst h
      show (x :: (ys ++ [y])).Perm (y :: (ys ++ [x]))
      exact ((List.perm_append_comm).cons x).trans
        ((List.Perm.swap y x ys).trans ((@List.perm_append_comm _ [x] ys).cons y))
    | succ k =>
      have hk : ys.get? k = some a := by simpa using h
      show (y :: (ys.set k x ++ [a])).Perm (y :: (ys ++ [x]))
      exact (ih k hk).cons y

theorem set_ms {α : Type} (l : List α) (i : Nat) (a x : α) (h : l.get? i = some a) :
    (↑(l.set i x) : Multiset α) + {a} = (↑l : Multiset α) + {x} := by
  have hp := set_append_perm l i a x h
  rw [show ({a} : Multiset α) = ↑([a] : List α) from rfl,
    show ({x} : Multiset α) = ↑([x] : List α) from rfl,
    Multiset.coe_add, Multiset.coe_add, Multiset.coe_eq_coe]
  exact hp

theorem sumPrio_eq_ms (l : List Node) : sumPrio l = msPrioSum (↑l : Multiset Node) := by
  induction l with
  | nil => rfl
  | cons c cs ih =>
    show c.priority + sumPrio cs = msPrioSum (↑(c :: cs) : Multiset Node)
    rw [ih]
    show _ = (Multiset.map Node.priority (c ::ₘ ↑cs)).sum
    rw [Multiset.map_cons, Multiset.sum_cons]
    rfl

theorem msPrioSum_add (m m' : Multiset Node) :
    msPrioSum (m + m') = msPrioSum m + msPrioSum m' := by
  unfold msPrioSum
  rw [Multiset.map_add, Multiset.sum_add]

theorem prioAll_iff (l : List Node) :
    prioAll l = true ↔ ∀ x ∈ l, prioOK x = true := by
  induction l with
  | nil => simp [prioAll]
  | cons c cs ih =>
    rw [prioAll, Bool.and_eq_true, ih]
    constructor
    · rintro ⟨h1, h2⟩ x hx
      rcases List.mem_cons.mp hx with rfl | hm
      · exact h1
      · exact h2 x hm
    · intro h
      exact ⟨h c (List.mem_cons_self c cs), fun x hx => h x (List.mem_cons_of_mem c hx)⟩

/-- Membership transfer along an exchange equation `↑l₁ + {a} = ↑l₂ + {x}`. -/
theorem mem_of_ms_exchange {l₁ l₂ : List Node} {a x : Node}
    (h : (↑l₁ : Multiset Node) + {a} = (↑l₂ : Multiset Node) + {x})
    {y : Node} (hy : y ∈ l₁) : y ∈ l₂ ∨ y = x := by
  have h1 : y ∈ (↑l₁ : Multiset Node) + {a} := by
    rw [Multiset.mem_add]
    exact Or.inl (Multiset.mem_coe.mpr hy)
  rw [h, Multiset.mem_add] at h1
  rcases h1 with h1 | h1
  · exact Or.inl (Multiset.mem_coe.mp h1)
  · exact Or.inr (Multiset.mem_singleton.mp h1)

/-- Priority-sum transfer along an exchange equation. -/
theorem sumPrio_of_ms_exchange {l₁ l₂ : List Node} {a x : Node}
    (h : (↑l₁ : Multiset Node) + {a} = (↑l₂ : Multiset Node) + {x}) :
    sumPrio l₁ + a.priority = sumPrio l₂ + x.priority := by
  have := congrArg msPrioSum h
  rw [msPrioSum_add, msPrioSum_add] at this
  rw [sumPrio_eq_ms, sumPrio_eq_ms]
  simpa [msPrioSum] using this

theorem icpLoop_spec (off prio : Nat) :
    ∀ m cs cs' d, icpLoop off prio cs m = some (cs', d) →
      (↑cs' : Multiset Node) = (↑cs : Multiset Node) ∧
      cs'.get? (d + off) = cs.get? (m + off) := by
  intro m
  induction m with
  | zero =>
    intro cs cs' d h
    rw [icpLoop] at h
    injection h with h
    injection h with h1 h2
    subst h1; subst h2
    exact ⟨rfl, rfl⟩
  | succ k ih =>
    intro cs cs' d h
    rw [icpLoop] at h
    cases hg : cs.get? k with
    | none => rw [hg] at h; exact absurd h (by simp)
    | some prev =>
      rw [hg] at h
      simp only [] at h
      by_cases hp : prev.priority < prio
      · rw [if_pos hp] at h
        cases hga : cs.get? (k + off) with
        | none => rw [hga] at h; exact absurd h (by simp)
        | some a =>
          cases hgb : cs.get? (k + 1 + off) with
          | none => rw [hga, hgb] at h; exact absurd h (by simp)
          | some b =>
            rw [hga, hgb] at h
            simp only [] at h
            have ihres := ih _ _ _ h
            set cs2 := (cs.set (k + off) b).set (k + 1 + off) a with hcs2
            have hne : k + off ≠ k + 1 + off := by omega
            have hb1 : (cs.set (k + off) b).get? (k + 1 + off) = some b := by
              rw [get?_set_ne _ _ _ _ hne]; exact hgb
            have e1 : (↑(cs.set (k + off) b) : Multiset Node) + {a} =
                (↑cs : Multiset Node) + {b} := set_ms cs (k + off) a b hga
            have e2 : (↑cs2 : Multiset Node) + {b} =
                (↑(cs.set (k + off) b) : Multiset Node) + {a} :=
              set_ms _ (k + 1 + off) b a hb1
            have hms : (↑cs2 : Multiset Node) = (↑cs : Multiset Node) := by
              have : (↑cs2 : Multiset Node) + {b} + {a} =
                  (↑cs : Multiset Node) + {b} + {a} := by
                rw [e2]
                rw [show (↑(cs.set (k + off) b) : Multiset Node) + {a} + {a} =
                  ((↑(cs.set (k + off) b) : Multiset Node) + {a}) + {a} from rfl]
                rw [e1]
              have h2 := add_right_cancel this
              exact add_right_cancel h2
            have hget : cs2.get? (k + off) = cs.get? (k + 1 + off) := by
              rw [hcs2, get?_set_ne _ _ _ _ (show k + 1 + off ≠ k + off by omega)]
              rw [get?_set_self _ _ _ b hga, hgb]
            exact ⟨ihres.1.trans hms, ihres.2.trans (hget.trans hgb)⟩
      · rw [if_neg hp] at h
        injection h with h
        injection h with h1 h2
        subst h1; subst h2
        exact ⟨rfl, rfl⟩

@[simp] theorem name_withName (n : Node) (v : Bytes) : (n.withName v).name = v := by cases n; rfl

@[simp] theorem wildChild_withName (n : Node) (v : Bytes) : (n.withName v).wildChild = n.wildChild := by cases n; rfl

@[simp] theorem nType_withName (n : Node) (v : Bytes) : (n.withName v).nType = n.nType := by cases n; rfl

@[simp] theorem maxParams_withName (n : Node) (v : Bytes) : (n.withName v).maxParams = n.maxParams := by cases n; rfl

@[simp] theorem indices_withName (n : Node) (v : Bytes) : (n.withName v).indices = n.indices := by cases n; rfl

@[simp] theorem children_withName (n : Node) (v : Bytes) : (n.withName v).children = n.children := by cases n; rfl

@[simp] theorem data_withName (n : Node) (v : Bytes) : (n.withName v).data = n.data := by cases n; rfl

@[simp] theorem priority_withName (n : Node) (v : Bytes) : (n.withName v).priority = n.priority := by cases n; rfl

@[simp] theorem name_withWildChild (n : Node) (v : WildChild) : (n.withWildChild v).name = n.name := by cases n; rfl

@[simp] theorem wildChild_withWildChild (n : Node) (v : WildChild) : (n.withWildChild v).wildChild = v := by cases n; rfl

@[simp] theorem nType_withWildChild (n : Node) (v : WildChild) : (n.withWildChild v).nType = n.nType := by cases n; rfl

@[simp] theorem maxParams_withWildChild (n : Node) (v : WildChild) : (n.withWildChild v).maxParams = n.maxParams := by cases n; rfl

@[simp] theorem indices_withWildChild (n : Node) (v : WildChild) : (n.withWildChild v).indices = n.indices := by cases n; rfl

@[simp] theorem children_withWildChild (n : Node) (v : WildChild) : (n.withWildChild v).children = n.children := by cases n; rfl

@[simp] theorem data_withWildChild (n : Node) (v : WildChild) : (n.withWildChild v).data = n.data := by cases n; rfl

@[simp] theorem priority_withWildChild (n : Node) (v : WildChild) : (n.withWildChild v).priority = n.priority := by cases n; rfl

@[simp] theorem name_withNType (n : Node) (v : NType) : (n.withNType v).name = n.name := by cases n; rfl

@[simp] theorem wildChild_withNType (n : Node) (v : NType) : (n.withNType v).wildChild = n.wildChild := by cases n; rfl

@[simp] theorem nType_withNType (n : Node) (v : NType) : (n.withNType v).nType = v := by cases n; rfl

@[simp] theorem maxParams_withNType (n : Node) (v : NType) : (n.withNType v).maxParams = n.maxParams := by cases n; rfl

@[simp] theorem indices_withNType (n : Node) (v : NType) : (n.withNType v).indices = n.indices := by cases n; rfl

@[simp] theorem children_withNType (n : Node) (v : NType) : (n.withNType v).children = n.children := by cases n; rfl

@[simp] theorem data_withNType (n : Node) (v : NType) : (n.withNType v).data = n.data := by cases n; rfl

@[simp] theorem priority_withNType (n : Node) (v : NType) : (n.withNType v).priority = n.priority := by cases n; rfl

@[simp] theorem name_withMaxParams (n : Node) (v : Nat) : (n.withMaxParams v).name = n.name := by cases n; rfl

@[simp] theorem wildChild_withMaxParams (n : Node) (v : Nat) : (n.withMaxParams v).wildChild = n.wildChild := by cases n; rfl

@[simp] theorem nType_withMaxParams (n : Node) (v : Nat) : (n.withMaxParams v).nType = n.nType := by cases n; rfl

@[simp] theorem maxParams_withMaxParams (n : Node) (v : Nat) : (n.withMaxParams v).maxParams = v := by cases n; rfl

@[simp] theorem indices_withMaxParams (n : Node) (v : Nat) : (n.withMaxParams v).indices = n.indices := by cases n; rfl

@[simp] theorem children_withMaxParams (n : Node) (v : Nat) : (n.withMaxParams v).children = n.children := by cases n; rfl

@[simp] theorem data_withMaxParams (n : Node) (v : Nat) : (n.withMaxParams v).data = n.data := by cases n; rfl

@[simp] theorem priority_withMaxParams (n : Node) (v : Nat) : (n.withMaxParams v).priority = n.priority := by cases n; rfl

@[simp] theorem name_withIndices (n : Node) (v : Bytes) : (n.withIndices v).name = n.name := by cases n; rfl

@[simp] theorem wildChild_withIndices (n : Node) (v : Bytes) : (n.withIndices v).wildChild = n.wildChild := by cases n; rfl

@[simp] theorem nType_withIndices (n : Node) (v : Bytes) : (n.withIndices v).nType = n.nType := by cases n; rfl

@[simp] theorem maxParams_withIndices (n : Node) (v : Bytes) : (n.withIndices v).maxParams = n.maxParams := by cases n; rfl

@[simp] theorem indices_withIndices (n : Node) (v : Bytes) : (n.withIndices v).indices = v := by cases n; rfl

@[simp] theorem children_withIndices (n : Node) (v : Bytes) : (n.withIndices v).children = n.children := by cases n; rfl

@[simp] theorem data_withIndices (n : Node) (v : Bytes) : (n.withIndices v).data = n.data := by cases n; rfl

@[simp] theorem priority_withIndices (n : Node) (v : Bytes) : (n.withIndices v).priority = n.priority := by cases n; rfl

@[simp] theorem name_withChildren (n : Node) (v : List Node) : (n.withChildren v).name = n.name := by cases n; rfl

@[simp] theorem wildChild_withChildren (n : Node) (v : List Node) : (n.withChildren v).wildChild = n.wildChild := by cases n; rfl

@[simp] theorem nType_withChildren (n : Node) (v : List Node) : (n.withChildren v).nType = n.nType := by cases n; rfl

@[simp] theorem maxParams_withChildren (n : Node) (v : List Node) : (n.withChildren v).maxParams = n.maxParams := by cases n; rfl

@[simp] theorem indices_withChildren (n : Node) (v : List Node) : (n.withChildren v).indices = n.indices := by cases n; rfl

@[simp] theorem children_withChildren (n : Node) (v : List Node) : (n.withChildren v).children = v := by cases n; rfl

@[simp] theorem data_withChildren (n : Node) (v : List Node) : (n.withChildren v).data = n.data := by cases n; rfl

@[simp] theorem priority_withChildren (n : Node) (v : List Node) : (n.withChildren v).priority = n.priority := by cases n; rfl

@[simp] theorem name_withData (n : Node) (v : Option NodeData) : (n.withData v).name = n.name := by cases n; rfl

@[simp] theorem wildChild_withData (n : Node) (v : Option NodeData) : (n.withData v).wildChild = n.wildChild := by cases n; rfl

@[simp] theorem nType_withData (n : Node) (v : Option NodeData) : (n.withData v).nType = n.nType := by cases n; rfl

@[simp] theorem maxParams_withData (n : Node) (v : Option NodeData) : (n.withData v).maxParams = n.maxParams := by cases n; rfl

@[simp] theorem indices_withData (n : Node) (v : Option NodeData) : (n.withData v).indices = n.indices := by cases n; rfl

@[simp] theorem children_withData (n : Node) (v : Option NodeData) : (n.withData v).children = n.children := by cases n; rfl

@[simp] theorem data_withData (n : Node) (v : Option NodeData) : (n.withData v).data = v := by cases n; rfl

@[simp] theorem priority_withData (n : Node) (v : Option NodeData) : (n.withData v).priority = n.priority := by cases n; rfl

@[simp] theorem name_withPriority (n : Node) (v : Nat) : (n.withPriority v).name = n.name := by cases n; rfl

@[simp] theorem wildChild_withPriority (n : Node) (v : Nat) : (n.withPriority v).wildChild = n.wildChild := by cases n; rfl

@[simp] theorem nType_withPriority (n : Node) (v : Nat) : (n.withPriority v).nType = n.nType := by cases n; rfl

@[simp] theorem maxParams_withPriority (n : Node) (v : Nat) : (n.withPriority v).maxParams = n.maxParams := by cases n; rfl

@[simp] theorem indices_withPriority (n : Node) (v : Nat) : (n.withPriority v).indices = n.indices := by cases n; rfl

@[simp] theorem children_withPriority (n : Node) (v : Nat) : (n.withPriority v).children = n.children := by cases n; rfl

@[simp] theorem data_withPriority (n : Node) (v : Nat) : (n.withPriority v).data = n.data := by cases n; rfl

@[simp] theorem priority_withPriority (n : Node) (v : Nat) : (n.withPriority v).priority = v := by cases n; rfl

theorem incrementChildPrio_spec (n : Node) (pos : Nat) (n2 : Node) (j : Nat)
    (h : incrementChildPrio n pos = some (n2, j)) :
    ∃ c, n.children.get? (pos + wcOff n) = some c ∧
      n2.children.get? j = some (c.withPriority (c.priority + 1)) ∧
      (↑n2.children : Multiset Node) + {c} =
        (↑n.children : Multiset Node) + {c.withPriority (c.priority + 1)} ∧
      n2.priority = n.priority ∧ n2.data = n.data ∧ n2.name = n.name ∧
      n2.wildChild = n.wildChild ∧ n2.nType = n.nType ∧ n2.maxParams = n.maxParams := by
  unfold incrementChildPrio at h
  cases hg : n.children.get? (pos + wcOff n) with
  | none => rw [hg] at h; exact absurd h (by simp)
  | some child =>
    rw [hg] at h
    simp only [] at h
    cases hloop : icpLoop (wcOff n) (child.priority + 1)
        (n.children.set (pos + wcOff n)
          (child.withPriority (child.priority + 1))) pos with
    | none => rw [hloop] at h; exact absurd h (by simp)
    | some res =>
      rw [hloop] at h
      obtain ⟨cs', newPos⟩ := res
      have hspec := icpLoop_spec _ _ _ _ _ _ hloop
      have hbump : (n.children.set (pos + wcOff n)
          (child.withPriority (child.priority + 1))).get? (pos + wcOff n) =
          some (child.withPriority (child.priority + 1)) :=
        get?_set_self _ _ _ _ hg
      have hex : (↑(n.children.set (pos + wcOff n)
            (child.withPriority (child.priority + 1))) : Multiset Node) + {child} =
          (↑n.children : Multiset Node) + {child.withPriority (child.priority + 1)} :=
        set_ms _ _ _ _ hg
      have hex' : (↑cs' : Multiset Node) + {child} =
          (↑n.children : Multiset Node) + {child.withPriority (child.priority + 1)} := by
        rw [hspec.1]; exact hex
      have hget' : cs'.get? (newPos + wcOff n) =
          some (child.withPriority (child.priority + 1)) :=
        hspec.2.trans hbump
      simp only [] at h
      by_cases hnp : newPos ≠ pos
      · rw [if_pos hnp] at h
        by_cases hidx : pos < n.indices.length
        · rw [if_pos hidx] at h
          injection h with h
          injection h with h1 h2
          subst h1; subst h2
          refine ⟨child, rfl, ?_, ?_, by simp, by simp, by simp, by simp, by simp, by simp⟩
          · simpa using hget'
          · simpa using hex'
        · rw [if_neg hidx] at h; exact absurd h (by simp)
      · rw [if_neg hnp] at h
        injection h with h
        injection h with h1 h2
        subst h1; subst h2
        refine ⟨child, rfl, ?_, ?_, by simp, by simp, by simp, by simp, by simp, by simp⟩
        · simpa using hget'
        · simpa using hex'

theorem prioOK_iff (n : Node) : prioOK n = true ↔
    (n.priority = handlersCount n.data + sumPrio n.children ∧ prioAll n.children = true) := by
  cases n
  simp [prioOK, Node.priority, Node.data, Node.children]

theorem prioOK1_iff (n : Node) : prioOK1 n = true ↔
    (n.priority = handlersCount n.data + sumPrio n.children + 1 ∧ prioAll n.children = true) := by
  unfold prioOK1
  simp

@[simp] theorem prioOK_withName (n : Node) (v : Bytes) : prioOK (n.withName v) = prioOK n := by cases n; rfl

@[simp] theorem handlersMS_withName (n : Node) (v : Bytes) : handlersMS (n.withName v) = handlersMS n := by cases n; rfl

@[simp] theorem prioOK_withWildChild (n : Node) (v : WildChild) : prioOK (n.withWildChild v) = prioOK n := by cases n; rfl

@[simp] theorem handlersMS_withWildChild (n : Node) (v : WildChild) : handlersMS (n.withWildChild v) = handlersMS n := by cases n; rfl

@[simp] theorem prioOK_withNType (n : Node) (v : NType) : prioOK (n.withNType v) = prioOK n := by cases n; rfl

@[simp] theorem handlersMS_withNType (n : Node) (v : NType) : handlersMS (n.withNType v) = handlersMS n := by cases n; rfl

@[simp] theorem prioOK_withMaxParams (n : Node) (v : Nat) : prioOK (n.withMaxParams v) = prioOK n := by cases n; rfl

@[simp] theorem handlersMS_withMaxParams (n : Node) (v : Nat) : handlersMS (n.withMaxParams v) = handlersMS n := by cases n; rfl

@[simp] theorem prioOK_withIndices (n : Node) (v : Bytes) : prioOK (n.withIndices v) = prioOK n := by cases n; rfl

@[simp] theorem handlersMS_withIndices (n : Node) (v : Bytes) : handlersMS (n.withIndices v) = handlersMS n := by cases n; rfl

@[simp] theorem handlersMS_withPriority (n : Node) (v : Nat) : handlersMS (n.withPriority v) = handlersMS n := by cases n; rfl

theorem sortCH_length (l : List TypeHandler) : (sortCH l).length = l.length := by
  induction l with
  | nil => rfl
  | cons x xs ih =>
    show (sortInsert x (sortCH xs)).length = xs.length + 1
    rw [(sortInsert_perm x (sortCH xs)).length_eq]
    simp [ih]

theorem addHandler_length (p : NodeData) (th : TypeHandler) :
    (addHandler p th).handler.length = p.handler.length + 1 := by
  unfold addHandler
  simp only []
  by_cases hl : 1 < (p.handler ++ [th]).length
  · rw [if_pos hl, sortCH_length]
    simp
  · rw [if_neg hl]
    simp

theorem handlersCount_addHandler (d : Option NodeData) (th : TypeHandler) :
    handlersCount (some (addHandler (d.getD emptyNodeData) th)) = handlersCount d + 1 := by
  cases d with
  | none => simp [handlersCount, addHandler_length, emptyNodeData]
  | some dd => simp [handlersCount, addHandler_length]

theorem sumPrio_set (l : List Node) (i : Nat) (a x : Node) (h : l.get? i = some a) :
    sumPrio (l.set i x) + a.priority = sumPrio l + x.priority :=
  sumPrio_of_ms_exchange (set_ms l i a x h)

theorem prioAll_append (l₁ l₂ : List Node) :
    prioAll (l₁ ++ l₂) = (prioAll l₁ && prioAll l₂) := by
  induction l₁ with
  | nil => simp [prioAll]
  | cons c cs ih =>
    show prioAll (c :: (cs ++ l₂)) = _
    rw [prioAll, ih, prioAll, Bool.and_assoc]

theorem sumPrio_append (l₁ l₂ : List Node) :
    sumPrio (l₁ ++ l₂) = sumPrio l₁ + sumPrio l₂ := by
  induction l₁ with
  | nil => simp [sumPrio]
  | cons c cs ih =>
    show c.priority + sumPrio (cs ++ l₂) = c.priority + sumPrio cs + sumPrio l₂
    rw [ih]
    omega

@[simp] theorem dataMS_noneD : dataMS Option.none = 0 := rfl

@[simp] theorem dataMS_someD (dd : NodeData) :
    dataMS (some dd) = (↑dd.handler : Multiset TypeHandler) := rfl

theorem handlersMS_mk (a : Bytes) (b : WildChild) (c : NType) (d : Nat) (e : Bytes)
    (cs : List Node) (dat : Option NodeData) (p : Nat) :
    handlersMS (.mk a b c d e cs dat p) = dataMS dat + handlersMSL cs := by
  cases dat <;> rfl

theorem handlersMS_node (n : Node) :
    handlersMS n = dataMS n.data + handlersMSL n.children := by
  cases n
  rw [handlersMS_mk]
  rfl

theorem handlersMSL_eq_ms (l : List Node) :
    handlersMSL l = msHSum (↑l : Multiset Node) := by
  induction l with
  | nil => rfl
  | cons c cs ih =>
    show handlersMS c + handlersMSL cs = msHSum (↑(c :: cs) : Multiset Node)
    rw [ih]
    show _ = (Multiset.map handlersMS (c ::ₘ ↑cs)).sum
    rw [Multiset.map_cons, Multiset.sum_cons]
    rfl

theorem handlersMSL_of_ms_exchange {l₁ l₂ : List Node} {a x : Node}
    (h : (↑l₁ : Multiset Node) + {a} = (↑l₂ : Multiset Node) + {x}) :
    handlersMSL l₁ + handlersMS a = handlersMSL l₂ + handlersMS x := by
  have := congrArg msHSum h
  unfold msHSum at this
  rw [Multiset.map_add, Multiset.sum_add, Multiset.map_add, Multiset.sum_add] at this
  rw [handlersMSL_eq_ms, handlersMSL_eq_ms]
  simpa [msHSum] using this

theorem prioOK1_withPriority_bump (c : Node) :
    prioOK1 (c.withPriority (c.priority + 1)) = prioOK c := by
  cases c with
  | mk a b t mp idx cs dat pr =>
    show prioOK1 (Node.mk a b t mp idx cs dat (pr + 1)) = prioOK (Node.mk a b t mp idx cs dat pr)
    rw [prioOK1, prioOK]
    simp [Node.priority, Node.data, Node.children]

/-- Membership transfer along the chained exchanges produced by an
`incrementChildPrio` bump followed by putting the recursion result back. -/
theorem mem_of_exchange₂ {l1 l2 l3 : List Node} {c cj r : Node}
    (h1 : (↑l2 : Multiset Node) + {c} = (↑l1 : Multiset Node) + {cj})
    (h2 : (↑l3 : Multiset Node) + {cj} = (↑l2 : Multiset Node) + {r})
    (hccj : c ≠ cj) {y : Node} (hy : y ∈ l3) : y ∈ l1 ∨ y = r := by
  classical
  have c1 := congrArg (Multiset.count y) h1
  have c2 := congrArg (Multiset.count y) h2
  simp only [Multiset.count_add, Multiset.count_singleton, Multiset.coe_count] at c1 c2
  by_cases hr : y = r
  · exact Or.inr hr
  by_cases h1m : y ∈ l1
  · exact Or.inl h1m
  exfalso
  have hl1 : l1.count y = 0 := List.count_eq_zero.mpr h1m
  have hl3 : 0 < l3.count y := List.count_pos_iff.mpr hy
  rw [if_neg hr] at c2
  rw [hl1] at c1
  by_cases hcj : y = cj
  · have hyc : y ≠ c := fun he => hccj (he.symm.trans hcj)
    rw [if_neg hyc, if_pos hcj] at c1
    rw [if_pos hcj] at c2
    omega
  · rw [if_neg hcj] at c1 c2
    by_cases hyc : y = c
    · rw [if_pos hyc] at c1
      omega
    · rw [if_neg hyc] at c1
      omega

theorem prioOK_withData_add (n : Node) (th : TypeHandler)
    (h : prioOK1 n = true) :
    prioOK (n.withData (some (addHandler (n.data.getD emptyNodeData) th))) = true := by
  rw [prioOK1_iff] at h
  rw [prioOK_iff]
  simp only [data_withData, children_withData, priority_withData]
  rw [handlersCount_addHandler]
  exact ⟨by omega, h.2⟩

theorem handlersMS_tail0ish (mp pr : Nat) :
    handlersMS ((Node.empty.withMaxParams mp).withPriority pr) = 0 := by
  rfl

theorem prioOK1_tail0ish (mp : Nat) :
    prioOK1 ((Node.empty.withMaxParams mp).withPriority 1) = true := by
  rfl

theorem icGo_zero_eq (name fullName : Bytes) (th : TypeHandler) (n : Node)
    (i offset : Nat) :
    icGo name fullName th n 0 i offset =
      ((n.withName (name.drop offset)).withData
        (some (addHandler (n.data.getD emptyNodeData) th)), Option.none) := rfl

theorem icGo_succ_eq (name fullName : Bytes) (th : TypeHandler) (n : Node)
    (k i offset : Nat) :
    icGo name fullName th n (k + 1) i offset =
      icStep name fullName th (fun n' => icGo name fullName th n' k) n k i offset := rfl

theorem handlersCount_addHandler_empty (th : TypeHandler) :
    handlersCount (some (addHandler emptyNodeData th)) = 1 := by
  simp [handlersCount, addHandler_length, emptyNodeData]

theorem prioOK_leaf1 (th : TypeHandler) (nm : Bytes) (b : WildChild) (c : NType)
    (mp : Nat) :
    prioOK (Node.mk nm b c mp [] [] (some (addHandler emptyNodeData th)) 1) = true := by
  rw [prioOK_iff]
  simp [sumPrio, prioAll, addHandler_length, emptyNodeData]

theorem icGo_spec (name fullName : Bytes) (th : TypeHandler) :
    ∀ np n i offset,
      (icGo name fullName th n np i offset).1.priority = n.priority ∧
      (prioOK1 n = true → (icGo name fullName th n np i offset).2 = Option.none →
        prioOK (icGo name fullName th n np i offset).1 = true) ∧
      ((icGo name fullName th n np i offset).2 ≠ Option.none →
        handlersMS (icGo name fullName th n np i offset).1 = handlersMS n) := by
  intro np
  induction np with
  | zero =>
    intro n i offset
    rw [icGo_zero_eq]
    refine ⟨by simp, ?_, ?_⟩
    · intro h1 _
      show prioOK ((n.withName (name.drop offset)).withData
        (some (addHandler (n.data.getD emptyNodeData) th))) = true
      have := prioOK_withData_add (n.withName (name.drop offset)) th
        (by simpa [prioOK1] using h1)
      simpa using this
    · intro h
      exact absurd rfl h
  | succ k ih =>
    intro n i offset
    rw [icGo_succ_eq]
    unfold icStep
    cases hw : findWildFrom name i with
    | none => exact ⟨rfl, fun _ h => absurd h (by simp), fun _ => rfl⟩
    | some iw =>
      simp only []
      cases he : wildEnd name (iw + 1) name.length with
      | none => exact ⟨rfl, fun _ h => absurd h (by simp), fun _ => rfl⟩
      | some e0 =>
        simp only []
        by_cases hanon : (name.getD iw 0 = starB ∧ e0 = name.length ∧
            hasSuf fullName [dotB, starB] = true)
        · rw [if_pos hanon]
          refine ⟨by by_cases hiw : 0 < iw <;> simp [hiw], ?_,
            fun hbad => absurd rfl hbad⟩
          intro h1 _
          rw [prioOK1_iff] at h1
          obtain ⟨h11, h12⟩ := h1
          rw [prioOK_iff]
          constructor
          · by_cases hiw : 0 < iw <;> simp [hiw, sumPrio] <;> omega
          · by_cases hiw : 0 < iw <;>
              · simp [hiw, prioAll, Bool.and_eq_true]
                exact ⟨by
                    have := prioOK_leaf1 th
                      (name.drop (if 0 < iw then iw else offset)) WildChild.none
                      NType.anonymousCatchAll (k + 1)
                    simpa [hiw] using this,
                  h12⟩
        · rw [if_neg hanon]
          by_cases hch : 0 < n.children.length
          · rw [if_pos hch]
            exact ⟨rfl, fun _ h => absurd h (by simp), fun _ => rfl⟩
          · rw [if_neg hch]
            by_cases hew : e0 - iw < 2
            · rw [if_pos hew]
              exact ⟨rfl, fun _ h => absurd h (by simp), fun _ => rfl⟩
            · rw [if_neg hew]
              have hchn : n.children = [] := by
                cases hcn : n.children with
                | nil => rfl
                | cons a b => rw [hcn] at hch; simp at hch
              by_cases hcol : name.getD iw 0 = colonB
              · rw [if_pos hcol]
                by_cases hee : e0 < name.length
                · rw [if_pos hee]
                  obtain ⟨ihA, ihB, ihC⟩ := ih ((Node.empty.withMaxParams k).withPriority 1)
                    (iw + 1) e0
                  refine ⟨by by_cases hiw : 0 < iw <;> simp [hiw], ?_, ?_⟩
                  · intro h1 hok
                    rw [prioOK1_iff] at h1
                    obtain ⟨h11, h12⟩ := h1
                    rw [hchn] at h11
                    simp only [sumPrio] at h11
                    have hpOK := ihB (prioOK1_tail0ish k) hok
                    rw [prioOK_iff]
                    constructor
                    · by_cases hiw : 0 < iw <;> simp [hiw, sumPrio, ihA] <;> omega
                    · by_cases hiw : 0 < iw <;>
                        · simp [hiw, prioAll, Bool.and_eq_true]
                          rw [prioOK_iff]
                          refine ⟨by simp [sumPrio, ihA], by simp [prioAll, hpOK]⟩
                  · intro hbad
                    have hmsr := ihC hbad
                    rw [handlersMS_tail0ish] at hmsr
                    by_cases hiw : 0 < iw <;>
                      · rw [show handlersMS n = dataMS n.data + handlersMSL n.children from
                          handlersMS_node n]
                        rw [handlersMS_node]
                        simp [hiw, hchn, handlersMSL]
                        rw [handlersMS_node]
                        simp [handlersMSL, hmsr]
                · rw [if_neg hee]
                  by_cases hiw : 0 < iw <;>
                    · obtain ⟨ihA, ihB, ihC⟩ := ih (Node.mk [] WildChild.none NType.param
                        (k + 1) [] [] Option.none 1) (iw + 1)
                        (if 0 < iw then iw else offset)
                      simp only [hiw, if_true, if_false, ite_true, ite_false] at ihA ihB ihC
                      refine ⟨by simp [hiw], ?_, ?_⟩
                      · intro h1 hok
                        simp only [hiw, if_true, if_false, ite_true, ite_false] at hok
                        rw [prioOK1_iff] at h1
                        obtain ⟨h11, h12⟩ := h1
                        rw [hchn] at h11
                        simp only [sumPrio] at h11
                        have hpOK := ihB rfl hok
                        rw [prioOK_iff]
                        constructor
                        · simp [hiw, sumPrio, ihA] <;> omega
                        · simp [hiw, prioAll, Bool.and_eq_true] <;> exact hpOK
                      · intro hbad
                        simp only [hiw, if_true, if_false, ite_true, ite_false] at hbad
                        have hmsr := ihC hbad
                        rw [show handlersMS (Node.mk [] WildChild.none NType.param
                          (k + 1) [] [] Option.none 1) = 0 from rfl] at hmsr
                        rw [show handlersMS n = dataMS n.data + handlersMSL n.children from
                          handlersMS_node n]
                        rw [handlersMS_node]
                        simp [hiw, hchn, handlersMSL, hmsr]
              · rw [if_neg hcol]
                by_cases hca : e0 ≠ name.length ∨ 1 < k + 1
                · rw [if_pos hca]
                  exact ⟨rfl, fun _ h => absurd h (by simp), fun _ => rfl⟩
                · rw [if_neg hca]
                  by_cases hrt : 0 < n.name.length ∧ n.name.getLast? = some dotB
                  · rw [if_pos hrt]
                    exact ⟨rfl, fun _ h => absurd h (by simp), fun _ => rfl⟩
                  · rw [if_neg hrt]
                    by_cases hiw0 : iw = 0
                    · rw [if_pos hiw0]
                      exact ⟨rfl, fun _ h => absurd h (by simp), fun _ => rfl⟩
                    · rw [if_neg hiw0]
                      by_cases hdot : name.getD (iw - 1) 0 ≠ dotB
                      · rw [if_pos hdot]
                        exact ⟨rfl, fun _ h => absurd h (by simp), fun _ => rfl⟩
                      · rw [if_neg hdot]
                        refine ⟨by simp, ?_, fun h => absurd rfl h⟩
                        intro h1 _
                        rw [prioOK1_iff] at h1
                        obtain ⟨h11, h12⟩ := h1
                        rw [hchn] at h11
                        simp only [sumPrio] at h11
                        rw [prioOK_iff]
                        constructor
                        · simp [sumPrio]
                          omega
                        · simp [prioAll, Bool.and_eq_true]
                          rw [prioOK_iff]
                          refine ⟨by simp [sumPrio], ?_⟩
                          simp [prioAll, Bool.and_eq_true]
                          exact prioOK_leaf1 th _ _ _ _

/-- The factored `arStep` is definitionally the verbatim transcription. -/
theorem arStep_defeq : @arStep = @arStepL := rfl

@[simp] theorem prioOK1_withName (n : Node) (v : Bytes) : prioOK1 (n.withName v) = prioOK1 n := by cases n; rfl

@[simp] theorem prioOK1_withMaxParams (n : Node) (v : Nat) : prioOK1 (n.withMaxParams v) = prioOK1 n := by cases n; rfl

@[simp] theorem prioOK1_withIndices (n : Node) (v : Bytes) : prioOK1 (n.withIndices v) = prioOK1 n := by cases n; rfl

@[simp] theorem prioOK1_withWildChild (n : Node) (v : WildChild) : prioOK1 (n.withWildChild v) = prioOK1 n := by cases n; rfl

@[simp] theorem prioOK1_withNType (n : Node) (v : NType) : prioOK1 (n.withNType v) = prioOK1 n := by cases n; rfl

theorem handlersMSL_append (l₁ l₂ : List Node) :
    handlersMSL (l₁ ++ l₂) = handlersMSL l₁ + handlersMSL l₂ := by
  induction l₁ with
  | nil => show handlersMSL l₂ = handlersMSL [] + handlersMSL l₂; rw [handlersMSL]; rw [zero_add]
  | cons c cs ih =>
    show handlersMS c + handlersMSL (cs ++ l₂) = handlersMS c + handlersMSL cs + handlersMSL l₂
    rw [ih, add_assoc]

theorem bump_ne (c : Node) : c ≠ c.withPriority (c.priority + 1) := by
  intro he
  have hp := congrArg Node.priority he
  rw [priority_withPriority] at hp
  omega

theorem arSplit_priority (n : Node) (name : Bytes) (i : Nat) :
    (arSplit n name i).priority = n.priority := by
  unfold arSplit
  by_cases hi : i < n.name.length <;> simp [hi]

theorem arSplit_handlersMS (n : Node) (name : Bytes) (i : Nat) :
    handlersMS (arSplit n name i) = handlersMS n := by
  unfold arSplit
  by_cases hi : i < n.name.length
  · rw [if_pos hi]
    simp only []
    rw [handlersMS_node]
    simp only [data_withWildChild, data_withData, children_withWildChild,
      children_withData, children_withName, children_withIndices, children_withChildren]
    rw [show handlersMSL [Node.mk (n.name.drop i) n.wildChild NType.static
        (n.children.foldl (fun m c => max m c.maxParams) 0)
        n.indices n.children n.data (n.priority - 1)] =
      handlersMS (Node.mk (n.name.drop i) n.wildChild NType.static
        (n.children.foldl (fun m c => max m c.maxParams) 0)
        n.indices n.children n.data (n.priority - 1)) + handlersMSL [] from rfl]
    rw [handlersMS_mk]
    rw [show handlersMSL ([] : List Node) = 0 from rfl]
    rw [handlersMS_node n]
    simp

  · rw [if_neg hi]

theorem arSplit_prioOK1 (n : Node) (name : Bytes) (i : Nat)
    (h : prioOK1 n = true) : prioOK1 (arSplit n name i) = true := by
  unfold arSplit
  by_cases hi : i < n.name.length
  · rw [if_pos hi]
    simp only []
    rw [prioOK1_iff] at h
    obtain ⟨h1, h2⟩ := h
    rw [prioOK1_iff]
    constructor
    · simp [sumPrio]
      omega
    · simp only [children_withWildChild, children_withData, children_withName,
        children_withIndices, children_withChildren]
      rw [show prioAll [Node.mk (n.name.drop i) n.wildChild NType.static
          (n.children.foldl (fun m c => max m c.maxParams) 0)
          n.indices n.children n.data (n.priority - 1)] =
        (prioOK (Node.mk (n.name.drop i) n.wildChild NType.static
          (n.children.foldl (fun m c => max m c.maxParams) 0)
          n.indices n.children n.data (n.priority - 1)) && prioAll []) from rfl]
      rw [show prioAll ([] : List Node) = true from rfl]
      rw [Bool.and_true]
      rw [prioOK_iff]
      refine ⟨?_, ?_⟩
      · simp
        omega
      · simpa using h2
  · rw [if_neg hi]
    rw [prioOK1_iff] at h ⊢
    exact h

theorem prioOK_withChildren_of (n : Node) (l : List Node)
    (hs : sumPrio l = sumPrio n.children + 1)
    (hp : n.priority = handlersCount n.data + sumPrio n.children + 1)
    (ha : prioAll l = true) :
    prioOK (n.withChildren l) = true := by
  rw [prioOK_iff]
  simp only [priority_withChildren, data_withChildren, children_withChildren]
  exact ⟨by omega, ha⟩

theorem handlersMS_withChildren_of (n : Node) (l : List Node)
    (hl : handlersMSL l = handlersMSL n.children) :
    handlersMS (n.withChildren l) = handlersMS n := by
  rw [handlersMS_node n]
  rw [show handlersMS (n.withChildren l) =
    dataMS (n.withChildren l).data + handlersMSL (n.withChildren l).children from
    handlersMS_node _]
  simp only [data_withChildren, children_withChildren, hl]

theorem handlersMSL_cancel {l1 l2 : List Node} {a b : Node}
    (hex : (↑l1 : Multiset Node) + {a} = (↑l2 : Multiset Node) + {b})
    (hab : handlersMS a = handlersMS b) :
    handlersMSL l1 = handlersMSL l2 := by
  have h := handlersMSL_of_ms_exchange hex
  rw [hab] at h
  exact add_right_cancel h

theorem insertChild_eq (n : Node) (np : Nat) (nm fn : Bytes) (th : TypeHandler) :
    insertChild n np nm fn th = icGo nm fn th n np 0 0 := rfl

theorem arStepMain_spec (fullName : Bytes) (allowDup : Bool) (th : TypeHandler)
    (rec : Node → Bytes → Nat → Node × Option AddErr)
    (hrec : ∀ m nm np,
      (rec m nm np).1.priority = m.priority ∧
      (prioOK1 m = true → (rec m nm np).2 = Option.none →
        prioOK (rec m nm np).1 = true) ∧
      ((rec m nm np).2 ≠ Option.none →
        handlersMS (rec m nm np).1 = handlersMS m))
    (n : Node) (name : Bytes) (numParams i : Nat) :
    (arStepMain fullName allowDup th rec n name numParams i).1.priority = n.priority ∧
    (prioOK1 n = true →
      (arStepMain fullName allowDup th rec n name numParams i).2 = Option.none →
      prioOK (arStepMain fullName allowDup th rec n name numParams i).1 = true) ∧
    ((arStepMain fullName allowDup th rec n name numParams i).2 ≠ Option.none →
      handlersMS (arStepMain fullName allowDup th rec n name numParams i).1 =
        handlersMS n) := by
  unfold arStepMain
  by_cases h1 : i < name.length
  · rw [if_pos h1]
    simp only []
    by_cases hw : n.wildChild = WildChild.named
    · rw [if_pos hw]
      cases hg0 : n.children.get? 0 with
      | none =>
        exact ⟨rfl, fun _ hk => absurd hk (by simp), fun _ => rfl⟩
      | some c0 =>
        simp only []
        set c2 := if (c0.withPriority (c0.priority + 1)).maxParams < numParams then
            (c0.withPriority (c0.priority + 1)).withMaxParams numParams
          else c0.withPriority (c0.priority + 1) with hc2
        have hc2p : c2.priority = c0.priority + 1 := by
          rw [hc2]
          by_cases hmp : c0.maxParams < numParams <;>
            simp [hmp]
        have hc2ms : handlersMS c2 = handlersMS c0 := by
          rw [hc2]
          by_cases hmp : c0.maxParams < numParams <;>
            simp [hmp]
        have hc2ok : prioOK c0 = true → prioOK1 c2 = true := by
          intro hok
          rw [hc2]
          by_cases hmp : c0.maxParams < numParams <;>
            simp [hmp, prioOK1_withPriority_bump, hok]
        by_cases hcond : c2.name.length ≤ (name.drop i).length ∧
            (name.drop i).take c2.name.length = c2.name ∧
            ((name.drop i).length ≤ c2.name.length ∨
              (name.drop i).getD c2.name.length 0 = dotB)
        · rw [if_pos hcond]
          simp only []
          obtain ⟨hrA, hrB, hrC⟩ := hrec c2 (name.drop i) (numParams - 1)
          refine ⟨by simp, ?_, ?_⟩
          · intro hok1 hok2
            try simp only [] at hok2
            rw [prioOK1_iff] at hok1
            obtain ⟨ha, hb⟩ := hok1
            have hok0 : prioOK c0 = true :=
              (prioAll_iff n.children).mp hb c0 (List.get?_mem hg0)
            have hrOK := hrB (hc2ok hok0) hok2
            have hsum := sumPrio_set n.children 0 c0
              (rec c2 (name.drop i) (numParams - 1)).1 hg0
            rw [hrA, hc2p] at hsum
            refine prioOK_withChildren_of n _ (by omega) ha ?_
            rw [prioAll_iff]
            intro y hy
            rcases List.mem_or_eq_of_mem_set hy with hy' | hy'
            · exact (prioAll_iff n.children).mp hb y hy'
            · subst hy'; exact hrOK
          · intro hbad
            try simp only [] at hbad
            have hms := hrC hbad
            rw [hc2ms] at hms
            refine handlersMS_withChildren_of n _ ?_
            exact handlersMSL_cancel
              (set_ms n.children 0 c0 (rec c2 (name.drop i) (numParams - 1)).1 hg0)
              (by rw [hms])
        · rw [if_neg hcond]
          refine ⟨by simp, fun _ hk => absurd hk (by simp), ?_⟩
          intro _
          refine handlersMS_withChildren_of n _ ?_
          exact handlersMSL_cancel (set_ms n.children 0 c0 c2 hg0) hc2ms.symm
    · rw [if_neg hw]
      by_cases hpar : n.nType = NType.param ∧ (name.drop i).getD 0 0 = dotB ∧
          n.children.length = 1
      · rw [if_pos hpar]
        cases hg0 : n.children.get? 0 with
        | none => exact ⟨rfl, fun _ hk => absurd hk (by simp), fun _ => rfl⟩
        | some c0 =>
          simp only []
          obtain ⟨hrA, hrB, hrC⟩ := hrec (c0.withPriority (c0.priority + 1))
            (name.drop i) numParams
          refine ⟨by simp, ?_, ?_⟩
          · intro hok1 hok2
            try simp only [] at hok2
            rw [prioOK1_iff] at hok1
            obtain ⟨ha, hb⟩ := hok1
            have hok0 : prioOK c0 = true :=
              (prioAll_iff n.children).mp hb c0 (List.get?_mem hg0)
            have hrOK := hrB (by rw [prioOK1_withPriority_bump]; exact hok0) hok2
            have hsum := sumPrio_set n.children 0 c0
              (rec (c0.withPriority (c0.priority + 1)) (name.drop i) numParams).1 hg0
            rw [hrA] at hsum
            simp only [priority_withPriority] at hsum
            refine prioOK_withChildren_of n _ (by omega) ha ?_
            rw [prioAll_iff]
            intro y hy
            rcases List.mem_or_eq_of_mem_set hy with hy' | hy'
            · exact (prioAll_iff n.children).mp hb y hy'
            · subst hy'; exact hrOK
          · intro hbad
            try simp only [] at hbad
            have hms := hrC hbad
            rw [handlersMS_withPriority] at hms
            refine handlersMS_withChildren_of n _ ?_
            exact handlersMSL_cancel
              (set_ms n.children 0 c0
                (rec (c0.withPriority (c0.priority + 1)) (name.drop i) numParams).1 hg0)
              (by rw [hms])
      · rw [if_neg hpar]
        cases hfi : findIdxByte n.indices ((name.drop i).getD 0 0) with
        | some ipos =>
          simp only []
          cases hicp : incrementChildPrio n ipos with
          | none => exact ⟨rfl, fun _ hk => absurd hk (by simp), fun _ => rfl⟩
          | some res =>
            obtain ⟨n2, j⟩ := res
            simp only []
            obtain ⟨c', hgc', hgj, hex, hn2p, hn2d, hn2n, hn2w, hn2t, hn2m⟩ :=
              incrementChildPrio_spec n ipos n2 j hicp
            cases hgj2 : n2.children.get? j with
            | none =>
              have hmseq : handlersMS n2 = handlersMS n := by
                have hl := handlersMSL_cancel hex (by simp)
                rw [handlersMS_node n2, handlersMS_node n, hn2d, hl]
              exact ⟨hn2p, fun _ hk => absurd hk (by simp), fun _ => hmseq⟩
            | some cj =>
              simp only []
              have hcj : cj = c'.withPriority (c'.priority + 1) := by
                have hh := hgj2.symm.trans hgj
                injection hh
              rw [← hcj] at hex hgj
              have hcjp : cj.priority = c'.priority + 1 := by rw [hcj]; simp
              have hcjms : handlersMS cj = handlersMS c' := by rw [hcj]; simp
              obtain ⟨hrA, hrB, hrC⟩ := hrec cj (name.drop i) numParams
              refine ⟨by simp [hn2p], ?_, ?_⟩
              · intro hok1 hok2
                try simp only [] at hok2
                rw [prioOK1_iff] at hok1
                obtain ⟨ha, hb⟩ := hok1
                have hokc' : prioOK c' = true :=
                  (prioAll_iff n.children).mp hb c' (List.get?_mem hgc')
                have hcjok : prioOK1 cj = true := by
                  rw [hcj, prioOK1_withPriority_bump]; exact hokc'
                have hrOK := hrB hcjok hok2
                have hs2 := sumPrio_of_ms_exchange hex
                have hsset := sumPrio_set n2.children j cj
                  (rec cj (name.drop i) numParams).1 hgj2
                rw [hrA] at hsset
                rw [prioOK_iff]
                simp only [priority_withChildren, data_withChildren,
                  children_withChildren, hn2p, hn2d]
                constructor
                · omega
                · rw [prioAll_iff]
                  intro y hy
                  have h2 := set_ms n2.children j cj
                    (rec cj (name.drop i) numParams).1 hgj2
                  rcases mem_of_exchange₂ hex h2
                    (by rw [hcj]; exact bump_ne c') hy with hy' | hy'
                  · exact (prioAll_iff n.children).mp hb y hy'
                  · subst hy'; exact hrOK
              · intro hbad
                try simp only [] at hbad
                have hms := hrC hbad
                have hl2 : handlersMSL
                    (n2.children.set j (rec cj (name.drop i) numParams).1) =
                    handlersMSL n2.children :=
                  handlersMSL_cancel
                    (set_ms n2.children j cj (rec cj (name.drop i) numParams).1 hgj2)
                    (by rw [hms])
                have hl1 : handlersMSL n2.children = handlersMSL n.children :=
                  handlersMSL_cancel hex hcjms.symm
                refine (handlersMS_withChildren_of n2 _ hl2).trans ?_
                rw [handlersMS_node n2, handlersMS_node n, hn2d, hl1]
        | none =>
          simp only []
          by_cases hcs : (name.drop i).getD 0 0 ≠ colonB ∧ (name.drop i).getD 0 0 ≠ starB
          · rw [if_pos hcs]
            set N2 := (n.withIndices (n.indices ++ [(name.drop i).getD 0 0])).withChildren
              (n.children ++ [Node.empty.withMaxParams numParams]) with hN2
            have hN2p : N2.priority = n.priority := by rw [hN2]; simp
            have hN2d : N2.data = n.data := by rw [hN2]; simp
            have hN2c : N2.children = n.children ++ [Node.empty.withMaxParams numParams] := by
              rw [hN2]; simp
            have hN2ms : handlersMS N2 = handlersMS n := by
              rw [handlersMS_node N2, handlersMS_node n, hN2d, hN2c, handlersMSL_append]
              rw [show handlersMSL [Node.empty.withMaxParams numParams] = 0 from rfl]
              rw [add_zero]
            have hsum2 : sumPrio N2.children = sumPrio n.children := by
              rw [hN2c, sumPrio_append]
              rw [show sumPrio [Node.empty.withMaxParams numParams] = 0 from rfl]
              omega
            cases hicp : incrementChildPrio N2 (N2.indices.length - 1) with
            | none => exact ⟨hN2p, fun _ hk => absurd hk (by simp), fun _ => hN2ms⟩
            | some res =>
              obtain ⟨n3, j⟩ := res
              simp only []
              obtain ⟨c', hgc', hgj, hex, hn3p, hn3d, hn3n, hn3w, hn3t, hn3m⟩ :=
                incrementChildPrio_spec N2 (N2.indices.length - 1) n3 j hicp
              cases hgj2 : n3.children.get? j with
              | none =>
                have hmseq : handlersMS n3 = handlersMS n := by
                  have hl := handlersMSL_cancel hex (by simp)
                  rw [handlersMS_node n3, hn3d, hl, ← handlersMS_node N2]
                  exact hN2ms
                exact ⟨by rw [hn3p, hN2p], fun _ hk => absurd hk (by simp), fun _ => hmseq⟩
              | some cj =>
                simp only []
                rw [insertChild_eq]
                have hcj : cj = c'.withPriority (c'.priority + 1) := by
                  have hh := hgj2.symm.trans hgj
                  injection hh
                rw [← hcj] at hex hgj
                have hcjp : cj.priority = c'.priority + 1 := by rw [hcj]; simp
                have hcjms : handlersMS cj = handlersMS c' := by rw [hcj]; simp
                obtain ⟨hrA, hrB, hrC⟩ :=
                  icGo_spec (name.drop i) fullName th numParams cj 0 0
                refine ⟨by simp [hn3p, hN2p], ?_, ?_⟩
                · intro hok1 hok2
                  try simp only [] at hok2
                  rw [prioOK1_iff] at hok1
                  obtain ⟨ha, hb⟩ := hok1
                  have hmem : c' ∈ N2.children := List.get?_mem hgc'
                  rw [hN2c] at hmem
                  have hokc' : prioOK c' = true := by
                    rcases List.mem_append.mp hmem with hm | hm
                    · exact (prioAll_iff n.children).mp hb c' hm
                    · have hce : c' = Node.empty.withMaxParams numParams := by
                        simpa using hm
                      rw [hce]; rfl
                  have hcjok : prioOK1 cj = true := by
                    rw [hcj, prioOK1_withPriority_bump]; exact hokc'
                  have hrOK := hrB hcjok hok2
                  have hs2 := sumPrio_of_ms_exchange hex
                  have hsset := sumPrio_set n3.children j cj
                    (icGo (name.drop i) fullName th cj numParams 0 0).1 hgj2
                  rw [hrA] at hsset
                  rw [prioOK_iff]
                  simp only [priority_withChildren, data_withChildren,
                    children_withChildren, hn3p, hN2p, hn3d, hN2d]
                  constructor
                  · omega
                  · rw [prioAll_iff]
                    intro y hy
                    have h2 := set_ms n3.children j cj
                      (icGo (name.drop i) fullName th cj numParams 0 0).1 hgj2
                    rcases mem_of_exchange₂ hex h2
                      (by rw [hcj]; exact bump_ne c') hy with hy' | hy'
                    · rw [hN2c] at hy'
                      rcases List.mem_append.mp hy' with hm | hm
                      · exact (prioAll_iff n.children).mp hb y hm
                      · have hce : y = Node.empty.withMaxParams numParams := by
                          simpa using hm
                        rw [hce]; rfl
                    · subst hy'; exact hrOK
                · intro hbad
                  try simp only [] at hbad
                  have hms := hrC hbad
                  rw [hcjms] at hms
                  have hl2 : handlersMSL
                      (n3.children.set j (icGo (name.drop i) fullName th cj numParams 0 0).1) =
                      handlersMSL n3.children :=
                    handlersMSL_cancel
                      (set_ms n3.children j cj
                        (icGo (name.drop i) fullName th cj numParams 0 0).1 hgj2)
                      (by rw [hms, hcjms])
                  have hl1 : handlersMSL n3.children = handlersMSL N2.children :=
                    handlersMSL_cancel hex hcjms.symm
                  refine (handlersMS_withChildren_of n3 _ hl2).trans ?_
                  rw [handlersMS_node n3, hn3d, hl1, ← handlersMS_node N2]
                  exact hN2ms
          · rw [if_neg hcs]
            by_cases hanon : n.wildChild = WildChild.anonymous
            · rw [if_pos hanon]
              by_cases hdup : (!allowDup) = true
              · rw [if_pos hdup]
                exact ⟨rfl, fun _ hk => absurd hk (by simp), fun _ => rfl⟩
              · rw [if_neg hdup]
                cases hg0 : n.children.get? 0 with
                | none => exact ⟨rfl, fun _ hk => absurd hk (by simp), fun _ => rfl⟩
                | some c0 =>
                  simp only []
                  cases hd0 : c0.data with
                  | none => exact ⟨rfl, fun _ hk => absurd hk (by simp), fun _ => rfl⟩
                  | some d =>
                    simp only []
                    refine ⟨by simp, ?_, ?_⟩
                    · intro hok1 _
                      rw [prioOK1_iff] at hok1
                      obtain ⟨ha, hb⟩ := hok1
                      have hok0 : prioOK c0 = true :=
                        (prioAll_iff n.children).mp hb c0 (List.get?_mem hg0)
                      have hsum := sumPrio_set n.children 0 c0
                        ((c0.withData (some (addHandler d th))).withPriority
                          (c0.priority + 1)) hg0
                      simp only [priority_withPriority] at hsum
                      refine prioOK_withChildren_of n _ (by omega) ha ?_
                      rw [prioAll_iff]
                      intro y hy
                      rcases List.mem_or_eq_of_mem_set hy with hy' | hy'
                      · exact (prioAll_iff n.children).mp hb y hy'
                      · subst hy'
                        rw [prioOK_iff] at hok0 ⊢
                        simp only [priority_withPriority, data_withPriority,
                          data_withData, children_withPriority, children_withData]
                        obtain ⟨ho1, ho2⟩ := hok0
                        rw [hd0] at ho1
                        refine ⟨?_, ho2⟩
                        rw [show handlersCount (some (addHandler d th)) =
                          d.handler.length + 1 from by
                            simp [handlersCount, addHandler_length]]
                        simp only [handlersCount_someD] at ho1
                        omega
                    · intro hbad
                      exact absurd rfl hbad
            · rw [if_neg hanon]
              rw [insertChild_eq]
              exact icGo_spec (name.drop i) fullName th numParams n 0 0
  · rw [if_neg h1]
    by_cases hd : n.data.isSome = true ∧ (!allowDup) = true
    · rw [if_pos hd]
      exact ⟨rfl, fun _ hk => absurd hk (by simp), fun _ => rfl⟩
    · rw [if_neg hd]
      simp only []
      refine ⟨by simp, ?_, fun hbad => absurd rfl hbad⟩
      intro hok1 _
      have hres := prioOK_withData_add n th hok1
      simpa using hres

theorem arStep_spec (fullName : Bytes) (allowDup : Bool) (th : TypeHandler)
    (rec : Node → Bytes → Nat → Node × Option AddErr)
    (hrec : ∀ m nm np,
      (rec m nm np).1.priority = m.priority ∧
      (prioOK1 m = true → (rec m nm np).2 = Option.none →
        prioOK (rec m nm np).1 = true) ∧
      ((rec m nm np).2 ≠ Option.none →
        handlersMS (rec m nm np).1 = handlersMS m))
    (n0 : Node) (name : Bytes) (numParams : Nat) :
    (arStep fullName allowDup th rec n0 name numParams).1.priority = n0.priority ∧
    (prioOK1 n0 = true →
      (arStep fullName allowDup th rec n0 name numParams).2 = Option.none →
      prioOK (arStep fullName allowDup th rec n0 name numParams).1 = true) ∧
    ((arStep fullName allowDup th rec n0 name numParams).2 ≠ Option.none →
      handlersMS (arStep fullName allowDup th rec n0 name numParams).1 =
        handlersMS n0) := by
  unfold arStep
  simp only []
  set M := if n0.maxParams < numParams then n0.withMaxParams numParams else n0 with hM
  have hMp : M.priority = n0.priority := by
    rw [hM]; by_cases hmp : n0.maxParams < numParams <;> simp [hmp]
  have hMms : handlersMS M = handlersMS n0 := by
    rw [hM]; by_cases hmp : n0.maxParams < numParams <;> simp [hmp]
  have hMok : prioOK1 n0 = true → prioOK1 M = true := by
    intro hk; rw [hM]; by_cases hmp : n0.maxParams < numParams <;> simp [hmp, hk]
  obtain ⟨hA, hB, hC⟩ := arStepMain_spec fullName allowDup th rec hrec
    (arSplit M name (commonPrefixLen name M.name)) name numParams
    (commonPrefixLen name M.name)
  refine ⟨?_, ?_, ?_⟩
  · rw [hA, arSplit_priority, hMp]
  · intro hk1 hk2
    exact hB (arSplit_prioOK1 _ _ _ (hMok hk1)) hk2
  · intro hbad
    rw [hC hbad, arSplit_handlersMS, hMms]

theorem arWalk_spec (fullName : Bytes) (allowDup : Bool) (th : TypeHandler) :
    ∀ fuel n name numParams,
      (arWalk fullName allowDup th fuel n name numParams).1.priority = n.priority ∧
      (prioOK1 n = true →
        (arWalk fullName allowDup th fuel n name numParams).2 = Option.none →
        prioOK (arWalk fullName allowDup th fuel n name numParams).1 = true) ∧
      ((arWalk fullName allowDup th fuel n name numParams).2 ≠ Option.none →
        handlersMS (arWalk fullName allowDup th fuel n name numParams).1 =
          handlersMS n) := by
  intro fuel
  induction fuel with
  | zero =>
    intro n name np
    exact ⟨rfl, fun _ hk => Option.noConfusion hk, fun _ => rfl⟩
  | succ k ih =>
    intro n name np
    exact arStep_spec fullName allowDup th (arWalk fullName allowDup th k) ih n name np

theorem addRoute_spec (fuel : Nat) (t : Node) (name : Bytes) (allowDup : Bool)
    (th : TypeHandler) :
    (prioOK t = true → (addRoute fuel t name allowDup th).2 = Option.none →
      prioOK (addRoute fuel t name allowDup th).1 = true) ∧
    ((addRoute fuel t name allowDup th).2 ≠ Option.none →
      handlersMS (addRoute fuel t name allowDup th).1 = handlersMS t) := by
  unfold addRoute
  simp only []
  rw [insertChild_eq]
  by_cases hne : 0 < (t.withPriority (t.priority + 1)).name.length ∨
      0 < (t.withPriority (t.priority + 1)).children.length
  · rw [if_pos hne]
    obtain ⟨hA, hB, hC⟩ := arWalk_spec name allowDup th fuel
      (t.withPriority (t.priority + 1)) name (countParams name)
    constructor
    · intro hok herr
      exact hB (by rw [prioOK1_withPriority_bump]; exact hok) herr
    · intro hbad
      rw [hC hbad]
      simp
  · rw [if_neg hne]
    obtain ⟨hA, hB, hC⟩ := icGo_spec name name th (countParams name)
      (t.withPriority (t.priority + 1)) 0 0
    by_cases hr : (icGo name name th (t.withPriority (t.priority + 1))
        (countParams name) 0 0).2.isNone = true
    · rw [if_pos hr]
      constructor
      · intro hok _
        have hok1 := hB (by rw [prioOK1_withPriority_bump]; exact hok)
          (Option.isNone_iff_eq_none.mp hr)
        simpa using hok1
      · intro hbad
        exact absurd rfl hbad
    · rw [if_neg hr]
      constructor
      · intro hok herr
        exact hB (by rw [prioOK1_withPriority_bump]; exact hok) herr
      · intro hbad
        rw [hC hbad]
        simp

/-- C7 counterexample: two successful registrations of the same name `.doc`
(duplicates allowed) leave the node with two handlers and priority 2, so the
spec's formula `priority = (1 if data ≠ nil else 0) + Σ children` fails even
though both calls returned without error; the handler-counting form of the
invariant does hold on the same tree. -/
theorem addRoute_priority_spec_formula_cex :
    (addRoute 50 Node.empty (strB ".doc") true ⟨[], 1, 0, 1, Option.none⟩).2
      = Option.none ∧
    (addRoute 50 (addRoute 50 Node.empty (strB ".doc") true
        ⟨[], 1, 0, 1, Option.none⟩).1 (strB ".doc") true
        ⟨[], 2, 0, 2, Option.none⟩).2 = Option.none ∧
    prioOKSpecB (addRoute 50 (addRoute 50 Node.empty (strB ".doc") true
        ⟨[], 1, 0, 1, Option.none⟩).1 (strB ".doc") true
        ⟨[], 2, 0, 2, Option.none⟩).1 = false ∧
    prioOK (addRoute 50 (addRoute 50 Node.empty (strB ".doc") true
        ⟨[], 1, 0, 1, Option.none⟩).1 (strB ".doc") true
        ⟨[], 2, 0, 2, Option.none⟩).1 = true := by
  decide

/-- **C7** (corrected): the per-registration unit is the number of stored
handlers, not `1` when `data ≠ nil`: the empty tree satisfies
`priority = #handlers + Σ children.priority` at every node, and every
successful `addRoute` preserves this invariant. -/
theorem addRoute_priority_invariant :
    prioOK Node.empty = true ∧
    ∀ fuel t name allowDup th,
      prioOK t = true →
      (addRoute fuel t name allowDup th).2 = Option.none →
      prioOK (addRoute fuel t name allowDup th).1 = true := by
  refine ⟨rfl, ?_⟩
  intro fuel t name allowDup th hok herr
  exact (addRoute_spec fuel t name allowDup th).1 hok herr

theorem addRoute_priority_invariant_witness :
    prioOK Node.empty = true ∧
    (addRoute 50 Node.empty (strB ".doc") true ⟨[], 1, 0, 1, Option.none⟩).2
      = Option.none ∧
    prioOK (addRoute 50 Node.empty (strB ".doc") true
      ⟨[], 1, 0, 1, Option.none⟩).1 = true :=
  ⟨by decide, by decide,
    addRoute_priority_invariant.2 50 Node.empty (strB ".doc") true
      ⟨[], 1, 0, 1, Option.none⟩ (by decide) (by decide)⟩

/-- C8 counterexample: registering `.cmd.x` into a tree that holds the
wildcard route `.cmd.:tool` fails with a registration panic, yet the failed
call has already mutated the tree in place: the root priority changes from 1
to 2, so the tree after the failure is not observably identical. -/
theorem addRoute_failure_mutates_cex :
    (addRoute 50 (addRoute 50 Node.empty (strB ".cmd.:tool") true
        ⟨[], 1, 0, 1, Option.none⟩).1 (strB ".cmd.x") true
        ⟨[], 1, 0, 1, Option.none⟩).2 ≠ Option.none ∧
    (addRoute 50 Node.empty (strB ".cmd.:tool") true
        ⟨[], 1, 0, 1, Option.none⟩).1.priority = 1 ∧
    (addRoute 50 (addRoute 50 Node.empty (strB ".cmd.:tool") true
        ⟨[], 1, 0, 1, Option.none⟩).1 (strB ".cmd.x") true
        ⟨[], 1, 0, 1, Option.none⟩).1.priority = 2 := by
  decide

/-- **C8** (corrected): a failed `addRoute` is not atomic — priority and
`maxParams` mutations made before the panic persist (see the counterexample)
— but it does preserve the multiset of stored handlers of the whole tree: the
route being registered never lands. -/
theorem addRoute_failure_preserves_handlers :
    ∀ fuel t name allowDup th,
      (addRoute fuel t name allowDup th).2 ≠ Option.none →
      handlersMS (addRoute fuel t name allowDup th).1 = handlersMS t := by
  intro fuel t name allowDup th hbad
  exact (addRoute_spec fuel t name allowDup th).2 hbad

theorem addRoute_failure_preserves_handlers_witness :
    (addRoute 50 (addRoute 50 Node.empty (strB ".cmd.:tool") true
        ⟨[], 1, 0, 1, Option.none⟩).1 (strB ".cmd.x") true
        ⟨[], 1, 0, 1, Option.none⟩).2 ≠ Option.none ∧
    handlersMS (addRoute 50 (addRoute 50 Node.empty (strB ".cmd.:tool") true
        ⟨[], 1, 0, 1, Option.none⟩).1 (strB ".cmd.x") true
        ⟨[], 1, 0, 1, Option.none⟩).1 =
      handlersMS (addRoute 50 Node.empty (strB ".cmd.:tool") true
        ⟨[], 1, 0, 1, Option.none⟩).1 :=
  ⟨by decide,
    addRoute_failure_preserves_handlers 50
      (addRoute 50 Node.empty (strB ".cmd.:tool") true
        ⟨[], 1, 0, 1, Option.none⟩).1 (strB ".cmd.x") true
      ⟨[], 1, 0, 1, Option.none⟩ (by decide)⟩

/-- **C10.** `NextSecure` is NSEC-only: for every class state and any qtype
other than NSEC (NSEC3 included) it returns nil, and it returns a non-nil
class only when the qtype is NSEC and `value.previous()` returned a node
that carries data — whose handler table then becomes the class handler. -/
theorem nextSecure_nsec_only (fuel : Nat) (c : BasicClass) (qtype : Nat) :
    (qtype ≠ typeNSEC → nextSecure fuel c qtype = some Option.none) ∧
    (∀ c', nextSecure fuel c qtype = some (some c') →
      qtype = typeNSEC ∧ ∃ nd dd, vPrevious fuel c.value = some (some nd) ∧
        nd.data = some dd ∧ c'.handler = some dd.handler) := by
  constructor
  · intro hne
    unfold nextSecure
    rw [if_neg hne]
  · intro c' h
    unfold nextSecure at h
    by_cases hq : qtype = typeNSEC
    · rw [if_pos hq] at h
      refine ⟨hq, ?_⟩
      cases hv : vPrevious fuel c.value with
      | none => rw [hv] at h; exact absurd h (by simp)
      | some r =>
        rw [hv] at h
        cases r with
        | none => simp at h
        | some nd =>
          simp only [] at h
          cases hd : nd.data with
          | none => rw [hd] at h; simp at h
          | some dd =>
            rw [hd] at h
            simp only [] at h
            simp only [Option.some.injEq] at h
            refine ⟨nd, dd, rfl, hd, ?_⟩
            rw [← h]
    · rw [if_neg hq] at h
      simp at h

theorem nextSecure_nsec_only_witness :
    nextSecure 5 ⟨⟨Node.empty, Option.none, Option.none, [], []⟩,
      Option.none, [], 0⟩ typeNSEC3 = some Option.none ∧
    (typeNSEC = typeNSEC ∧ ∃ nd dd,
      vPrevious 5 (⟨Node.mk (strB ".x") WildChild.none NType.root 0 [] []
          (some ⟨[], ⟨true, false, false⟩⟩) 1, some [], Option.none, [],
          []⟩ : PrevV) = some (some nd) ∧
      nd.data = some dd ∧
      (⟨⟨Node.mk (strB ".x") WildChild.none NType.root 0 [] []
          (some ⟨[], ⟨true, false, false⟩⟩) 1, some [], Option.none, [], []⟩,
        some [], [], searchAnyMode⟩ : BasicClass).handler = some dd.handler) :=
  ⟨(nextSecure_nsec_only 5 ⟨⟨Node.empty, Option.none, Option.none, [], []⟩,
      Option.none, [], 0⟩ typeNSEC3).1 (by decide),
    (nextSecure_nsec_only 5 ⟨⟨Node.mk (strB ".x") WildChild.none NType.root 0
        [] [] (some ⟨[], ⟨true, false, false⟩⟩) 1, some [], Option.none, [],
        []⟩, Option.none, [], 0⟩ typeNSEC).2
      ⟨⟨Node.mk (strB ".x") WildChild.none NType.root 0 [] []
          (some ⟨[], ⟨true, false, false⟩⟩) 1, some [], Option.none, [], []⟩,
        some [], [], searchAnyMode⟩ rfl⟩

theorem lookupWFL_iff (l : List Node) :
    lookupWFL l = true ↔ ∀ x ∈ l, lookupWF x = true := by
  induction l with
  | nil => simp [lookupWFL]
  | cons c cs ih =>
    rw [lookupWFL, Bool.and_eq_true, ih]
    constructor
    · rintro ⟨h1, h2⟩ x hx
      rcases List.mem_cons.mp hx with rfl | hm
      · exact h1
      · exact h2 x hm
    · intro h
      exact ⟨h c (List.mem_cons_self c cs), fun x hx => h x (List.mem_cons_of_mem c hx)⟩

theorem lookupWF_parts (n : Node) (h : lookupWF n = true) :
    n.children.length = n.indices.length + wcOff n ∧
    n.indices.Nodup ∧
    (n.wildChild = WildChild.named → n.indices = []) ∧
    dataDname n.data = false ∧
    (∀ c ∈ n.children, lookupWF c = true) := by
  cases n with
  | mk a wc t mp idx cs d pr =>
    rw [lookupWF] at h
    simp only [Bool.and_eq_true, beq_iff_eq, decide_eq_true_eq, Bool.or_eq_true,
      Bool.not_eq_true'] at h
    obtain ⟨⟨⟨⟨h1, h2⟩, h3⟩, h4⟩, h5⟩ := h
    refine ⟨?_, h2, ?_, h4, ?_⟩
    · show cs.length = idx.length + wcOff (Node.mk a wc t mp idx cs d pr)
      unfold wcOff
      simpa using h1
    · intro hw
      rcases h3 with h3 | h3
      · exact absurd hw h3
      · show idx = []
        exact List.isEmpty_iff.mp h3
    · intro c hc
      exact (lookupWFL_iff cs).mp h5 c hc

theorem findIdxByte_nodup (l : Bytes) (c : Nat) :
    ∀ k, l.Nodup → l.get? k = some c → findIdxByte l c = some k := by
  induction l with
  | nil => intro k _ hk; simp at hk
  | cons a rest ih =>
    intro k hnd hk
    rw [List.nodup_cons] at hnd
    unfold findIdxByte
    rw [List.findIdx?_cons]
    cases k with
    | zero =>
      simp only [List.get?] at hk
      injection hk with hk
      subst hk
      rw [if_pos (by simp)]
    | succ k' =>
      simp only [List.get?] at hk
      have hcr : c ∈ rest := List.get?_mem hk
      have hac : (a == c) = false := by
        simp only [beq_eq_false_iff_ne, ne_eq]
        intro he
        exact hnd.1 (he ▸ hcr)
      rw [hac]
      rw [if_neg (by simp)]
      rw [List.findIdx?_succ]
      have := ih k' hnd.2 hk
      unfold findIdxByte at this
      rw [this]
      rfl

theorem exactStatic_nType {n : Node} {name : Bytes} {m : Node}
    (h : ExactStaticM n name m) :
    m.nType = NType.static ∨ m.nType = NType.root := by
  induction h with
  | here _ _ ht => exact ht
  | deeper _ _ _ _ _ _ _ _ _ _ _ _ ih => exact ih

theorem gvWalk_exact_static :
    ∀ fuel name (n m : Node), lookupWF n = true → ExactStaticM n name m →
      2 * name.length + (if n.name.length = 0 then 1 else 0) < fuel →
      ∀ p fb nearest zones endv,
        ∃ o, gvWalk fuel n name p fb false nearest zones endv = Except.ok o ∧
          o.vnode = some m ∧ o.vcut = false := by
  intro fuel
  induction fuel with
  | zero =>
    intro name n m _ _ hf
    omega
  | succ f ih =>
    intro name n m hwf hex hf p fb nearest zones endv
    rw [gvWalk_succ]
    cases hex with
    | here _ hd ht =>
      unfold gvStep
      rw [if_neg (fun hcc => absurd hcc.1 (by omega))]
      rw [if_pos rfl]
      exact ⟨_, rfl, by simp [hd], rfl⟩
    | deeper _ _ k c _ hlt hpre hidx hchild hcn hct hrest =>
      obtain ⟨hlen, hnd, hnamed, hdn, hch⟩ := lookupWF_parts n hwf
      unfold gvStep
      rw [if_pos ⟨hlt, hpre⟩]
      simp only []
      rw [if_neg (fun hcc => by rw [hdn] at hcc; exact Bool.noConfusion hcc.2)]
      have hwn : n.wildChild ≠ WildChild.named := by
        intro he
        rw [hnamed he] at hidx
        simp at hidx
      rw [if_pos ⟨hwn, by simp⟩]
      rw [show findIdxByte n.indices ((name.drop n.name.length).getD 0 0) = some k from
        findIdxByte_nodup _ _ _ hnd hidx]
      simp only []
      rw [show (if n.wildChild ≠ WildChild.none then k + 1 else k) = k + wcOff n by
        unfold wcOff
        by_cases hz : n.wildChild ≠ WildChild.none <;> simp [hz]]
      rw [hchild]
      simp only []
      have hwfc : lookupWF c = true := hch c (List.get?_mem hchild)
      have hcne : c.name.length ≠ 0 := fun h0 => hcn (List.eq_nil_of_length_eq_zero h0)
      have hfc : 2 * (name.drop n.name.length).length +
          (if c.name.length = 0 then 1 else 0) < f := by
        rw [List.length_drop]
        rw [if_neg hcne]
        by_cases hz : n.name.length = 0
        · rw [if_pos hz] at hf
          omega
        · rw [if_neg hz] at hf
          omega
      exact ih (name.drop n.name.length) c m hwfc hrest hfc _ _ _ _ _

theorem gvFinish_fields (o : GvOut) :
    ∃ v, gvFinish o = Except.ok v ∧ v.node = o.vnode ∧
      (o.vnode.isSome = true → v.cut = o.vcut) := by
  refine ⟨_, rfl, rfl, ?_⟩
  intro hs
  show (if o.vnode.isNone then _ else o.vcut) = o.vcut
  rw [if_neg fun hno => by
    rw [Option.isNone_iff_eq_none] at hno
    rw [hno] at hs
    exact Bool.noConfusion hs]

/-- **C2** (amended): on a well-formed DNAME-free tree, an exact static
terminal match is always what `getValue` returns (with `cut = false`); in
particular an anonymous catch-all node — only ever reachable through the
fallback — is never returned when such an exact static match exists. -/
theorem getValue_static_exact (fuel : Nat) (t : Node) (name : Bytes) (m : Node)
    (hwf : lookupWF t = true) (hex : ExactStaticM t name m)
    (hfuel : 2 * name.length + 1 < fuel) :
    ∃ v, getValue fuel t name = Except.ok v ∧ v.node = some m ∧ v.cut = false ∧
      m.nType ≠ NType.anonymousCatchAll := by
  obtain ⟨o, ho, hv, hc⟩ := gvWalk_exact_static fuel name t m hwf hex
    (by by_cases hz : t.name.length = 0 <;> simp [hz] <;> omega)
    [] Option.none ⟨name, some t, []⟩ [] 0
  unfold getValue
  rw [ho]
  obtain ⟨v, hfin, hvn, hvc⟩ := gvFinish_fields o
  refine ⟨v, hfin, by rw [hvn, hv], ?_, ?_⟩
  · rw [hvc (by rw [hv]; rfl), hc]
  · rcases exactStatic_nType hex with h | h <;> simp [h]

/-- C2 counterexample: `.cmd.sub` is registered as an exact static terminal,
yet the lookup of `.cmd.sub` returns the `.cmd` node — its DNAME payload cuts
the descent before the exact static match is reached. -/
theorem getValue_static_shadowed_by_dname_cex :
    (addRoute 50 Node.empty (strB ".cmd") true
      ⟨[], typeDNAME, 0, 1, Option.none⟩).2 = Option.none ∧
    (addRoute 50 (addRoute 50 Node.empty (strB ".cmd") true
        ⟨[], typeDNAME, 0, 1, Option.none⟩).1 (strB ".cmd.sub") true
        ⟨[], 1, 0, 2, Option.none⟩).2 = Option.none ∧
    ExactStaticM (addRoute 50 (addRoute 50 Node.empty (strB ".cmd") true
        ⟨[], typeDNAME, 0, 1, Option.none⟩).1 (strB ".cmd.sub") true
        ⟨[], 1, 0, 2, Option.none⟩).1 (strB ".cmd.sub")
      ((addRoute 50 (addRoute 50 Node.empty (strB ".cmd") true
        ⟨[], typeDNAME, 0, 1, Option.none⟩).1 (strB ".cmd.sub") true
        ⟨[], 1, 0, 2, Option.none⟩).1.children.getD 0 Node.empty) ∧
    ((getValue 50 (addRoute 50 (addRoute 50 Node.empty (strB ".cmd") true
        ⟨[], typeDNAME, 0, 1, Option.none⟩).1 (strB ".cmd.sub") true
        ⟨[], 1, 0, 2, Option.none⟩).1 (strB ".cmd.sub")).toOption.map fun v =>
      (v.node.map fun mm => mm.name, v.cut)) = some (some (strB ".cmd"), true) := by
  refine ⟨by decide, by decide, ?_, by decide⟩
  exact ExactStaticM.deeper _ _ 0 _ _ (by decide) (by decide) (by decide) rfl
    (by decide) (by decide) (ExactStaticM.here _ (by decide) (by decide))

theorem getValue_static_exact_witness :
    ∃ v, getValue 60 (addRoute 60 (addRoute 60 Node.empty
        (strB ".doc.go1.html") true ⟨[], 1, 0, 1, Option.none⟩).1
        (strB ".doc.*") true ⟨[], 1, 0, 2, Option.none⟩).1
      (strB ".doc.go1.html") = Except.ok v ∧
      v.node = some ((addRoute 60 (addRoute 60 Node.empty
        (strB ".doc.go1.html") true ⟨[], 1, 0, 1, Option.none⟩).1
        (strB ".doc.*") true ⟨[], 1, 0, 2, Option.none⟩).1.children.getD 1
        Node.empty) ∧ v.cut = false ∧
      ((addRoute 60 (addRoute 60 Node.empty
        (strB ".doc.go1.html") true ⟨[], 1, 0, 1, Option.none⟩).1
        (strB ".doc.*") true ⟨[], 1, 0, 2, Option.none⟩).1.children.getD 1
        Node.empty).nType ≠ NType.anonymousCatchAll :=
  getValue_static_exact 60 (addRoute 60 (addRoute 60 Node.empty
      (strB ".doc.go1.html") true ⟨[], 1, 0, 1, Option.none⟩).1
      (strB ".doc.*") true ⟨[], 1, 0, 2, Option.none⟩).1
    (strB ".doc.go1.html")
    ((addRoute 60 (addRoute 60 Node.empty
      (strB ".doc.go1.html") true ⟨[], 1, 0, 1, Option.none⟩).1
      (strB ".doc.*") true ⟨[], 1, 0, 2, Option.none⟩).1.children.getD 1
      Node.empty)
    (by decide)
    (ExactStaticM.deeper _ _ 0 _ _ (by decide) (by decide) (by decide) rfl
      (by decide) (by decide) (ExactStaticM.here _ (by decide) (by decide)))
    (by decide)

theorem size_node (n : Node) : size n = 1 + sizeL n.children := by
  cases n
  rw [size]
  rfl

theorem sizeL_mem_le (l : List Node) : ∀ c ∈ l, size c ≤ sizeL l := by
  induction l with
  | nil => intro c hc; simp at hc
  | cons a rest ih =>
    intro c hc
    rcases List.mem_cons.mp hc with rfl | hm
    · show size c ≤ size c + sizeL rest
      omega
    · have := ih c hm
      show size c ≤ size a + sizeL rest
      omega

theorem size_child_lt (n c : Node) (hc : c ∈ n.children) : size c < size n := by
  have h1 := sizeL_mem_le n.children c hc
  have h2 := size_node n
  omega

theorem wfPL_iff (l : List Node) :
    wfPL l = true ↔ ∀ x ∈ l, wfP x = true := by
  induction l with
  | nil => simp [wfPL]
  | cons c cs ih =>
    rw [wfPL, Bool.and_eq_true, ih]
    constructor
    · rintro ⟨h1, h2⟩ x hx
      rcases List.mem_cons.mp hx with rfl | hm
      · exact h1
      · exact h2 x hm
    · intro h
      exact ⟨h c (List.mem_cons_self c cs), fun x hx => h x (List.mem_cons_of_mem c hx)⟩

theorem wfP_parts (n : Node) (h : wfP n = true) :
    n.indices.length + wcOff n ≤ n.children.length ∧
    wfHead n.wildChild n.children = true ∧
    (∀ c ∈ n.children, wfP c = true) := by
  cases n with
  | mk a wc t mp idx cs d pr =>
    rw [wfP] at h
    simp only [Bool.and_eq_true, decide_eq_true_eq] at h
    obtain ⟨⟨h1, h2⟩, h3⟩ := h
    refine ⟨?_, h2, (wfPL_iff cs).mp h3⟩
    show idx.length + wcOff (Node.mk a wc t mp idx cs d pr) ≤ cs.length
    unfold wcOff
    simpa using h1

theorem wfP_node_iff (n : Node) : wfP n = true ↔
    (n.indices.length + wcOff n ≤ n.children.length ∧
     wfHead n.wildChild n.children = true ∧ wfPL n.children = true) := by
  cases n with
  | mk a wc t mp idx cs d pr =>
    rw [wfP]
    unfold wcOff
    simp [Bool.and_eq_true, and_assoc]

theorem wfHead_named {cs : List Node} (h : wfHead WildChild.named cs = true) :
    ∃ c0, cs.get? 0 = some c0 ∧
      ((c0.nType = NType.param ∧ 1 ≤ c0.name.length) ∨
       (c0.nType = NType.catchAll ∧ 2 ≤ c0.name.length)) := by
  unfold wfHead at h
  cases hg : cs.get? 0 with
  | none => rw [hg] at h; exact Bool.noConfusion h
  | some c0 =>
    rw [hg] at h
    simp only [Bool.or_eq_true, Bool.and_eq_true, beq_iff_eq,
      decide_eq_true_eq] at h
    exact ⟨c0, rfl, h⟩

theorem wfHead_anon {cs : List Node} (h : wfHead WildChild.anonymous cs = true) :
    ∃ c0, cs.get? 0 = some c0 ∧ c0.nType = NType.anonymousCatchAll := by
  unfold wfHead at h
  cases hg : cs.get? 0 with
  | none => rw [hg] at h; exact Bool.noConfusion h
  | some c0 =>
    rw [hg] at h
    simp only [beq_iff_eq] at h
    exact ⟨c0, rfl, h⟩

theorem findIdxByte_lt (l : Bytes) (c : Nat) :
    ∀ s k, l.findIdx? (· == c) s = some k → s ≤ k ∧ k - s < l.length := by
  induction l with
  | nil =>
    intro s k h
    rw [List.findIdx?] at h
    exact Option.noConfusion h
  | cons a rest ih =>
    intro s k h
    rw [List.findIdx?] at h
    by_cases ha : (a == c) = true
    · rw [ha] at h
      simp only [if_true] at h
      injection h with h
      subst h
      simp
    · rw [if_neg (by simp [ha])] at h
      obtain ⟨h1, h2⟩ := ih (s + 1) k h
      constructor
      · omega
      · simp only [List.length_cons]
        omega

theorem findIdxByte_bound (l : Bytes) (c i : Nat)
    (h : findIdxByte l c = some i) : i < l.length := by
  unfold findIdxByte at h
  have := findIdxByte_lt l c 0 i h
  omega

theorem get?_of_lt {α : Type} (l : List α) (j : Nat) (h : j < l.length) :
    ∃ x, l.get? j = some x := by
  cases hg : l.get? j with
  | none =>
    rw [List.get?_eq_none] at hg
    omega
  | some x => exact ⟨x, rfl⟩

theorem gvWalk_ok :
    ∀ fuel (n : Node) name p fb fallback nearest zones endv,
      wfP n = true →
      (∀ fn fname fp, fb = some (fn, fname, fp) →
        wfP fn = true ∧ fn.wildChild = WildChild.anonymous ∧
        fn.name.length < fname.length ∧ fname.take fn.name.length = fn.name) →
      (fallback = true →
        n.wildChild = WildChild.anonymous ∧
        n.name.length < name.length ∧ name.take n.name.length = n.name) →
      (if fallback then 1 else size n + 2) ≤ fuel →
      ∃ o, gvWalk fuel n name p fb fallback nearest zones endv = Except.ok o := by
  intro fuel
  induction fuel with
  | zero =>
    intro n name p fb fallback nearest zones endv _ _ _ hf
    cases fallback <;> simp at hf
  | succ f ih =>
    intro n name p fb fallback nearest zones endv hwf hfb hfall hf
    rw [gvWalk_succ]
    unfold gvStep
    obtain ⟨hq1, hhead, hch⟩ := wfP_parts n hwf
    cases hfallb : fallback with
    | true =>
      obtain ⟨hanon, hlt, hpre⟩ := hfall (by rw [hfallb])
      rw [if_pos ⟨hlt, hpre⟩]
      simp only []
      by_cases hdname : (name.drop n.name.length).head? = some dotB ∧
          dataDname n.data = true
      · rw [if_pos hdname]
        exact ⟨_, rfl⟩
      · rw [if_neg hdname]
        rw [if_neg (fun hcc => by simpa using hcc.2)]
        obtain ⟨c0, hg0, ht0⟩ := wfHead_anon (by rw [← hanon]; exact hhead)
        rw [hg0]
        simp only []
        rw [ht0]
        exact ⟨_, rfl⟩
    | false =>
      have hfsz : size n + 2 ≤ f + 1 := by rw [hfallb] at hf; simpa using hf
      by_cases hcond : n.name.length < name.length ∧ name.take n.name.length = n.name
      · rw [if_pos hcond]
        simp only []
        by_cases hdname : (name.drop n.name.length).head? = some dotB ∧
            dataDname n.data = true
        · rw [if_pos hdname]
          exact ⟨_, rfl⟩
        · rw [if_neg hdname]
          have hfb' : ∀ fn fname fp,
              (if n.wildChild = WildChild.anonymous then some (n, name, p)
                else fb) = some (fn, fname, fp) →
              wfP fn = true ∧ fn.wildChild = WildChild.anonymous ∧
              fn.name.length < fname.length ∧
              fname.take fn.name.length = fn.name := by
            intro fn fname fp hr
            by_cases ha : n.wildChild = WildChild.anonymous
            · rw [if_pos ha] at hr
              injection hr with hr
              have h1 : n = fn := congrArg Prod.fst hr
              have h2 : name = fname := congrArg (fun x => x.2.1) hr
              subst h1
              subst h2
              exact ⟨hwf, ha, hcond.1, hcond.2⟩
            · rw [if_neg ha] at hr
              exact hfb fn fname fp hr
          by_cases hguard : n.wildChild ≠ WildChild.named ∧ (!false) = true
          · rw [if_pos hguard]
            cases hfi : findIdxByte n.indices ((name.drop n.name.length).getD 0 0) with
            | some i =>
              simp only []
              have hilt := findIdxByte_bound _ _ _ hfi
              have hjlt : (if n.wildChild ≠ WildChild.none then i + 1 else i) <
                  n.children.length := by
                unfold wcOff at hq1
                by_cases hz : n.wildChild ≠ WildChild.none
                · rw [if_pos hz] at hq1 ⊢
                  omega
                · rw [if_neg hz] at hq1 ⊢
                  omega
              obtain ⟨child, hgc⟩ := get?_of_lt _ _ hjlt
              rw [hgc]
              simp only []
              have hwfc := hch child (List.get?_mem hgc)
              have hszc : size child < size n := size_child_lt n child (List.get?_mem hgc)
              exact ih child (name.drop n.name.length) p _ false _ _ endv hwfc hfb'
                (fun hk => Bool.noConfusion hk) (by rw [if_neg (by simp)]; omega)
            | none =>
              simp only []
              cases hfbv : (if n.wildChild = WildChild.anonymous then some (n, name, p)
                  else fb) with
              | some t3 =>
                obtain ⟨fn, fname, fp⟩ := t3
                simp only []
                obtain ⟨hwfn, hanon2, hlt2, hpre2⟩ := hfb' fn fname fp hfbv
                have hfb2 : ∀ fn1 fname1 fp1, (some (fn, fname, fp) :
                    Option (Node × Bytes × List ParamKV)) = some (fn1, fname1, fp1) →
                    wfP fn1 = true ∧ fn1.wildChild = WildChild.anonymous ∧
                    fn1.name.length < fname1.length ∧
                    fname1.take fn1.name.length = fn1.name := by
                  intro fn1 fname1 fp1 hr
                  injection hr with hr
                  have e1 : fn = fn1 := congrArg Prod.fst hr
                  have e2 : fname = fname1 := congrArg (fun x => x.2.1) hr
                  subst e1
                  subst e2
                  exact ⟨hwfn, hanon2, hlt2, hpre2⟩
                exact ih fn fname fp _ true _ _ endv hwfn hfb2
                  (fun _ => ⟨hanon2, hlt2, hpre2⟩) (by rw [if_pos rfl]; omega)
              | none =>
                simp only []
                exact ⟨_, rfl⟩
          · rw [if_neg hguard]
            have hnamed : n.wildChild = WildChild.named := by
              by_contra hne
              exact hguard ⟨hne, rfl⟩
            obtain ⟨c0, hg0, ht0⟩ := wfHead_named (by rw [← hnamed]; exact hhead)
            rw [hg0]
            simp only []
            rcases ht0 with ⟨htp, hnl⟩ | ⟨htc, hnl⟩
            · rw [htp]
              rw [if_neg (by omega)]
              by_cases hend : ((name.drop n.name.length).takeWhile (· ≠ dotB)).length <
                  (name.drop n.name.length).length
              · rw [if_pos hend]
                simp only []
                by_cases hdn2 : dataDname c0.data = true
                · rw [if_pos hdn2]
                  exact ⟨_, rfl⟩
                · rw [if_neg hdn2]
                  by_cases hcc : 0 < c0.children.length
                  · rw [if_pos hcc]
                    obtain ⟨gchild, hgg⟩ := get?_of_lt c0.children 0 hcc
                    rw [hgg]
                    simp only []
                    have hwfc0 := hch c0 (List.get?_mem hg0)
                    have hwfg := (wfP_parts c0 hwfc0).2.2 gchild (List.get?_mem hgg)
                    have hszg : size gchild < size c0 :=
                      size_child_lt _ _ (List.get?_mem hgg)
                    have hszc : size c0 < size n :=
                      size_child_lt _ _ (List.get?_mem hg0)
                    exact ih gchild _ _ _ false _ _ _ hwfg hfb'
                      (fun hk => Bool.noConfusion hk)
                      (by simp only [if_neg Bool.false_ne_true]; omega)
                  · rw [if_neg hcc]
                    cases hfbv : (if n.wildChild = WildChild.anonymous
                        then some (n, name, p) else fb) with
                    | some t3 =>
                      obtain ⟨fn, fname, fp⟩ := t3
                      simp only []
                      obtain ⟨hwfn, hanon2, hlt2, hpre2⟩ := hfb' fn fname fp hfbv
                      have hfb2 : ∀ fn1 fname1 fp1, (some (fn, fname, fp) :
                          Option (Node × Bytes × List ParamKV)) = some (fn1, fname1, fp1) →
                          wfP fn1 = true ∧ fn1.wildChild = WildChild.anonymous ∧
                          fn1.name.length < fname1.length ∧
                          fname1.take fn1.name.length = fn1.name := by
                        intro fn1 fname1 fp1 hr
                        injection hr with hr
                        have e1 : fn = fn1 := congrArg Prod.fst hr
                        have e2 : fname = fname1 := congrArg (fun x => x.2.1) hr
                        subst e1
                        subst e2
                        exact ⟨hwfn, hanon2, hlt2, hpre2⟩
                      exact ih fn fname fp _ true _ _ _ hwfn hfb2
                        (fun _ => ⟨hanon2, hlt2, hpre2⟩)
                        (by rw [if_pos rfl]; omega)
                    | none =>
                      simp only []
                      exact ⟨_, rfl⟩
              · rw [if_neg hend]
                exact ⟨_, rfl⟩
            · rw [htc]
              simp only []
              rw [if_neg (by omega)]
              exact ⟨_, rfl⟩
      · rw [if_neg hcond]
        by_cases heq : name = n.name
        · rw [if_pos heq]
          exact ⟨_, rfl⟩
        · rw [if_neg heq]
          rw [if_neg (by simp)]
          cases hfbv : fb with
          | some t3 =>
            obtain ⟨fn, fname, fp⟩ := t3
            simp only []
            obtain ⟨hwfn, hanon2, hlt2, hpre2⟩ := hfb fn fname fp hfbv
            have hfb2 : ∀ fn1 fname1 fp1, (some (fn, fname, fp) :
                Option (Node × Bytes × List ParamKV)) = some (fn1, fname1, fp1) →
                wfP fn1 = true ∧ fn1.wildChild = WildChild.anonymous ∧
                fn1.name.length < fname1.length ∧
                fname1.take fn1.name.length = fn1.name := by
              intro fn1 fname1 fp1 hr
              injection hr with hr
              have e1 : fn = fn1 := congrArg Prod.fst hr
              have e2 : fname = fname1 := congrArg (fun x => x.2.1) hr
              subst e1
              subst e2
              exact ⟨hwfn, hanon2, hlt2, hpre2⟩
            exact ih fn fname fp _ true _ _ _ hwfn hfb2
              (fun _ => ⟨hanon2, hlt2, hpre2⟩) (by rw [if_pos rfl]; omega)
          | none =>
            simp only []
            exact ⟨_, rfl⟩

@[simp] theorem wfP_withName (n : Node) (v : Bytes) : wfP (n.withName v) = wfP n := by cases n; rfl

@[simp] theorem wfP_withData (n : Node) (v : Option NodeData) : wfP (n.withData v) = wfP n := by cases n; rfl

@[simp] theorem wfP_withPriority (n : Node) (v : Nat) : wfP (n.withPriority v) = wfP n := by cases n; rfl

@[simp] theorem wfP_withMaxParams (n : Node) (v : Nat) : wfP (n.withMaxParams v) = wfP n := by cases n; rfl

@[simp] theorem wfP_withNType (n : Node) (v : NType) : wfP (n.withNType v) = wfP n := by cases n; rfl

theorem getD_of_get? {α : Type} (l : List α) (i : Nat) (x d : α)
    (h : l.get? i = some x) : l.getD i d = x := by
  induction l generalizing i with
  | nil => simp at h
  | cons a rest ih =>
    cases i with
    | zero =>
      have hax : a = x := Option.some.inj h
      subst hax
      rfl
    | succ k =>
      show rest.getD k d = x
      exact ih k h

theorem findIdxP_spec {α : Type} (p : α → Bool) :
    ∀ (l : List α) s k, l.findIdx? p s = some k →
      s ≤ k ∧ k - s < l.length ∧ ∃ x, l.get? (k - s) = some x ∧ p x = true := by
  intro l
  induction l with
  | nil =>
    intro s k h
    rw [List.findIdx?] at h
    exact Option.noConfusion h
  | cons a rest ih =>
    intro s k h
    rw [List.findIdx?] at h
    by_cases hp : p a = true
    · rw [if_pos hp] at h
      injection h with h
      subst h
      exact ⟨Nat.le_refl s, by simp, a, by simp, hp⟩
    · rw [if_neg hp] at h
      obtain ⟨h1, h2, x, h3, h4⟩ := ih (s + 1) k h
      refine ⟨by omega, by simp only [List.length_cons]; omega, x, ?_, h4⟩
      rw [show k - s = (k - (s + 1)) + 1 by omega]
      simpa using h3

theorem findWildFrom_spec (name : Bytes) (i iw : Nat)
    (h : findWildFrom name i = some iw) :
    i ≤ iw ∧ iw < name.length ∧
    (name.getD iw 0 = colonB ∨ name.getD iw 0 = starB) := by
  unfold findWildFrom at h
  cases hf : (name.drop i).findIdx? (fun c => c == colonB || c == starB) with
  | none => rw [hf] at h; exact Option.noConfusion h
  | some k =>
    rw [hf] at h
    injection h with h
    subst h
    obtain ⟨_, h2, x, h3, h4⟩ := findIdxP_spec _ _ 0 k hf
    simp only [Nat.sub_zero] at h2 h3
    rw [List.get?_drop] at h3
    rw [List.length_drop] at h2
    refine ⟨by omega, by omega, ?_⟩
    rw [getD_of_get? name (i + k) x 0 h3]
    simpa using h4

theorem wildEnd_spec (name : Bytes) :
    ∀ fuel s e, s ≤ name.length → name.length ≤ s + fuel →
      wildEnd name s fuel = some e →
      s ≤ e ∧ e ≤ name.length ∧ (e = name.length ∨ name.getD e 0 = dotB) ∧
      (∀ j, s ≤ j → j < e →
        ¬(name.getD j 0 = colonB ∨ name.getD j 0 = starB)) := by
  intro fuel
  induction fuel with
  | zero =>
    intro s e hs hl h
    rw [wildEnd] at h
    injection h with h
    subst h
    have : s = name.length := by omega
    exact ⟨Nat.le_refl s, by omega, Or.inl this, by omega⟩
  | succ f ih =>
    intro s e hs hl h
    rw [wildEnd] at h
    by_cases hlt : s < name.length
    · rw [if_pos hlt] at h
      simp only [] at h
      by_cases hdot : name.getD s 0 = dotB
      · rw [if_pos hdot] at h
        injection h with h
        subst h
        exact ⟨Nat.le_refl s, by omega, Or.inr hdot, by omega⟩
      · rw [if_neg hdot] at h
        by_cases hwild : name.getD s 0 = colonB ∨ name.getD s 0 = starB
        · rw [if_pos hwild] at h
          exact Option.noConfusion h
        · rw [if_neg hwild] at h
          obtain ⟨h1, h2, h3, h4⟩ := ih (s + 1) e (by omega) (by omega) h
          refine ⟨by omega, h2, h3, ?_⟩
          intro j hj1 hj2
          rcases Nat.eq_or_lt_of_le hj1 with rfl | hj1'
          · exact hwild
          · exact h4 j (by omega) hj2
    · rw [if_neg hlt] at h
      injection h with h
      subst h
      have : s = name.length := by omega
      exact ⟨Nat.le_refl s, by omega, Or.inl this, by omega⟩

theorem wfP_idx_le (n : Node) (h : wfP n = true) :
    n.indices.length ≤ n.children.length := by
  obtain ⟨hq1, _, _⟩ := wfP_parts n h
  unfold wcOff at hq1
  by_cases hz : n.wildChild ≠ WildChild.none
  · rw [if_pos hz] at hq1
    omega
  · rw [if_neg hz] at hq1
    omega

theorem wfP_nochild (n : Node) (hwf : wfP n = true)
    (h : ¬ 0 < n.children.length) :
    n.indices = [] ∧ n.wildChild = WildChild.none := by
  obtain ⟨hq1, _, _⟩ := wfP_parts n hwf
  have hlen : n.children.length = 0 := by omega
  unfold wcOff at hq1
  by_cases hz : n.wildChild ≠ WildChild.none
  · rw [if_pos hz] at hq1
    omega
  · rw [if_neg hz] at hq1
    exact ⟨List.eq_nil_of_length_eq_zero (by omega), not_not.mp hz⟩

theorem icGo_wf (name fullName : Bytes) (th : TypeHandler) :
    ∀ np n i offset,
      (icGo name fullName th n np i offset).1.nType = n.nType ∧
      (wfP n = true →
        (∀ iw, findWildFrom name i = some iw → offset ≤ iw) →
        (icGo name fullName th n np i offset).2 = Option.none →
        wfP (icGo name fullName th n np i offset).1 = true) := by
  intro np
  induction np with
  | zero =>
    intro n i offset
    rw [icGo_zero_eq]
    exact ⟨by simp, fun hwf _ _ => by simpa using hwf⟩
  | succ k ih =>
    intro n i offset
    rw [icGo_succ_eq]
    unfold icStep
    cases hw : findWildFrom name i with
    | none => exact ⟨rfl, fun _ _ hk => absurd hk (by simp)⟩
    | some iw =>
      simp only []
      obtain ⟨hiw1, hiw2, hiw3⟩ := findWildFrom_spec name i iw hw
      cases he : wildEnd name (iw + 1) name.length with
      | none => exact ⟨rfl, fun _ _ hk => absurd hk (by simp)⟩
      | some e0 =>
        simp only []
        obtain ⟨he1, he2, he3, he4⟩ := wildEnd_spec name name.length (iw + 1) e0
          (by omega) (by omega) he
        by_cases hanon : (name.getD iw 0 = starB ∧ e0 = name.length ∧
            hasSuf fullName [dotB, starB] = true)
        · rw [if_pos hanon]
          constructor
          · by_cases hiw : 0 < iw <;> simp [hiw]
          · intro hwf hinv _
            obtain ⟨hq1, hhead, hwl⟩ := wfP_parts n hwf
            have hq1w := wfP_idx_le n hwf
            rw [wfP_node_iff]
            by_cases hiw : 0 < iw
            · refine ⟨?_, ?_, ?_⟩
              · simp [hiw, wcOff]
                omega
              · simp [hiw, wfHead]
              · simp only [hiw, if_true, ite_true, children_withWildChild,
                  children_withChildren]
                rw [wfPL, Bool.and_eq_true]
                refine ⟨rfl, ?_⟩
                rw [children_withName]
                exact (wfPL_iff _).mpr hwl
            · refine ⟨?_, ?_, ?_⟩
              · simp [hiw, wcOff]
                omega
              · simp [hiw, wfHead]
              · simp only [hiw, if_false, ite_false, children_withWildChild,
                  children_withChildren]
                rw [wfPL, Bool.and_eq_true]
                exact ⟨rfl, (wfPL_iff _).mpr hwl⟩
        · rw [if_neg hanon]
          by_cases hch : 0 < n.children.length
          · rw [if_pos hch]
            exact ⟨rfl, fun _ _ hk => absurd hk (by simp)⟩
          · rw [if_neg hch]
            by_cases hew : e0 - iw < 2
            · rw [if_pos hew]
              exact ⟨rfl, fun _ _ hk => absurd hk (by simp)⟩
            · rw [if_neg hew]
              by_cases hcol : name.getD iw 0 = colonB
              · rw [if_pos hcol]
                by_cases hee : e0 < name.length
                · rw [if_pos hee]
                  obtain ⟨ihT, ihW⟩ := ih ((Node.empty.withMaxParams k).withPriority 1)
                    (iw + 1) e0
                  constructor
                  · by_cases hiw : 0 < iw <;> simp [hiw]
                  · intro hwf hinv hok
                    obtain ⟨hinil, hwnone⟩ := wfP_nochild n hwf hch
                    have hR1 := ihW rfl (by
                      intro iw2 hfw2
                      obtain ⟨hs1, hs2, hs3⟩ := findWildFrom_spec name (iw + 1) iw2 hfw2
                      by_contra hlt
                      exact he4 iw2 hs1 (by omega) hs3) hok
                    rw [wfP_node_iff]
                    refine ⟨?_, ?_, ?_⟩
                    · by_cases hiw : 0 < iw <;> simp [hiw, wcOff, hinil]
                    · have hoffle := hinv iw rfl
                      by_cases hiw : 0 < iw <;>
                        · simp [hiw, wfHead]
                          omega
                    · by_cases hiw : 0 < iw <;>
                        · simp only [hiw, if_true, if_false, ite_true, ite_false,
                            children_withWildChild, children_withChildren]
                          rw [wfPL, Bool.and_eq_true]
                          refine ⟨?_, rfl⟩
                          rw [wfP_node_iff]
                          refine ⟨by simp [wcOff], by simp [wfHead], ?_⟩
                          simp only [children_mk]
                          rw [wfPL, Bool.and_eq_true]
                          exact ⟨hR1, rfl⟩
                · rw [if_neg hee]
                  have hlen : e0 = name.length := by omega
                  constructor
                  · by_cases hiw : 0 < iw <;> simp [hiw]
                  · intro hwf hinv hok
                    obtain ⟨hinil, hwnone⟩ := wfP_nochild n hwf hch
                    cases k with
                    | zero =>
                      rw [icGo_zero_eq] at hok ⊢
                      rw [wfP_node_iff]
                      refine ⟨?_, ?_, ?_⟩
                      · by_cases hiw : 0 < iw <;> simp [hiw, wcOff, hinil]
                      · have hoffle := hinv iw rfl
                        by_cases hiw : 0 < iw <;>
                          · simp [hiw, wfHead]
                            omega
                      · by_cases hiw : 0 < iw <;>
                          · simp only [hiw, if_true, if_false, ite_true, ite_false,
                              children_withWildChild, children_withChildren]
                            rw [wfPL, Bool.and_eq_true]
                            exact ⟨rfl, rfl⟩
                    | succ k2 =>
                      rw [icGo_succ_eq] at hok
                      unfold icStep at hok
                      cases hw2 : findWildFrom name (iw + 1) with
                      | none =>
                        rw [hw2] at hok
                        simp at hok
                      | some iw2 =>
                        obtain ⟨hs1, hs2, hs3⟩ := findWildFrom_spec name (iw + 1) iw2 hw2
                        exact absurd hs3 (he4 iw2 hs1 (by omega))
              · rw [if_neg hcol]
                by_cases hca : e0 ≠ name.length ∨ 1 < k + 1
                · rw [if_pos hca]
                  exact ⟨rfl, fun _ _ hk => absurd hk (by simp)⟩
                · rw [if_neg hca]
                  by_cases hrt : 0 < n.name.length ∧ n.name.getLast? = some dotB
                  · rw [if_pos hrt]
                    exact ⟨rfl, fun _ _ hk => absurd hk (by simp)⟩
                  · rw [if_neg hrt]
                    by_cases hiz : iw = 0
                    · rw [if_pos hiz]
                      exact ⟨rfl, fun _ _ hk => absurd hk (by simp)⟩
                    · rw [if_neg hiz]
                      by_cases hdot : name.getD (iw - 1) 0 ≠ dotB
                      · rw [if_pos hdot]
                        exact ⟨rfl, fun _ _ hk => absurd hk (by simp)⟩
                      · rw [if_neg hdot]
                        constructor
                        · simp
                        · intro hwf hinv _
                          obtain ⟨hinil, hwnone⟩ := wfP_nochild n hwf hch
                          rw [wfP_node_iff]
                          refine ⟨?_, ?_, ?_⟩
                          · simp [wcOff, hwnone]
                          · simp [wfHead, hwnone]
                          · simp only [children_withIndices, children_withChildren]
                            rw [wfPL, Bool.and_eq_true]
                            refine ⟨?_, rfl⟩
                            rw [wfP_node_iff]
                            refine ⟨by simp [wcOff], ?_, ?_⟩
                            · simp [wfHead]
                              omega
                            · simp only [children_mk]
                              rw [wfPL, Bool.and_eq_true]
                              exact ⟨rfl, rfl⟩

theorem icpLoop_le (off prio : Nat) :
    ∀ m cs cs' d, icpLoop off prio cs m = some (cs', d) → d ≤ m := by
  intro m
  induction m with
  | zero =>
    intro cs cs' d h
    rw [icpLoop] at h
    injection h with h
    injection h with _ h2
    omega
  | succ k ih =>
    intro cs cs' d h
    rw [icpLoop] at h
    cases hg : cs.get? k with
    | none => rw [hg] at h; exact absurd h (by simp)
    | some prev =>
      rw [hg] at h
      simp only [] at h
      by_cases hp : prev.priority < prio
      · rw [if_pos hp] at h
        cases hga : cs.get? (k + off) with
        | none => rw [hga] at h; exact absurd h (by simp)
        | some a =>
          cases hgb : cs.get? (k + 1 + off) with
          | none => rw [hga, hgb] at h; exact absurd h (by simp)
          | some b =>
            rw [hga, hgb] at h
            simp only [] at h
            have := ih _ _ _ h
            omega
      · rw [if_neg hp] at h
        injection h with h
        injection h with _ h2
        omega

theorem icpLoop_get_lt (off prio : Nat) :
    ∀ m cs cs' d, icpLoop off prio cs m = some (cs', d) →
      ∀ k, k < off → cs'.get? k = cs.get? k := by
  intro m
  induction m with
  | zero =>
    intro cs cs' d h k hk
    rw [icpLoop] at h
    injection h with h
    injection h with h1 _
    rw [← h1]
  | succ m' ih =>
    intro cs cs' d h k hk
    rw [icpLoop] at h
    cases hg : cs.get? m' with
    | none => rw [hg] at h; exact absurd h (by simp)
    | some prev =>
      rw [hg] at h
      simp only [] at h
      by_cases hp : prev.priority < prio
      · rw [if_pos hp] at h
        cases hga : cs.get? (m' + off) with
        | none => rw [hga] at h; exact absurd h (by simp)
        | some a =>
          cases hgb : cs.get? (m' + 1 + off) with
          | none => rw [hga, hgb] at h; exact absurd h (by simp)
          | some b =>
            rw [hga, hgb] at h
            simp only [] at h
            have hrec := ih _ _ _ h k hk
            rw [hrec]
            rw [get?_set_ne _ _ _ _ (by omega)]
            rw [get?_set_ne _ _ _ _ (by omega)]
      · rw [if_neg hp] at h
        injection h with h
        injection h with h1 _
        rw [← h1]

theorem incrementChildPrio_shape (n : Node) (pos : Nat) (n2 : Node) (j : Nat)
    (h : incrementChildPrio n pos = some (n2, j)) :
    wcOff n ≤ j ∧
    n2.children.length = n.children.length ∧
    n2.indices.length = n.indices.length ∧
    (∀ k, k < wcOff n → n2.children.get? k = n.children.get? k) := by
  unfold incrementChildPrio at h
  cases hg : n.children.get? (pos + wcOff n) with
  | none => rw [hg] at h; exact absurd h (by simp)
  | some child =>
    rw [hg] at h
    simp only [] at h
    cases hloop : icpLoop (wcOff n) (child.priority + 1)
        (n.children.set (pos + wcOff n)
          (child.withPriority (child.priority + 1))) pos with
    | none => rw [hloop] at h; exact absurd h (by simp)
    | some res =>
      rw [hloop] at h
      obtain ⟨cs', newPos⟩ := res
      have hms := (icpLoop_spec _ _ _ _ _ _ hloop).1
      have hle := icpLoop_le _ _ _ _ _ _ hloop
      have hget := icpLoop_get_lt _ _ _ _ _ _ hloop
      have hlen : cs'.length = n.children.length := by
        have := congrArg Multiset.card hms
        simpa using this
      have hget2 : ∀ k, k < wcOff n → cs'.get? k = n.children.get? k := by
        intro k hk
        rw [hget k hk]
        rw [get?_set_ne _ _ _ _ (by omega)]
      simp only [] at h
      by_cases hnp : newPos ≠ pos
      · rw [if_pos hnp] at h
        by_cases hidx : pos < n.indices.length
        · rw [if_pos hidx] at h
          injection h with h
          injection h with h1 h2
          subst h1
          subst h2
          refine ⟨by omega, by simpa using hlen, ?_, by simpa using hget2⟩
          simp only [indices_withIndices, indices_withChildren]
          rw [List.length_append, List.length_append, List.length_append,
            List.length_take, List.length_take, List.length_drop,
            List.length_drop]
          simp only [List.length_cons, List.length_nil]
          omega
        · rw [if_neg hidx] at h
          exact absurd h (by simp)
      · rw [if_neg hnp] at h
        injection h with h
        injection h with h1 h2
        subst h1
        subst h2
        exact ⟨by omega, by simpa using hlen, by simp, by simpa using hget2⟩

theorem wfHead_congr {wc : WildChild} {cs cs' : List Node}
    (h : cs'.get? 0 = cs.get? 0) : wfHead wc cs' = wfHead wc cs := by
  cases wc with
  | none => rfl
  | named =>
    unfold wfHead
    rw [h]
  | anonymous =>
    unfold wfHead
    rw [h]

theorem incrementChildPrio_wfP (n : Node) (pos : Nat) (n2 : Node) (j : Nat)
    (h : incrementChildPrio n pos = some (n2, j)) (hwf : wfP n = true) :
    wfP n2 = true := by
  obtain ⟨c, hgc, hgj, hex, _, _, _, hwc, _, _⟩ :=
    incrementChildPrio_spec n pos n2 j h
  obtain ⟨hj, hclen, hilen, hget0⟩ := incrementChildPrio_shape n pos n2 j h
  obtain ⟨hq1, hhead, hmem⟩ := wfP_parts n hwf
  rw [wfP_node_iff]
  refine ⟨?_, ?_, ?_⟩
  · rw [hclen, hilen]
    rw [show wcOff n2 = wcOff n from by unfold wcOff; rw [hwc]]
    exact hq1
  · rw [hwc]
    by_cases hz : n.wildChild = WildChild.none
    · rw [hz]
      rfl
    · have hoff : wcOff n = 1 := by unfold wcOff; rw [if_pos hz]
      rw [wfHead_congr (hget0 0 (by omega))]
      exact hhead
  · rw [wfPL_iff]
    intro y hy
    rcases mem_of_ms_exchange hex hy with hy' | hy'
    · exact hmem y hy'
    · subst hy'
      simpa using hmem c (List.get?_mem hgc)

theorem commonPrefixLen_of_prefix :
    ∀ (s nm : Bytes), s.length ≤ nm.length → nm.take s.length = s →
      commonPrefixLen nm s = s.length := by
  intro s
  induction s with
  | nil =>
    intro nm _ _
    cases nm <;> rfl
  | cons b bs ih =>
    intro nm hlen htake
    cases nm with
    | nil => simp at hlen
    | cons a rest =>
      simp only [List.length_cons, List.take] at hlen htake
      injection htake with h1 h2
      rw [commonPrefixLen]
      rw [if_pos h1]
      rw [ih rest (by omega) h2]
      rfl

theorem findWildFrom_zero_of_wild (nm : Bytes)
    (h : nm.getD 0 0 = colonB ∨ nm.getD 0 0 = starB) :
    findWildFrom nm 0 = some 0 := by
  cases nm with
  | nil =>
    exfalso
    rcases h with h | h <;> simp [List.getD, colonB, starB] at h
  | cons a rest =>
    unfold findWildFrom
    simp only [List.drop_zero]
    rw [List.findIdx?_cons]
    rw [if_pos (by rcases h with h | h <;> simp [List.getD] at h <;> simp [h])]

theorem icGo_name_of_wild (name fullName : Bytes) (th : TypeHandler)
    (k : Nat) (n : Node)
    (h : name.getD 0 0 = colonB ∨ name.getD 0 0 = starB) :
    (icGo name fullName th n (k + 1) 0 0).1.name = n.name := by
  rw [icGo_succ_eq]
  unfold icStep
  rw [findWildFrom_zero_of_wild name h]
  simp only []
  cases he : wildEnd name (0 + 1) name.length with
  | none => rfl
  | some e0 =>
    simp only []
    by_cases hanon : (name.getD 0 0 = starB ∧ e0 = name.length ∧
        hasSuf fullName [dotB, starB] = true)
    · rw [if_pos hanon]
      simp
    · rw [if_neg hanon]
      by_cases hch : 0 < n.children.length
      · rw [if_pos hch]
      · rw [if_neg hch]
        by_cases hew : e0 - 0 < 2
        · rw [if_pos hew]
        · rw [if_neg hew]
          by_cases hcol : name.getD 0 0 = colonB
          · rw [if_pos hcol]
            by_cases hee : e0 < name.length
            · rw [if_pos hee]
              simp
            · rw [if_neg hee]
              simp
          · rw [if_neg hcol]
            by_cases hca : e0 ≠ name.length ∨ 1 < k + 1
            · rw [if_pos hca]
            · rw [if_neg hca]
              by_cases hrt : 0 < n.name.length ∧ n.name.getLast? = some dotB
              · rw [if_pos hrt]
              · rw [if_neg hrt]
                rw [if_pos trivial]

/-- `arStepMain` preserves the node type; it preserves the name whenever the
remaining-name head byte is not a wildcard marker; and it never shrinks a
nonempty name to empty. -/
theorem arStepMain_shape (fullName : Bytes) (allowDup : Bool) (th : TypeHandler)
    (rec : Node → Bytes → Nat → Node × Option AddErr)
    (n : Node) (name : Bytes) (numParams i : Nat) :
    (arStepMain fullName allowDup th rec n name numParams i).1.nType = n.nType ∧
    (((name.drop i).getD 0 0 ≠ colonB ∧ (name.drop i).getD 0 0 ≠ starB) →
      (arStepMain fullName allowDup th rec n name numParams i).1.name = n.name) ∧
    (1 ≤ n.name.length →
      1 ≤ (arStepMain fullName allowDup th rec n name numParams i).1.name.length) := by
  unfold arStepMain
  by_cases h1 : i < name.length
  · rw [if_pos h1]
    simp only []
    by_cases hw : n.wildChild = WildChild.named
    · rw [if_pos hw]
      cases hg0 : n.children.get? 0 with
      | none => exact ⟨rfl, fun _ => rfl, fun h => h⟩
      | some c0 =>
        simp only []
        set c2 := if (c0.withPriority (c0.priority + 1)).maxParams < numParams then
            (c0.withPriority (c0.priority + 1)).withMaxParams numParams
          else c0.withPriority (c0.priority + 1) with hc2
        by_cases hcond : c2.name.length ≤ (name.drop i).length ∧
            (name.drop i).take c2.name.length = c2.name ∧
            ((name.drop i).length ≤ c2.name.length ∨
              (name.drop i).getD c2.name.length 0 = dotB)
        · rw [if_pos hcond]
          exact ⟨by simp, fun _ => by simp, fun h => by simpa using h⟩
        · rw [if_neg hcond]
          exact ⟨by simp, fun _ => by simp, fun h => by simpa using h⟩
    · rw [if_neg hw]
      by_cases hpar : n.nType = NType.param ∧ (name.drop i).getD 0 0 = dotB ∧
          n.children.length = 1
      · rw [if_pos hpar]
        cases hg0 : n.children.get? 0 with
        | none => exact ⟨rfl, fun _ => rfl, fun h => h⟩
        | some c0 =>
          simp only []
          exact ⟨by simp, fun _ => by simp, fun h => by simpa using h⟩
      · rw [if_neg hpar]
        cases hfi : findIdxByte n.indices ((name.drop i).getD 0 0) with
        | some ipos =>
          simp only []
          cases hicp : incrementChildPrio n ipos with
          | none => exact ⟨rfl, fun _ => rfl, fun h => h⟩
          | some res =>
            obtain ⟨n2, j⟩ := res
            simp only []
            obtain ⟨_, _, _, _, _, _, hn2n, _, hn2t, _⟩ :=
              incrementChildPrio_spec n ipos n2 j hicp
            cases hgj2 : n2.children.get? j with
            | none => exact ⟨hn2t, fun _ => hn2n, fun h => by rw [hn2n]; exact h⟩
            | some cj =>
              simp only []
              exact ⟨by simp [hn2t], fun _ => by simp [hn2n],
                fun h => by simpa [hn2n] using h⟩
        | none =>
          simp only []
          by_cases hcs : (name.drop i).getD 0 0 ≠ colonB ∧ (name.drop i).getD 0 0 ≠ starB
          · rw [if_pos hcs]
            set N2 := (n.withIndices (n.indices ++ [(name.drop i).getD 0 0])).withChildren
              (n.children ++ [Node.empty.withMaxParams numParams]) with hN2
            have hN2n : N2.name = n.name := by rw [hN2]; simp
            have hN2t : N2.nType = n.nType := by rw [hN2]; simp
            cases hicp : incrementChildPrio N2 (N2.indices.length - 1) with
            | none => exact ⟨hN2t, fun _ => hN2n, fun h => by rw [hN2n]; exact h⟩
            | some res =>
              obtain ⟨n3, j⟩ := res
              simp only []
              obtain ⟨_, _, _, _, _, _, hn3n, _, hn3t, _⟩ :=
                incrementChildPrio_spec N2 (N2.indices.length - 1) n3 j hicp
              have hn3n' : n3.name = n.name := hn3n.trans hN2n
              have hn3t' : n3.nType = n.nType := hn3t.trans hN2t
              cases hgj2 : n3.children.get? j with
              | none => exact ⟨hn3t', fun _ => hn3n', fun h => by rw [hn3n']; exact h⟩
              | some cj =>
                simp only []
                exact ⟨by simp [hn3t'], fun _ => by simp [hn3n'],
                  fun h => by simpa [hn3n'] using h⟩
          · rw [if_neg hcs]
            by_cases hanon : n.wildChild = WildChild.anonymous
            · rw [if_pos hanon]
              by_cases hdup : (!allowDup) = true
              · rw [if_pos hdup]
                exact ⟨rfl, fun _ => rfl, fun h => h⟩
              · rw [if_neg hdup]
                cases hg0 : n.children.get? 0 with
                | none => exact ⟨rfl, fun _ => rfl, fun h => h⟩
                | some c0 =>
                  simp only []
                  cases hd0 : c0.data with
                  | none => exact ⟨rfl, fun _ => rfl, fun h => h⟩
                  | some d =>
                    simp only []
                    exact ⟨by simp, fun _ => by simp, fun h => by simpa using h⟩
            · rw [if_neg hanon]
              rw [insertChild_eq]
              have hwild : (name.drop i).getD 0 0 = colonB ∨
                  (name.drop i).getD 0 0 = starB := by
                by_contra hno
                push_neg at hno
                exact hcs ⟨hno.1, hno.2⟩
              refine ⟨(icGo_wf (name.drop i) fullName th numParams n 0 0).1, ?_, ?_⟩
              · intro hdk
                rcases hwild with h | h
                · exact absurd h hdk.1
                · exact absurd h hdk.2
              · intro _
                cases numParams with
                | zero =>
                  rw [icGo_zero_eq]
                  simp only [name_withData, name_withName, List.drop_zero]
                  rw [List.length_drop]
                  omega
                | succ k2 =>
                  rw [icGo_name_of_wild (name.drop i) fullName th k2 n hwild]
                  omega
  · rw [if_neg h1]
    by_cases hd : n.data.isSome = true ∧ (!allowDup) = true
    · rw [if_pos hd]
      exact ⟨rfl, fun _ => rfl, fun h => h⟩
    · rw [if_neg hd]
      simp only []
      exact ⟨by simp, fun _ => by simp, fun h => by simpa using h⟩

theorem wcOff_withChildren (n : Node) (v : List Node) :
    wcOff (n.withChildren v) = wcOff n := by
  unfold wcOff
  rw [wildChild_withChildren]

theorem arSplit_nType (n : Node) (name : Bytes) (i : Nat) :
    (arSplit n name i).nType = n.nType := by
  unfold arSplit
  by_cases h : i < n.name.length
  · rw [if_pos h]
    simp
  · rw [if_neg h]

/-- Splitting an edge preserves the panic-freedom invariant: the original
node becomes the single child of a fresh indexed static parent. -/
theorem arSplit_wfP (n : Node) (name : Bytes) (i : Nat) (hwf : wfP n = true) :
    wfP (arSplit n name i) = true := by
  unfold arSplit
  by_cases h : i < n.name.length
  · rw [if_pos h]
    simp only []
    obtain ⟨hq1, hq2, hq3⟩ := (wfP_node_iff n).mp hwf
    have hchild : wfP (Node.mk (n.name.drop i) n.wildChild NType.static
        (n.children.foldl (fun m c => max m c.maxParams) 0)
        n.indices n.children n.data (n.priority - 1)) = true := by
      rw [wfP_node_iff]
      exact ⟨hq1, hq2, hq3⟩
    rw [wfP_node_iff]
    refine ⟨?_, ?_, ?_⟩
    · simp [wcOff]
    · simp only [wildChild_withWildChild]
      rfl
    · simp only [children_withWildChild, children_withData, children_withName,
        children_withIndices, children_withChildren]
      rw [wfPL]
      rw [hchild]
      rfl
  · rw [if_neg h]
    exact hwf

/-- Replacing a child in place preserves the panic-freedom invariant,
provided the replacement is itself well-formed and either sits past the
reserved wildcard slot or keeps the slot-zero shape. -/
theorem wfP_set_child (n : Node) (j : Nat) (cj r : Node)
    (hwf : wfP n = true) (hg : n.children.get? j = some cj)
    (hr : wfP r = true)
    (hslot : wcOff n ≤ j ∨ (r.nType = cj.nType ∧
      (n.wildChild = WildChild.named → r.name = cj.name))) :
    wfP (n.withChildren (n.children.set j r)) = true := by
  obtain ⟨hq1, hq2, hq3'⟩ := (wfP_node_iff n).mp hwf
  have hq3 : ∀ c ∈ n.children, wfP c = true := (wfPL_iff _).mp hq3'
  rw [wfP_node_iff]
  refine ⟨?_, ?_, ?_⟩
  · rw [wcOff_withChildren]
    simp only [children_withChildren, indices_withChildren, List.length_set]
    exact hq1
  · simp only [wildChild_withChildren, children_withChildren]
    by_cases hz : n.wildChild = WildChild.none
    · rw [hz]
      rfl
    · have hoff : wcOff n = 1 := by unfold wcOff; rw [if_pos hz]
      by_cases hj0 : j = 0
      · subst hj0
        rcases hslot with hj | ⟨ht, hn⟩
        · omega
        · have h0 : (n.children.set 0 r).get? 0 = some r :=
            get?_set_self n.children 0 cj r hg
          cases hwc : n.wildChild with
          | none => exact absurd hwc hz
          | named =>
            rw [hwc] at hq2
            obtain ⟨c0, hg0, hd⟩ := wfHead_named hq2
            have hcc : cj = c0 := by
              have := hg.symm.trans hg0
              injection this
            unfold wfHead
            rw [h0]
            simp only []
            rw [ht, hn hwc, hcc]
            rcases hd with ⟨h1, h2⟩ | ⟨h1, h2⟩
            · simp [h1, h2]
            · simp [h1, h2]
          | anonymous =>
            rw [hwc] at hq2
            obtain ⟨c0, hg0, hd⟩ := wfHead_anon hq2
            have hcc : cj = c0 := by
              have := hg.symm.trans hg0
              injection this
            unfold wfHead
            rw [h0]
            simp only []
            rw [ht, hcc]
            simp [hd]
      · rw [wfHead_congr (get?_set_ne n.children j 0 r hj0)]
        exact hq2
  · simp only [children_withChildren]
    rw [wfPL_iff]
    intro y hy
    rcases List.mem_or_eq_of_mem_set hy with hy' | hy'
    · exact hq3 y hy'
    · subst hy'
      exact hr

theorem getD_drop0 (l : Bytes) (k : Nat) :
    (l.drop k).getD 0 0 = l.getD k 0 := by
  unfold List.getD
  rw [List.get?_drop]
  simp

/-- One `walk` iteration preserves the panic-freedom invariant on success,
provided the recursive continuation does (with its name/type-shape
side conditions). -/
theorem arStepMain_wf (fullName : Bytes) (allowDup : Bool) (th : TypeHandler)
    (rec : Node → Bytes → Nat → Node × Option AddErr)
    (hrecT : ∀ m nm np, (rec m nm np).1.nType = m.nType)
    (hrecN : ∀ m nm np, m.name.length ≤ nm.length → nm.take m.name.length = m.name →
      ((nm.drop m.name.length).getD 0 0 ≠ colonB ∧
       (nm.drop m.name.length).getD 0 0 ≠ starB) →
      (rec m nm np).1.name = m.name)
    (hrecW : ∀ m nm np, wfP m = true → (rec m nm np).2 = Option.none →
      wfP (rec m nm np).1 = true)
    (n : Node) (name : Bytes) (numParams i : Nat) (hwf : wfP n = true) :
    (arStepMain fullName allowDup th rec n name numParams i).2 = Option.none →
    wfP (arStepMain fullName allowDup th rec n name numParams i).1 = true := by
  unfold arStepMain
  by_cases h1 : i < name.length
  · rw [if_pos h1]
    simp only []
    by_cases hw : n.wildChild = WildChild.named
    · rw [if_pos hw]
      cases hg0 : n.children.get? 0 with
      | none => exact fun hk => Option.noConfusion hk
      | some c0 =>
        simp only []
        set c2 := if (c0.withPriority (c0.priority + 1)).maxParams < numParams then
            (c0.withPriority (c0.priority + 1)).withMaxParams numParams
          else c0.withPriority (c0.priority + 1) with hc2
        have hc2t : c2.nType = c0.nType := by
          rw [hc2]
          by_cases hmp : c0.maxParams < numParams <;> simp [hmp]
        have hc2n : c2.name = c0.name := by
          rw [hc2]
          by_cases hmp : c0.maxParams < numParams <;> simp [hmp]
        by_cases hcond : c2.name.length ≤ (name.drop i).length ∧
            (name.drop i).take c2.name.length = c2.name ∧
            ((name.drop i).length ≤ c2.name.length ∨
              (name.drop i).getD c2.name.length 0 = dotB)
        · rw [if_pos hcond]
          intro hok2
          try simp only [] at hok2
          obtain ⟨hq1, hq2, hq3⟩ := wfP_parts n hwf
          have hc0wf : wfP c0 = true := hq3 c0 (List.get?_mem hg0)
          have hc2wf : wfP c2 = true := by
            rw [hc2]
            by_cases hmp : c0.maxParams < numParams <;> simp [hmp, hc0wf]
          have hnw : ((name.drop i).drop c2.name.length).getD 0 0 ≠ colonB ∧
              ((name.drop i).drop c2.name.length).getD 0 0 ≠ starB := by
            rcases hcond.2.2 with hle | hdot
            · rw [List.drop_eq_nil_of_le hle]
              exact ⟨by decide, by decide⟩
            · rw [getD_drop0, hdot]
              exact ⟨by decide, by decide⟩
          have hrwf := hrecW c2 (name.drop i) (numParams - 1) hc2wf hok2
          have hrn := hrecN c2 (name.drop i) (numParams - 1) hcond.1 hcond.2.1 hnw
          have hrt := hrecT c2 (name.drop i) (numParams - 1)
          exact wfP_set_child n 0 c0 _ hwf hg0 hrwf
            (Or.inr ⟨hrt.trans hc2t, fun _ => hrn.trans hc2n⟩)
        · rw [if_neg hcond]
          exact fun hk => Option.noConfusion hk
    · rw [if_neg hw]
      by_cases hpar : n.nType = NType.param ∧ (name.drop i).getD 0 0 = dotB ∧
          n.children.length = 1
      · rw [if_pos hpar]
        cases hg0 : n.children.get? 0 with
        | none => exact fun hk => Option.noConfusion hk
        | some c0 =>
          simp only []
          intro hok2
          try simp only [] at hok2
          obtain ⟨hq1, hq2, hq3⟩ := wfP_parts n hwf
          have hc0wf : wfP c0 = true := hq3 c0 (List.get?_mem hg0)
          have hbwf : wfP (c0.withPriority (c0.priority + 1)) = true := by
            simpa using hc0wf
          have hrwf := hrecW (c0.withPriority (c0.priority + 1)) (name.drop i)
            numParams hbwf hok2
          refine wfP_set_child n 0 c0 _ hwf hg0 hrwf (Or.inr ⟨?_, ?_⟩)
          · exact (hrecT (c0.withPriority (c0.priority + 1)) (name.drop i)
              numParams).trans (by simp)
          · intro hnm
            exact absurd hnm hw
      · rw [if_neg hpar]
        cases hfi : findIdxByte n.indices ((name.drop i).getD 0 0) with
        | some ipos =>
          simp only []
          cases hicp : incrementChildPrio n ipos with
          | none => exact fun hk => Option.noConfusion hk
          | some res =>
            obtain ⟨n2, j⟩ := res
            simp only []
            obtain ⟨hj, _, _, _⟩ := incrementChildPrio_shape n ipos n2 j hicp
            obtain ⟨_, _, _, _, _, _, _, hn2w, _, _⟩ :=
              incrementChildPrio_spec n ipos n2 j hicp
            have hn2wf := incrementChildPrio_wfP n ipos n2 j hicp hwf
            cases hgj2 : n2.children.get? j with
            | none => exact fun hk => Option.noConfusion hk
            | some cj =>
              simp only []
              intro hok2
              try simp only [] at hok2
              have hcjwf : wfP cj = true :=
                (wfP_parts n2 hn2wf).2.2 cj (List.get?_mem hgj2)
              have hrwf := hrecW cj (name.drop i) numParams hcjwf hok2
              refine wfP_set_child n2 j cj _ hn2wf hgj2 hrwf (Or.inl ?_)
              rw [show wcOff n2 = wcOff n from by unfold wcOff; rw [hn2w]]
              exact hj
        | none =>
          simp only []
          by_cases hcs : (name.drop i).getD 0 0 ≠ colonB ∧ (name.drop i).getD 0 0 ≠ starB
          · rw [if_pos hcs]
            set N2 := (n.withIndices (n.indices ++ [(name.drop i).getD 0 0])).withChildren
              (n.children ++ [Node.empty.withMaxParams numParams]) with hN2
            obtain ⟨hq1, hq2, hq3⟩ := wfP_parts n hwf
            have hfreshwf : wfP (Node.empty.withMaxParams numParams) = true := by
              rw [wfP_withMaxParams]
              rfl
            have hN2wf : wfP N2 = true := by
              rw [hN2, wfP_node_iff]
              refine ⟨?_, ?_, ?_⟩
              · simp only [wcOff_withChildren, children_withChildren,
                  indices_withChildren, indices_withIndices, List.length_append,
                  List.length_cons, List.length_nil]
                have : wcOff ((n.withIndices (n.indices ++ [(name.drop i).getD 0 0]))) =
                    wcOff n := by
                  unfold wcOff
                  rw [wildChild_withIndices]
                rw [this]
                omega
              · simp only [wildChild_withChildren, wildChild_withIndices,
                  children_withChildren]
                by_cases hz : n.wildChild = WildChild.none
                · rw [hz]
                  rfl
                · have hoff : wcOff n = 1 := by unfold wcOff; rw [if_pos hz]
                  have hpos : 0 < n.children.length := by omega
                  rw [wfHead_congr (List.get?_append hpos)]
                  exact hq2
              · simp only [children_withChildren]
                rw [wfPL_iff]
                intro y hy
                rcases List.mem_append.mp hy with hm | hm
                · exact hq3 y hm
                · rw [show y = Node.empty.withMaxParams numParams from by simpa using hm]
                  exact hfreshwf
            cases hicp : incrementChildPrio N2 (N2.indices.length - 1) with
            | none => exact fun hk => Option.noConfusion hk
            | some res =>
              obtain ⟨n3, j⟩ := res
              simp only []
              obtain ⟨hj, _, _, _⟩ :=
                incrementChildPrio_shape N2 (N2.indices.length - 1) n3 j hicp
              obtain ⟨_, _, _, _, _, _, _, hn3w, _, _⟩ :=
                incrementChildPrio_spec N2 (N2.indices.length - 1) n3 j hicp
              have hn3wf := incrementChildPrio_wfP N2 (N2.indices.length - 1) n3 j
                hicp hN2wf
              cases hgj2 : n3.children.get? j with
              | none => exact fun hk => Option.noConfusion hk
              | some cj =>
                simp only []
                rw [insertChild_eq]
                intro hok2
                try simp only [] at hok2
                have hcjwf : wfP cj = true :=
                  (wfP_parts n3 hn3wf).2.2 cj (List.get?_mem hgj2)
                have hrwf := (icGo_wf (name.drop i) fullName th numParams cj 0 0).2
                  hcjwf (fun _ _ => Nat.zero_le _) hok2
                refine wfP_set_child n3 j cj _ hn3wf hgj2 hrwf (Or.inl ?_)
                rw [show wcOff n3 = wcOff N2 from by unfold wcOff; rw [hn3w]]
                exact hj
          · rw [if_neg hcs]
            by_cases hanon : n.wildChild = WildChild.anonymous
            · rw [if_pos hanon]
              by_cases hdup : (!allowDup) = true
              · rw [if_pos hdup]
                exact fun hk => Option.noConfusion hk
              · rw [if_neg hdup]
                cases hg0 : n.children.get? 0 with
                | none => exact fun hk => Option.noConfusion hk
                | some c0 =>
                  simp only []
                  cases hd0 : c0.data with
                  | none => exact fun hk => Option.noConfusion hk
                  | some d =>
                    simp only []
                    intro _
                    obtain ⟨hq1, hq2, hq3⟩ := wfP_parts n hwf
                    have hc0wf : wfP c0 = true := hq3 c0 (List.get?_mem hg0)
                    refine wfP_set_child n 0 c0 _ hwf hg0 (by simpa using hc0wf)
                      (Or.inr ⟨by simp, fun _ => by simp⟩)
            · rw [if_neg hanon]
              rw [insertChild_eq]
              intro hok2
              exact (icGo_wf (name.drop i) fullName th numParams n 0 0).2 hwf
                (fun _ _ => Nat.zero_le _) hok2
  · rw [if_neg h1]
    by_cases hd : n.data.isSome = true ∧ (!allowDup) = true
    · rw [if_pos hd]
      exact fun hk => Option.noConfusion hk
    · rw [if_neg hd]
      simp only []
      intro _
      simpa using hwf

/-- The `addRoute` walk preserves the node type unconditionally, and the
node name whenever the walked name extends the node name past a non-wild
byte. -/
theorem arWalk_shape (fullName : Bytes) (allowDup : Bool) (th : TypeHandler)
    (fuel : Nat) (n : Node) (name : Bytes) (numParams : Nat) :
    (arWalk fullName allowDup th fuel n name numParams).1.nType = n.nType ∧
    (n.name.length ≤ name.length → name.take n.name.length = n.name →
      ((name.drop n.name.length).getD 0 0 ≠ colonB ∧
       (name.drop n.name.length).getD 0 0 ≠ starB) →
      (arWalk fullName allowDup th fuel n name numParams).1.name = n.name) := by
  cases fuel with
  | zero => exact ⟨rfl, fun _ _ _ => rfl⟩
  | succ k =>
    have heq : arWalk fullName allowDup th (k + 1) n name numParams =
        arStep fullName allowDup th (arWalk fullName allowDup th k) n name
          numParams := rfl
    rw [heq]
    unfold arStep
    simp only []
    set M := if n.maxParams < numParams then n.withMaxParams numParams else n with hM
    have hMn : M.name = n.name := by
      rw [hM]
      by_cases hmp : n.maxParams < numParams <;> simp [hmp]
    have hMt : M.nType = n.nType := by
      rw [hM]
      by_cases hmp : n.maxParams < numParams <;> simp [hmp]
    constructor
    · rw [(arStepMain_shape fullName allowDup th (arWalk fullName allowDup th k)
        (arSplit M name (commonPrefixLen name M.name)) name numParams
        (commonPrefixLen name M.name)).1]
      rw [arSplit_nType]
      exact hMt
    · intro hle htake hnw
      have hcpl : commonPrefixLen name M.name = M.name.length :=
        commonPrefixLen_of_prefix M.name name (by rw [hMn]; exact hle)
          (by rw [hMn]; exact htake)
      have hsplit : arSplit M name (commonPrefixLen name M.name) = M := by
        unfold arSplit
        rw [hcpl]
        rw [if_neg (lt_irrefl _)]
      rw [hsplit]
      have hres := (arStepMain_shape fullName allowDup th
        (arWalk fullName allowDup th k) M name numParams
        (commonPrefixLen name M.name)).2.1 (by rw [hcpl, hMn]; exact hnw)
      exact hres.trans hMn

/-- The `addRoute` walk preserves the panic-freedom invariant on success. -/
theorem arWalk_wf (fullName : Bytes) (allowDup : Bool) (th : TypeHandler) :
    ∀ fuel (n : Node) (name : Bytes) (numParams : Nat), wfP n = true →
      (arWalk fullName allowDup th fuel n name numParams).2 = Option.none →
      wfP (arWalk fullName allowDup th fuel n name numParams).1 = true := by
  intro fuel
  induction fuel with
  | zero =>
    intro n name np _ hk
    exact Option.noConfusion hk
  | succ k ih =>
    intro n name np hwf hok
    have heq : arWalk fullName allowDup th (k + 1) n name np =
        arStep fullName allowDup th (arWalk fullName allowDup th k) n name np := rfl
    rw [heq] at hok ⊢
    unfold arStep at hok ⊢
    simp only [] at hok ⊢
    set M := if n.maxParams < np then n.withMaxParams np else n with hM
    have hMwf : wfP M = true := by
      rw [hM]
      by_cases hmp : n.maxParams < np <;> simp [hmp, hwf]
    exact arStepMain_wf fullName allowDup th (arWalk fullName allowDup th k)
      (fun m nm np2 => (arWalk_shape fullName allowDup th k m nm np2).1)
      (fun m nm np2 hh1 hh2 hh3 =>
        (arWalk_shape fullName allowDup th k m nm np2).2 hh1 hh2 hh3)
      (fun m nm np2 => ih m nm np2)
      (arSplit M name (commonPrefixLen name M.name)) name np
      (commonPrefixLen name M.name)
      (arSplit_wfP M name (commonPrefixLen name M.name) hMwf) hok

/-- `addRoute` preserves the panic-freedom invariant on success. -/
theorem addRoute_wf (fuel : Nat) (n : Node) (name : Bytes) (allowDup : Bool)
    (th : TypeHandler) (hwf : wfP n = true) :
    (addRoute fuel n name allowDup th).2 = Option.none →
    wfP (addRoute fuel n name allowDup th).1 = true := by
  unfold addRoute
  simp only []
  by_cases hb : 0 < (n.withPriority (n.priority + 1)).name.length ∨
      0 < (n.withPriority (n.priority + 1)).children.length
  · rw [if_pos hb]
    intro hok
    exact arWalk_wf name allowDup th fuel (n.withPriority (n.priority + 1)) name
      (countParams name) (by simpa using hwf) hok
  · rw [if_neg hb]
    try simp only []
    by_cases hnone : (insertChild (n.withPriority (n.priority + 1))
        (countParams name) name name th).2.isNone = true
    · rw [if_pos hnone]
      intro _
      rw [insertChild_eq] at hnone
      rw [insertChild_eq]
      rw [wfP_withNType]
      exact (icGo_wf name name th (countParams name)
        (n.withPriority (n.priority + 1)) 0 0).2 (by simpa using hwf)
        (fun _ _ => Nat.zero_le _) (Option.isNone_iff_eq_none.mp hnone)
    · rw [if_neg hnone]
      intro hok
      exact absurd (by rw [hok]; rfl) hnone

/-- With the panic-freedom invariant and enough fuel, `getValue` always
returns a value. -/
theorem getValue_ok (fuel : Nat) (t : Node) (name : Bytes) (hwf : wfP t = true)
    (hfuel : size t + 2 ≤ fuel) :
    ∃ v, getValue fuel t name = Except.ok v := by
  obtain ⟨o, ho⟩ := gvWalk_ok fuel t name [] Option.none false ⟨name, some t, []⟩
    [] 0 hwf (fun _ _ _ h => Option.noConfusion h) (fun h => Bool.noConfusion h)
    (by rw [if_neg (by simp)]; exact hfuel)
  unfold getValue
  rw [ho]
  exact ⟨_, rfl⟩

/-- **C9** (confirmed): lookup is infallible on trees built by successful
registrations.  The panic-freedom invariant `wfP` (indexed children fit past
the reserved wildcard slot, and wildcard slots have the shape the lookup
relies on) holds for the empty tree, is preserved by every successful
`addRoute`, and under it `getValue` always terminates normally with a
value — absence of a match is reported inside that value by a `none` node
together with the `cut` flag, never by a panic. -/
theorem getValue_total_on_registered_trees :
    wfP Node.empty = true ∧
    (∀ fuel t name allowDup th, wfP t = true →
      (addRoute fuel t name allowDup th).2 = Option.none →
      wfP (addRoute fuel t name allowDup th).1 = true) ∧
    (∀ fuel t name, wfP t = true → size t + 2 ≤ fuel →
      ∃ v, getValue fuel t name = Except.ok v) := by
  refine ⟨rfl, ?_, ?_⟩
  · intro fuel t name allowDup th hwf hok
    exact addRoute_wf fuel t name allowDup th hwf hok
  · intro fuel t name hwf hfuel
    exact getValue_ok fuel t name hwf hfuel

theorem getValue_total_on_registered_trees_witness :
    wfP (addRoute 50 Node.empty (strB ".doc") true
      ⟨[], 1, 0, 1, Option.none⟩).1 = true ∧
    (addRoute 50 (addRoute 50 Node.empty (strB ".doc") true
        ⟨[], 1, 0, 1, Option.none⟩).1 (strB ".cmd.:tool") true
        ⟨[], 2, 0, 2, Option.none⟩).2 = Option.none ∧
    wfP (addRoute 50 (addRoute 50 Node.empty (strB ".doc") true
        ⟨[], 1, 0, 1, Option.none⟩).1 (strB ".cmd.:tool") true
        ⟨[], 2, 0, 2, Option.none⟩).1 = true ∧
    (∃ v, getValue 50 (addRoute 50 (addRoute 50 Node.empty (strB ".doc") true
        ⟨[], 1, 0, 1, Option.none⟩).1 (strB ".cmd.:tool") true
        ⟨[], 2, 0, 2, Option.none⟩).1 (strB ".cmd.x") = Except.ok v) :=
  ⟨by decide, by decide,
    getValue_total_on_registered_trees.2.1 50
      (addRoute 50 Node.empty (strB ".doc") true ⟨[], 1, 0, 1, Option.none⟩).1
      (strB ".cmd.:tool") true ⟨[], 2, 0, 2, Option.none⟩ (by decide) (by decide),
    getValue_total_on_registered_trees.2.2 50
      (addRoute 50 (addRoute 50 Node.empty (strB ".doc") true
        ⟨[], 1, 0, 1, Option.none⟩).1 (strB ".cmd.:tool") true
        ⟨[], 2, 0, 2, Option.none⟩).1 (strB ".cmd.x") (by decide) (by decide)⟩

end DnsRouter
